import Mathlib

/-! Matrix_CPP: a shallow embedding of `matrix.h`.

The C++ library represents every view as a class `matrix<T, tag>` whose tag
(`basic_matrix`, `transpose_matrix<D>`, `submatrix<D>`, `diagonalmatrix<D>`,
`diagonal<D>`) records the chain of decorators.  A decorated matrix derives from
`matrix<T, D>`, so an object is its base sub-object plus the decorator's own
fields.  Here the whole family is one inductive type whose constructors carry
exactly the fields of the corresponding class.

* `unsigned int` values are natural numbers; every arithmetic operation the
  source performs on them is reduced modulo `2^32` explicitly.
* `std::shared_ptr<std::vector<T>>` is a handle (an index) into a heap of
  buffers; copying the pointer copies the handle.
* `operator()` returns a reference.  The embedding returns the designated
  location (`Ref`), which is then loaded from or stored to the heap.
* a failing `assert` is reported as an error value: `"Out of bounds!"` is
  `OutOfBounds`, `"Invalid matrix!"` is `InvalidShape` and the message of the
  `diagonal` accessor is `InvalidAccess`.
-/

namespace Matrix_CPP

/-- Reduction of a natural number to the range of `unsigned int` (32 bits). -/
def u32 (n : Nat) : Nat := n % 4294967296

/-- Subtraction of two `unsigned int` values, wrapping modulo `2^32`. -/
def usub (a b : Nat) : Nat := (a + 4294967296 - b) % 4294967296

/-- The three kinds of failed assertion of `matrix.h`. -/
inductive Failure where
  | OutOfBounds
  | InvalidShape
  | InvalidAccess
  deriving DecidableEq, Repr

deriving instance DecidableEq for Except

/-- The heap of element buffers: entry `p` is the `std::vector<T>` owned by the
shared pointer with handle `p`. -/
abbrev Heap (T : Type) := List (List T)

/-- What a `T&` / `const T&` returned by `operator()` designates: element `off`
of buffer `buf`, or the `null_element` member of a `diagonalmatrix` object (a
`const T` whose value is fixed at construction). -/
inductive Ref (T : Type) where
  | cell (buf : Nat) (off : Nat)
  | null_element (value : T)
  deriving DecidableEq, Repr

/-- The class family `matrix<T, tag>`.  Each constructor lists the data members
of the class for that tag; `base` is the inherited `matrix<T, decorator_matrix>`
sub-object. -/
inductive matrix (T : Type) where
  | basic_matrix (n_rows n_cols : Nat) (matrix_content : Nat)
  | transpose_matrix (base : matrix T)
  | submatrix (base : matrix T) (first_row last_row first_col last_col : Nat)
  | diagonalmatrix (base : matrix T) (null_element : T)
  | diagonal (base : matrix T)
  deriving DecidableEq, Repr

variable {T : Type}

mutual
/-- Member function `get_rows()` of each class. -/
def get_rows : matrix T → Nat
  | .basic_matrix n_rows _ _ => n_rows
  | .transpose_matrix base => get_cols base
  | .submatrix _ first_row last_row _ _ => usub last_row first_row
  | .diagonalmatrix base _ => get_rows base
  | .diagonal base => if get_rows base < get_cols base then get_rows base else get_cols base
/-- Member function `get_cols()` of each class. -/
def get_cols : matrix T → Nat
  | .basic_matrix _ n_cols _ => n_cols
  | .transpose_matrix base => get_rows base
  | .submatrix _ _ _ first_col last_col => usub last_col first_col
  | .diagonalmatrix base _ => get_rows base
  | .diagonal _ => 1
end

/-- Member function `operator()(r, c)` of each class (the mutable and the
`const` overload of a class have the same body; `diagonalmatrix` has the `const`
one only).  The result is the reference returned, or the assertion that failed.
In the `transpose_matrix` and `submatrix` cases `this->get_rows()` and
`this->get_cols()` are the members of that class, written out on the object
itself. -/
def operator_call : matrix T → Nat → Nat → Except Failure (Ref T)
  | .basic_matrix n_rows n_cols matrix_content, r, c =>
    if r < get_rows (.basic_matrix n_rows n_cols matrix_content : matrix T) ∧
        c < get_cols (.basic_matrix n_rows n_cols matrix_content : matrix T) then
      .ok (.cell matrix_content (u32 (r * n_cols + c)))
    else .error .OutOfBounds
  | .transpose_matrix base, r, c =>
    if r < get_rows (.transpose_matrix base) ∧ c < get_cols (.transpose_matrix base) then
      operator_call base c r
    else .error .OutOfBounds
  | .submatrix base first_row last_row first_col last_col, r, c =>
    if r ≤ get_rows (.submatrix base first_row last_row first_col last_col) ∧ r < last_row ∧
        c ≤ get_cols (.submatrix base first_row last_row first_col last_col) ∧ c < last_col then
      operator_call base (u32 (r + first_row)) (u32 (c + first_col))
    else .error .OutOfBounds
  | .diagonalmatrix base null_element, r, c =>
    if r ≠ c then .ok (.null_element null_element) else operator_call base r 0
  | .diagonal base, r, c =>
    if c = 0 then operator_call base r r else .error .InvalidAccess

/-- Reading through a reference.  `none` means that the reference designates no
element: `std::vector::operator[]` was applied to an index outside the buffer,
which the C++ standard leaves undefined. -/
def load (h : Heap T) : Ref T → Option T
  | .cell buf off => (h[buf]?).bind (fun v => v[off]?)
  | .null_element value => some value

/-- Assigning through a reference (`m(r, c) = x`).  `none` means that there is
no element to assign to (outside the buffer, or the `const` null element). -/
def store (h : Heap T) : Ref T → T → Option (Heap T)
  | .cell buf off, x =>
    match h[buf]? with
    | some v => if off < v.length then some (h.set buf (v.set off x)) else none
    | none => none
  | .null_element _, _ => none

/-- The expression `m(r, c)` used as a value: the accessor followed by a load. -/
def read (h : Heap T) (m : matrix T) (r c : Nat) : Except Failure (Option T) :=
  match operator_call m r c with
  | .ok ref => .ok (load h ref)
  | .error e => .error e

/-- The statement `m(r, c) = x`: the accessor followed by a store. -/
def write (h : Heap T) (m : matrix T) (r c : Nat) (x : T) : Except Failure (Option (Heap T)) :=
  match operator_call m r c with
  | .ok ref => .ok (store h ref x)
  | .error e => .error e

/-- Constructor `matrix(unsigned int rows, unsigned int cols)` of the basic
matrix: the buffer is `std::make_shared<std::vector<T>>(rows * cols)`, the
product being taken in `unsigned int`; its elements are value-initialised. -/
def create [Zero T] (h : Heap T) (rows cols : Nat) : Heap T × matrix T :=
  (h ++ [List.replicate (u32 (rows * cols)) 0], .basic_matrix rows cols h.length)

/-- Default constructor `matrix()` of the basic matrix. -/
def create_empty (h : Heap T) : Heap T × matrix T :=
  (h ++ [[]], .basic_matrix 0 0 h.length)

/-- Copy construction of a `matrix<T, tag>` from an object of the same type.
No class of `matrix.h` declares a copy constructor: the constructor
`template <typename type> matrix(const matrix<T, type>&)` of the basic matrix is
a template, and a constructor template is never a copy constructor.  Each class
therefore has the implicitly-declared one, which overload resolution prefers to
the template for an argument of the same type, and which copies member by
member: the numbers by value, the shared pointer by copying the handle. -/
def copy_constructor : matrix T → matrix T
  | .basic_matrix n_rows n_cols matrix_content => .basic_matrix n_rows n_cols matrix_content
  | .transpose_matrix base => .transpose_matrix (copy_constructor base)
  | .submatrix base first_row last_row first_col last_col =>
    .submatrix (copy_constructor base) first_row last_row first_col last_col
  | .diagonalmatrix base null_element => .diagonalmatrix (copy_constructor base) null_element
  | .diagonal base => .diagonal (copy_constructor base)

/-- Member `matrix &operator=(const matrix &other)` of the basic matrix, for an
argument that is itself a basic matrix: `matrix tmp(other)` is the copy
construction above, then the three members are swapped with those of `tmp`.
(When `this == &other` nothing is done, which leaves the same members.)  The
class is the only one that declares the operator. -/
def operator_assign (this other : matrix T) : matrix T :=
  match this, copy_constructor other with
  | .basic_matrix _ _ _, .basic_matrix tmp_rows tmp_cols tmp_content =>
    .basic_matrix tmp_rows tmp_cols tmp_content
  | _, _ => this

/-- Constructor `matrix(other, fr, lr, fc, lc)` of `matrix<T, submatrix<D>>`,
where `other` is a `matrix<T, D>`: the members are initialised, then
`assert(lr <= other.get_rows() && lc <= other.get_cols())`. -/
def submatrix_constructor (other : matrix T) (fr lr fc lc : Nat) : Except Failure (matrix T) :=
  if lr ≤ get_rows other ∧ lc ≤ get_cols other then
    .ok (.submatrix (copy_constructor other) fr lr fc lc)
  else .error .OutOfBounds

/-- Member `get_submatrix(begin_row, end_row, begin_column, end_column)` of each
class.  On a `submatrix<D>` the result type is again `matrix<T, submatrix<D>>`
and `*this` is passed where a `const matrix<T, D>&` is expected, so the
constructor receives the base sub-object, with the bounds shifted by
`first_row` and `first_col` in `unsigned int`.  Every other class passes itself
and the bounds as given. -/
def get_submatrix : matrix T → Nat → Nat → Nat → Nat → Except Failure (matrix T)
  | .submatrix base first_row _ first_col _, begin_row, end_row, begin_column, end_column =>
    submatrix_constructor base (u32 (begin_row + first_row)) (u32 (end_row + first_row))
      (u32 (begin_column + first_col)) (u32 (end_column + first_col))
  | .basic_matrix n_rows n_cols matrix_content, begin_row, end_row, begin_column, end_column =>
    submatrix_constructor (.basic_matrix n_rows n_cols matrix_content)
      begin_row end_row begin_column end_column
  | .transpose_matrix base, begin_row, end_row, begin_column, end_column =>
    submatrix_constructor (.transpose_matrix base) begin_row end_row begin_column end_column
  | .diagonalmatrix base null_element, begin_row, end_row, begin_column, end_column =>
    submatrix_constructor (.diagonalmatrix base null_element)
      begin_row end_row begin_column end_column
  | .diagonal base, begin_row, end_row, begin_column, end_column =>
    submatrix_constructor (.diagonal base) begin_row end_row begin_column end_column

/-- Member `get_diagonal()` of each class; the constructor of
`matrix<T, diagonal<D>>` has an empty body. -/
def get_diagonal (m : matrix T) : matrix T :=
  .diagonal (copy_constructor m)

/-- Member `get_diagonalmatrix()` of the classes that declare it (basic,
`transpose_matrix`, `submatrix`, `diagonal`): the constructor of
`matrix<T, diagonalmatrix<D>>` sets `null_element(0)` and then runs
`assert(other.get_cols() == 1)`.  The `diagonalmatrix` class declares no such
member and the one it inherits is protected; on such an object the function
stands for the direct use of the same public constructor. -/
def get_diagonalmatrix [Zero T] (m : matrix T) : Except Failure (matrix T) :=
  if get_cols m = 1 then .ok (.diagonalmatrix (copy_constructor m) 0) else .error .InvalidShape

/-- Whether the object is a `matrix<T, submatrix<D>>` (a window). -/
def is_submatrix : matrix T → Bool
  | .submatrix _ _ _ _ _ => true
  | _ => false

/-- Whether the object is a `matrix<T, transpose_matrix<D>>`. -/
def is_transpose : matrix T → Bool
  | .transpose_matrix _ => true
  | _ => false

/-- The storage invariant of a basic matrix in a heap: its handle designates a
buffer whose length is the one the constructor allocated. -/
def Allocated (h : Heap T) : matrix T → Prop
  | .basic_matrix n_rows n_cols matrix_content =>
    ∃ v, h[matrix_content]? = some v ∧ v.length = u32 (n_rows * n_cols)
  | _ => False

/-- The iterator objects of the library.  `vector_iterator` is
`std::vector<T>::iterator` (a position in a buffer), used by the basic matrix
for its rows; `iterator_limited` and `column_iterator` are the classes of
`matrix_utils.h`, holding a reference to the matrix they traverse (here: the
descriptor) and a logical position.  The `const_` variants have the same
members and the same bodies. -/
inductive cursor (T : Type) where
  | vector_iterator (buf : Nat) (off : Nat)
  | iterator_limited (m : matrix T) (row column : Nat)
  | column_iterator (m : matrix T) (current_row current_column : Nat)
  deriving DecidableEq, Repr

mutual
/-- Member `begin(i)` of each class (`begin()` is `begin(0)`).  A
`transpose_matrix` forwards to `column_begin(i)` of its base sub-object. -/
def begin : matrix T → Nat → Except Failure (cursor T)
  | .basic_matrix n_rows n_cols matrix_content, i =>
    if i = 0 ∨ i < n_rows then .ok (.vector_iterator matrix_content (u32 (i * n_cols)))
    else .error .OutOfBounds
  | .transpose_matrix base, i => column_begin base i
  | .submatrix base first_row last_row first_col last_col, i =>
    if (i = 0 ∧ first_row = 0) ∨ i < last_row then
      .ok (.iterator_limited (.submatrix base first_row last_row first_col last_col) i 0)
    else .error .OutOfBounds
  | .diagonalmatrix base null_element, i =>
    .ok (.iterator_limited (.diagonalmatrix base null_element) i 0)
  | .diagonal base, i => .ok (.iterator_limited (.diagonal base) i 0)
/-- Member `column_begin(i)` of each class (`column_begin()` is
`column_begin(0)`).  A `transpose_matrix` forwards to `begin(i)` of its base
sub-object. -/
def column_begin : matrix T → Nat → Except Failure (cursor T)
  | .basic_matrix n_rows n_cols matrix_content, i =>
    if i < n_cols then .ok (.column_iterator (.basic_matrix n_rows n_cols matrix_content) 0 i)
    else .error .OutOfBounds
  | .transpose_matrix base, i => begin base i
  | .submatrix base first_row last_row first_col last_col, i =>
    if i < last_col then
      .ok (.column_iterator (.submatrix base first_row last_row first_col last_col) 0 i)
    else .error .OutOfBounds
  | .diagonalmatrix base null_element, i =>
    .ok (.column_iterator (.diagonalmatrix base null_element) 0 i)
  | .diagonal base, i => .ok (.column_iterator (.diagonal base) 0 i)
end

mutual
/-- Member `end()` (no argument) of each class. -/
def end_ : matrix T → cursor T
  | .basic_matrix n_rows n_cols matrix_content =>
    .vector_iterator matrix_content (u32 (n_rows * n_cols))
  | .transpose_matrix base => column_end base
  | .submatrix base first_row last_row first_col last_col =>
    .iterator_limited (.submatrix base first_row last_row first_col last_col)
      (get_rows (.submatrix base first_row last_row first_col last_col)) 0
  | .diagonalmatrix base null_element =>
    .iterator_limited (.diagonalmatrix base null_element)
      (get_rows (.diagonalmatrix base null_element))
      (get_cols (.diagonalmatrix base null_element))
  | .diagonal base => .iterator_limited (.diagonal base) (get_rows (.diagonal base)) 0
/-- Member `column_end()` (no argument) of each class. -/
def column_end : matrix T → cursor T
  | .basic_matrix n_rows n_cols matrix_content =>
    .column_iterator (.basic_matrix n_rows n_cols matrix_content) 0 n_cols
  | .transpose_matrix base => end_ base
  | .submatrix base first_row last_row first_col last_col =>
    .column_iterator (.submatrix base first_row last_row first_col last_col) 0
      (get_cols (.submatrix base first_row last_row first_col last_col))
  | .diagonalmatrix base null_element =>
    .column_iterator (.diagonalmatrix base null_element) 0
      (get_rows (.diagonalmatrix base null_element))
  | .diagonal base => .column_iterator (.diagonal base) 0 (get_cols (.diagonal base))
end

/-- The increment `operator++` of each iterator class. -/
def increment : cursor T → cursor T
  | .vector_iterator buf off => .vector_iterator buf (off + 1)
  | .iterator_limited m row column =>
    if u32 (column + 1) = get_cols m then .iterator_limited m (u32 (row + 1)) 0
    else .iterator_limited m row (u32 (column + 1))
  | .column_iterator m current_row current_column =>
    if current_row = usub (get_rows m) 1 then .column_iterator m 0 (u32 (current_column + 1))
    else .column_iterator m (u32 (current_row + 1)) current_column

/-- The dereference `operator*` of each iterator class: the two classes of
`matrix_utils.h` call `m(row, column)`. -/
def dereference : cursor T → Except Failure (Ref T)
  | .vector_iterator buf off => .ok (.cell buf off)
  | .iterator_limited m row column => operator_call m row column
  | .column_iterator m current_row current_column => operator_call m current_row current_column

/-- The comparison `operator!=` of two iterators of the same class: the classes
of `matrix_utils.h` compare the two position members only. -/
def not_equal : cursor T → cursor T → Bool
  | .vector_iterator buf off, .vector_iterator buf2 off2 => !(buf == buf2 && off == off2)
  | .iterator_limited _ row column, .iterator_limited _ row2 column2 =>
    row != row2 || column != column2
  | .column_iterator _ row column, .column_iterator _ row2 column2 =>
    !(row == row2 && column == column2)
  | _, _ => true

/-- The loop `for (; it != last; ++it) visit(*it)` run for at most `fuel` steps:
the references obtained, in order, ending with the failure if a dereference
fails. -/
def traverse : Nat → cursor T → cursor T → List (Except Failure (Ref T))
  | 0, _, _ => []
  | fuel + 1, it, last =>
    if not_equal it last then
      match dereference it with
      | .ok ref => .ok ref :: traverse fuel (increment it) last
      | .error e => [.error e]
    else []

/-- Whole-view row-major iteration, from `m.begin()` to `m.end()`, for at most
`fuel` steps. -/
def row_major (fuel : Nat) (m : matrix T) : Except Failure (List (Except Failure (Ref T))) :=
  match begin m 0 with
  | .ok first => .ok (traverse fuel first (end_ m))
  | .error e => .error e

/-- The handle of the buffer at the bottom of the decorator chain (the
`matrix_content` member of the innermost base sub-object). -/
def buffer_of : matrix T → Nat
  | .basic_matrix _ _ matrix_content => matrix_content
  | .transpose_matrix base => buffer_of base
  | .submatrix base _ _ _ _ => buffer_of base
  | .diagonalmatrix base _ => buffer_of base
  | .diagonal base => buffer_of base

mutual
/-- Member `end(i)` (with an argument) of each class.  A `transpose_matrix`
forwards to `column_end(i)` of its base sub-object. -/
def end_at : matrix T → Nat → Except Failure (cursor T)
  | .basic_matrix _ n_cols matrix_content, i =>
    .ok (.vector_iterator matrix_content (u32 (u32 (i + 1) * n_cols)))
  | .transpose_matrix base, i => column_end_at base i
  | .submatrix base first_row last_row first_col last_col, i =>
    if (i = 0 ∧ first_row = 0) ∨ i < last_row then
      .ok (.iterator_limited (.submatrix base first_row last_row first_col last_col)
        (u32 (i + 1)) 0)
    else .error .OutOfBounds
  | .diagonalmatrix base null_element, i =>
    .ok (.iterator_limited (.diagonalmatrix base null_element) (u32 (i + 1)) 0)
  | .diagonal base, i => .ok (.iterator_limited (.diagonal base) (u32 (i + 1)) 0)
/-- Member `column_end(i)` (with an argument) of each class.  A
`transpose_matrix` forwards to `end(i)` of its base sub-object. -/
def column_end_at : matrix T → Nat → Except Failure (cursor T)
  | .basic_matrix n_rows n_cols matrix_content, i =>
    if i < n_cols then
      .ok (.column_iterator (.basic_matrix n_rows n_cols matrix_content) 0 (u32 (i + 1)))
    else .error .OutOfBounds
  | .transpose_matrix base, i => end_at base i
  | .submatrix base first_row last_row first_col last_col, i =>
    if i < last_col then
      .ok (.column_iterator (.submatrix base first_row last_row first_col last_col) 0
        (u32 (i + 1)))
    else .error .OutOfBounds
  | .diagonalmatrix base null_element, i =>
    .ok (.column_iterator (.diagonalmatrix base null_element) 0 (u32 (i + 1)))
  | .diagonal base, i => .ok (.column_iterator (.diagonal base) 0 (u32 (i + 1)))
end

/-- How a piece of code with loops ends: normally with a result, on a failed
assertion, by using a reference that designates no element (undefined
behaviour), or, in the embedding only, because the bound on the number of loop
iterations was reached. -/
inductive Run (α : Type) where
  | done (result : α)
  | failed (e : Failure)
  | undefined
  | out_of_fuel
  deriving DecidableEq, Repr

/-- The inner loop of the converting constructor,
`while (ii != ie) { *i_this = *ii; ++i_this; ++ii; }`, for at most `fuel` tests
of the loop condition. -/
def copy_loop : Nat → Heap T → cursor T → cursor T → cursor T → Run (Heap T)
  | 0, _, _, _, _ => .out_of_fuel
  | fuel + 1, h, ii, ie, i_this =>
    if not_equal ii ie then
      match dereference ii with
      | .error e => .failed e
      | .ok source =>
        match load h source with
        | none => .undefined
        | some x =>
          match dereference i_this with
          | .error e => .failed e
          | .ok target =>
            match store h target x with
            | none => .undefined
            | some h2 => copy_loop fuel h2 (increment ii) ie (increment i_this)
    else .done h

/-- The outer loop of the converting constructor,
`for (unsigned int i = 0; i < n_rows; ++i) { ii = matrix_to_copy.begin(i);
ie = matrix_to_copy.end(i); i_this = this->begin(i); ... }`, for the `steps`
iterations that remain, starting at row `i`. -/
def copy_rows (fuel : Nat) (matrix_to_copy this : matrix T) :
    Nat → Nat → Heap T → Run (Heap T)
  | 0, _, h => .done h
  | steps + 1, i, h =>
    match begin matrix_to_copy i with
    | .error e => .failed e
    | .ok ii =>
      match end_at matrix_to_copy i with
      | .error e => .failed e
      | .ok ie =>
        match begin this i with
        | .error e => .failed e
        | .ok i_this =>
          match copy_loop fuel h ii ie i_this with
          | .done h2 => copy_rows fuel matrix_to_copy this steps (i + 1) h2
          | .failed e => .failed e
          | .undefined => .undefined
          | .out_of_fuel => .out_of_fuel

/-- The constructor `template <typename type> matrix(const matrix<T, type>&)` of
the basic matrix, which is the one selected when the argument is not itself a
basic matrix: the shape is read off the argument, a buffer of
`n_cols * n_rows` (in `unsigned int`) value-initialised elements is allocated
under a new handle, and the rows are copied one by one through the row
iterators of the argument.  `fuel` bounds each inner loop. -/
def converting_constructor [Zero T] (fuel : Nat) (h : Heap T) (matrix_to_copy : matrix T) :
    Run (Heap T × matrix T) :=
  match copy_rows fuel matrix_to_copy
      (.basic_matrix (get_rows matrix_to_copy) (get_cols matrix_to_copy) h.length)
      (get_rows matrix_to_copy) 0
      (h ++ [List.replicate (u32 (get_cols matrix_to_copy * get_rows matrix_to_copy)) 0]) with
  | .done h2 =>
    .done (h2, .basic_matrix (get_rows matrix_to_copy) (get_cols matrix_to_copy) h.length)
  | .failed e => .failed e
  | .undefined => .undefined
  | .out_of_fuel => .out_of_fuel

/-- Member `get_transpose()` of each class.  The basic matrix, the window and
the two diagonal classes return `matrix<T, transpose_matrix<...>>(*this)`: the
base of the new object is copy-constructed from `*this` and no buffer is
touched.  On a `transpose_matrix<D>` the body is `return *this;` with return
type `matrix<T, D>`.  When `D` is not `basic_matrix`, the only constructor of
`matrix<T, D>` that accepts the argument best is its implicit copy constructor,
and the base sub-object is copied out.  When `D` is `basic_matrix`, the
constructor template `matrix(const matrix<T, type>&)` of the basic matrix is an
exact match for the argument, whose type is
`matrix<T, transpose_matrix<basic_matrix>>`, whereas the copy constructor needs
a derived-to-base conversion: overload resolution selects the template, and the
object returned is the one `converting_constructor` builds from the transpose
(a basic matrix with the shape of the transpose and a buffer of its own).
`fuel` bounds the inner loops of that constructor. -/
def get_transpose [Zero T] (fuel : Nat) (h : Heap T) : matrix T → Run (Heap T × matrix T)
  | .transpose_matrix (.basic_matrix n_rows n_cols matrix_content) =>
    converting_constructor fuel h
      (.transpose_matrix (.basic_matrix n_rows n_cols matrix_content))
  | .transpose_matrix (.transpose_matrix base) =>
    .done (h, copy_constructor (.transpose_matrix base))
  | .transpose_matrix (.submatrix base first_row last_row first_col last_col) =>
    .done (h, copy_constructor (.submatrix base first_row last_row first_col last_col))
  | .transpose_matrix (.diagonalmatrix base null_element) =>
    .done (h, copy_constructor (.diagonalmatrix base null_element))
  | .transpose_matrix (.diagonal base) => .done (h, copy_constructor (.diagonal base))
  | .basic_matrix n_rows n_cols matrix_content =>
    .done (h, .transpose_matrix (copy_constructor (.basic_matrix n_rows n_cols matrix_content)))
  | .submatrix base first_row last_row first_col last_col =>
    .done (h, .transpose_matrix
      (copy_constructor (.submatrix base first_row last_row first_col last_col)))
  | .diagonalmatrix base null_element =>
    .done (h, .transpose_matrix (copy_constructor (.diagonalmatrix base null_element)))
  | .diagonal base => .done (h, .transpose_matrix (copy_constructor (.diagonal base)))

/-- The views of the library: basic matrices whose dimensions are `unsigned int`
values, and whatever the `get_` member functions return on a view when called
with `unsigned int` arguments (for `get_transpose`, in any heap and with any
bound on the loops). -/
inductive View [Zero T] : matrix T → Prop where
  | basic (n_rows n_cols matrix_content : Nat) :
      n_rows < 4294967296 → n_cols < 4294967296 →
      View (.basic_matrix n_rows n_cols matrix_content)
  | transpose {m w : matrix T} (fuel : Nat) (h h2 : Heap T) : View m →
      get_transpose fuel h m = .done (h2, w) → View w
  | window {m w : matrix T} (a b c d : Nat) : View m →
      a < 4294967296 → b < 4294967296 → c < 4294967296 → d < 4294967296 →
      get_submatrix m a b c d = .ok w → View w
  | diagonal {m : matrix T} : View m → View (get_diagonal m)
  | diagonalmatrix {m w : matrix T} : View m → get_diagonalmatrix m = .ok w → View w

/-- Whether the object is a `matrix<T, basic_matrix>`. -/
def is_basic : matrix T → Bool
  | .basic_matrix _ _ _ => true
  | _ => false

/-- Every in-shape read of the view succeeds in the heap: the assertions pass
and the reference obtained designates an element. -/
def Readable (h : Heap T) (m : matrix T) : Prop :=
  ∀ i j, i < get_rows m → j < get_cols m →
    ∃ ref x, operator_call m i j = .ok ref ∧ load h ref = some x

/-- The comparison `operator==` of two iterators of the same class.  Each class
of `matrix_utils.h` declares it twice, for an argument of its own class and for
one of its `const_` (or mutable) counterpart, with the same body: the two
position members are compared and the matrix referred to is not looked at. -/
def equal : cursor T → cursor T → Bool
  | .vector_iterator buf off, .vector_iterator buf2 off2 => buf == buf2 && off == off2
  | .iterator_limited _ row column, .iterator_limited _ row2 column2 =>
    (row == row2) && (column == column2)
  | .column_iterator _ row column, .column_iterator _ row2 column2 =>
    row == row2 && column == column2
  | _, _ => false

/-- The iterator after `n` applications of `operator++`. -/
def advance : Nat → cursor T → cursor T
  | 0, it => it
  | n + 1, it => advance n (increment it)

/-- Whether the bounds stored in a window are ordered (`first_row <= last_row`
and `first_col <= last_col`).  The constructor does not check this.  Objects
that are not windows satisfy it trivially. -/
def window_ordered : matrix T → Prop
  | .submatrix _ first_row last_row first_col last_col =>
    first_row ≤ last_row ∧ first_col ≤ last_col
  | _ => True

/-- The structural invariant that the constructors establish: every stored
number is an `unsigned int`, a window passed the assertion of its constructor, a
`diagonalmatrix` passed its own, and neither `get_transpose` nor `get_submatrix`
ever stacks a decorator directly on the same decorator. -/
def Valid : matrix T → Prop
  | .basic_matrix n_rows n_cols _ => n_rows < 4294967296 ∧ n_cols < 4294967296
  | .transpose_matrix base => Valid base ∧ is_transpose base = false
  | .submatrix base first_row last_row first_col last_col =>
    Valid base ∧ is_submatrix base = false ∧
    first_row < 4294967296 ∧ last_row < 4294967296 ∧
    first_col < 4294967296 ∧ last_col < 4294967296 ∧
    last_row ≤ get_rows base ∧ last_col ≤ get_cols base
  | .diagonalmatrix base _ => Valid base ∧ get_cols base = 1
  | .diagonal base => Valid base

/-- The prefix `operator++()` of each iterator class used as an expression: the
iterator after the call, and the value of the expression, which is `*this`
returned by reference. -/
def pre_increment (it : cursor T) : cursor T × cursor T :=
  (increment it, increment it)

/-- The postfix `operator++(int)` of each iterator class used as an expression:
the iterator after the call, and the value of the expression.  In the classes of
`matrix_utils.h` the body is the one of the prefix operator, no copy of the
iterator is made, and the function ends with `return *this;` with a reference
return type.  For `std::vector<T>::iterator` the value is the copy made before
the advance. -/
def post_increment : cursor T → cursor T × cursor T
  | .vector_iterator buf off => (.vector_iterator buf (off + 1), .vector_iterator buf off)
  | .iterator_limited m row column =>
    if u32 (column + 1) = get_cols m then
      (.iterator_limited m (u32 (row + 1)) 0, .iterator_limited m (u32 (row + 1)) 0)
    else
      (.iterator_limited m row (u32 (column + 1)), .iterator_limited m row (u32 (column + 1)))
  | .column_iterator m current_row current_column =>
    if current_row = usub (get_rows m) 1 then
      (.column_iterator m 0 (u32 (current_column + 1)),
        .column_iterator m 0 (u32 (current_column + 1)))
    else
      (.column_iterator m (u32 (current_row + 1)) current_column,
        .column_iterator m (u32 (current_row + 1)) current_column)


/-- The objects obtained from the matrix `B`, starting in the heap `h0`, by a
chain of `get_transpose`, `get_submatrix`, `get_diagonal` and
`get_diagonalmatrix` calls that return, in which every `get_submatrix` call is
given ordered bounds (`a <= b`, `c <= d`) and, when made on a window, bounds
whose sums with `first_row` and `first_col` are `unsigned int` values.  The
second heap is the one the calls of the chain leave. -/
inductive OrderedChain [Zero T] (h0 : Heap T) (B : matrix T) : Heap T → matrix T → Prop where
  | start : OrderedChain h0 B h0 B
  | transpose {h h2 : Heap T} {m w : matrix T} (fuel : Nat) : OrderedChain h0 B h m →
      get_transpose fuel h m = .done (h2, w) → OrderedChain h0 B h2 w
  | window {h : Heap T} {m w : matrix T} (a b c d : Nat) : OrderedChain h0 B h m →
      a ≤ b → c ≤ d →
      (∀ base first_row last_row first_col last_col,
        m = .submatrix base first_row last_row first_col last_col →
        b + first_row < 4294967296 ∧ d + first_col < 4294967296) →
      get_submatrix m a b c d = .ok w → OrderedChain h0 B h w
  | diagonal {h : Heap T} {m : matrix T} : OrderedChain h0 B h m →
      OrderedChain h0 B h (get_diagonal m)
  | diagonalmatrix {h : Heap T} {m w : matrix T} : OrderedChain h0 B h m →
      get_diagonalmatrix m = .ok w → OrderedChain h0 B h w

/-- The invariant of the objects of such a chain in a heap: the basic matrix at
the bottom has `unsigned int` dimensions whose product is one too, and its
buffer has that length; every window has ordered bounds within the shape of its
parent; every `diagonalmatrix` is built on a parent with one column. -/
def Regular (h : Heap T) : matrix T → Prop
  | .basic_matrix n_rows n_cols matrix_content =>
    n_rows < 4294967296 ∧ n_cols < 4294967296 ∧ n_rows * n_cols < 4294967296 ∧
    Allocated h (.basic_matrix n_rows n_cols matrix_content)
  | .transpose_matrix base => Regular h base
  | .submatrix base first_row last_row first_col last_col =>
    Regular h base ∧ first_row ≤ last_row ∧ first_col ≤ last_col ∧
    last_row ≤ get_rows base ∧ last_col ≤ get_cols base
  | .diagonalmatrix base _ => Regular h base ∧ get_cols base = 1
  | .diagonal base => Regular h base


/-- What `operator<<` of `matrix_utils.h` inserts into the stream, piece by
piece: an element (`os << *i`, the text of an element being left to its type),
the string `" "`, and `std::endl`. -/
inductive output (T : Type) where
  | element (x : T)
  | space
  | endl
  deriving DecidableEq, Repr

/-- The inner loop of `operator<<`,
`for (; i != ie; ++i) { ++k; os << *i << " "; if (columns == k) { os <<
std::endl; k = 0; } }`, for at most `fuel` tests of the loop condition; `os` is
what the stream holds. -/
def operator_lshift_row : Nat → Heap T → Nat → cursor T → cursor T → Nat →
    List (output T) → Run (List (output T))
  | 0, _, _, _, _, _, _ => .out_of_fuel
  | fuel + 1, h, columns, i, ie, k, os =>
    if not_equal i ie then
      match dereference i with
      | .error e => .failed e
      | .ok ref =>
        match load h ref with
        | none => .undefined
        | some x =>
          if columns = u32 (k + 1) then
            operator_lshift_row fuel h columns (increment i) ie 0
              (os ++ [.element x, .space, .endl])
          else
            operator_lshift_row fuel h columns (increment i) ie (u32 (k + 1))
              (os ++ [.element x, .space])
    else .done os

/-- The outer loop of `operator<<`,
`for (unsigned int j = 0; j < m.get_rows(); j++) { auto i = m.begin(j); auto ie
= m.end(j); unsigned int k = 0; ... }`, for the `steps` iterations that remain,
starting at row `j`. -/
def operator_lshift_rows (fuel : Nat) (h : Heap T) (m : matrix T) (columns : Nat) :
    Nat → Nat → List (output T) → Run (List (output T))
  | 0, _, os => .done os
  | steps + 1, j, os =>
    match begin m j with
    | .error e => .failed e
    | .ok i =>
      match end_at m j with
      | .error e => .failed e
      | .ok ie =>
        match operator_lshift_row fuel h columns i ie 0 os with
        | .done os2 => operator_lshift_rows fuel h m columns steps (j + 1) os2
        | .failed e => .failed e
        | .undefined => .undefined
        | .out_of_fuel => .out_of_fuel

/-- The function `std::ostream& operator<<(std::ostream &os, const matrix<T,
type> &m)` of `matrix_utils.h`: `columns` is `m.get_cols()` and the outer loop
runs over the rows `0`, ..., `m.get_rows() - 1`.  `fuel` bounds each inner
loop. -/
def operator_lshift (fuel : Nat) (h : Heap T) (os : List (output T)) (m : matrix T) :
    Run (List (output T)) :=
  operator_lshift_rows fuel h m (get_cols m) (get_rows m) 0 os

/-- The text the specification describes for one row, without its line break:
the first `c` elements of the row, each followed by one space. -/
def formatted_row (x : Nat → T) : Nat → List (output T)
  | 0 => []
  | c + 1 => formatted_row x c ++ [.element (x c), .space]

/-- The text the specification describes for the first `r` rows of a view with
`c` columns and elements `x i j`: row after row, the elements of the row each
followed by one space, then one line break. -/
def formatted (x : Nat → Nat → T) (c : Nat) : Nat → List (output T)
  | 0 => []
  | r + 1 => formatted x c r ++ (formatted_row (x r) c ++ [.endl])

/-- Whether a piece of output is a line break. -/
def is_endl : output T → Bool
  | .endl => true
  | _ => false

/-- Whether a piece of output is an element. -/
def is_element : output T → Bool
  | .element _ => true
  | _ => false


/-! ## Basic facts about the embedding -/

/-- Copy construction yields an object with the same members (and the same
buffer handle): it is the identity on descriptors. -/
@[simp] theorem copy_constructor_eq (m : matrix T) : copy_constructor m = m := by
  induction m with
  | basic_matrix n_rows n_cols p => rfl
  | transpose_matrix base ih => simp [copy_constructor, ih]
  | submatrix base fr lr fc lc ih => simp [copy_constructor, ih]
  | diagonalmatrix base z ih => simp [copy_constructor, ih]
  | diagonal base ih => simp [copy_constructor, ih]

theorem u32_of_lt {n : Nat} (h : n < 4294967296) : u32 n = n := by
  unfold u32; omega

theorem u32_lt (n : Nat) : u32 n < 4294967296 := by
  unfold u32; omega

theorem usub_lt (a b : Nat) : usub a b < 4294967296 := by
  unfold usub; omega

theorem usub_of_le {a b : Nat} (hab : b ≤ a) (ha : a < 4294967296) : usub a b = a - b := by
  unfold usub; omega

theorem valid_shape_lt {m : matrix T} (hm : Valid m) :
    get_rows m < 4294967296 ∧ get_cols m < 4294967296 := by
  induction m with
  | basic_matrix n_rows n_cols p => exact hm
  | transpose_matrix base ih =>
    have := ih hm.1
    simp only [get_rows, get_cols]; exact ⟨this.2, this.1⟩
  | submatrix base fr lr fc lc ih =>
    simp only [get_rows, get_cols]; exact ⟨usub_lt _ _, usub_lt _ _⟩
  | diagonalmatrix base z ih =>
    have := ih hm.1
    simp only [get_rows, get_cols]; exact ⟨this.1, this.1⟩
  | diagonal base ih =>
    have := ih hm
    simp only [get_rows, get_cols]
    refine ⟨?_, by omega⟩
    split <;> omega

theorem converting_constructor_descriptor [Zero T] {fuel : Nat} {h h2 : Heap T}
    {f w : matrix T} (hw : converting_constructor fuel h f = .done (h2, w)) :
    w = .basic_matrix (get_rows f) (get_cols f) h.length := by
  unfold converting_constructor at hw
  split at hw
  · injection hw with hw
    injection hw with _ hw2
    exact hw2.symm
  · cases hw
  · cases hw
  · cases hw

theorem is_transpose_iff {m : matrix T} :
    is_transpose m = true ↔ ∃ base, m = .transpose_matrix base := by
  cases m <;> simp [is_transpose]

theorem get_transpose_of_not_transpose [Zero T] (fuel : Nat) (h : Heap T) {m : matrix T}
    (hm : is_transpose m = false) :
    get_transpose fuel h m = .done (h, .transpose_matrix m) := by
  cases m <;> simp [get_transpose, is_transpose] at hm ⊢

theorem get_transpose_transpose [Zero T] (fuel : Nat) (h : Heap T) {base : matrix T}
    (hb : is_basic base = false) :
    get_transpose fuel h (.transpose_matrix base) = .done (h, base) := by
  cases base <;> simp [get_transpose, is_basic] at hb ⊢

theorem get_transpose_transpose_basic [Zero T] (fuel : Nat) (h : Heap T)
    (n_rows n_cols p : Nat) :
    get_transpose fuel h (.transpose_matrix (.basic_matrix n_rows n_cols p))
      = converting_constructor fuel h (.transpose_matrix (.basic_matrix n_rows n_cols p)) := by
  rfl

theorem is_basic_iff {m : matrix T} :
    is_basic m = true ↔ ∃ n_rows n_cols p, m = .basic_matrix n_rows n_cols p := by
  cases m <;> simp [is_basic]

theorem valid_get_transpose [Zero T] {fuel : Nat} {h h2 : Heap T} {m w : matrix T}
    (hm : Valid m) (hw : get_transpose fuel h m = .done (h2, w)) : Valid w := by
  by_cases ht : is_transpose m = true
  · obtain ⟨base, rfl⟩ := is_transpose_iff.mp ht
    by_cases hb : is_basic base = true
    · obtain ⟨n_rows, n_cols, p, rfl⟩ := is_basic_iff.mp hb
      rw [get_transpose_transpose_basic] at hw
      rw [converting_constructor_descriptor hw]
      have hbase : n_rows < 4294967296 ∧ n_cols < 4294967296 := hm.1
      simpa [Valid, get_rows, get_cols] using hbase.symm
    · have hb2 : is_basic base = false := by simpa using hb
      rw [get_transpose_transpose fuel h hb2] at hw
      injection hw with hw
      injection hw with _ hw2
      subst hw2
      exact hm.1
  · have ht2 : is_transpose m = false := by simpa using ht
    rw [get_transpose_of_not_transpose fuel h ht2] at hw
    injection hw with hw
    injection hw with _ hw2
    subst hw2
    exact ⟨hm, ht2⟩

theorem valid_submatrix_constructor {m w : matrix T} {fr lr fc lc : Nat} (hm : Valid m)
    (hns : is_submatrix m = false)
    (hfr : fr < 4294967296) (hlr : lr < 4294967296)
    (hfc : fc < 4294967296) (hlc : lc < 4294967296)
    (hw : submatrix_constructor m fr lr fc lc = .ok w) : Valid w := by
  unfold Matrix_CPP.submatrix_constructor at hw
  split at hw
  · rename_i hle
    simp only [copy_constructor_eq, Except.ok.injEq] at hw
    subst hw
    exact ⟨hm, hns, hfr, hlr, hfc, hlc, hle.1, hle.2⟩
  · cases hw

theorem valid_get_submatrix {m w : matrix T} {a b c d : Nat} (hm : Valid m)
    (ha : a < 4294967296) (hb : b < 4294967296) (hc : c < 4294967296) (hd : d < 4294967296)
    (hw : get_submatrix m a b c d = .ok w) : Valid w := by
  cases m with
  | basic_matrix n_rows n_cols p =>
    exact valid_submatrix_constructor hm rfl ha hb hc hd hw
  | transpose_matrix base => exact valid_submatrix_constructor hm rfl ha hb hc hd hw
  | submatrix base fr lr fc lc =>
    exact valid_submatrix_constructor hm.1 hm.2.1 (u32_lt _) (u32_lt _) (u32_lt _) (u32_lt _) hw
  | diagonalmatrix base z => exact valid_submatrix_constructor hm rfl ha hb hc hd hw
  | diagonal base => exact valid_submatrix_constructor hm rfl ha hb hc hd hw

/-- Every view satisfies the structural invariant. -/
theorem view_valid [Zero T] {m : matrix T} (hm : View m) : Valid m := by
  induction hm with
  | basic n_rows n_cols p hr hc => exact ⟨hr, hc⟩
  | transpose fuel h h2 _ hw ih => exact valid_get_transpose ih hw
  | window a b c d _ ha hb hc hd hw ih => exact valid_get_submatrix ih ha hb hc hd hw
  | diagonal _ ih => simpa [get_diagonal, Valid] using ih
  | diagonalmatrix _ hw ih =>
    unfold get_diagonalmatrix at hw
    split at hw
    · rename_i h1
      simp only [copy_constructor_eq, Except.ok.injEq] at hw
      subst hw
      exact ⟨ih, h1⟩
    · cases hw

theorem get_rows_transpose (m : matrix T) : get_rows (.transpose_matrix m) = get_cols m := by
  simp [get_rows]

theorem get_cols_transpose (m : matrix T) : get_cols (.transpose_matrix m) = get_rows m := by
  simp [get_cols]

theorem get_rows_submatrix (m : matrix T) (fr lr fc lc : Nat) :
    get_rows (.submatrix m fr lr fc lc) = usub lr fr := by
  simp [get_rows]

theorem get_cols_submatrix (m : matrix T) (fr lr fc lc : Nat) :
    get_cols (.submatrix m fr lr fc lc) = usub lc fc := by
  simp [get_cols]

theorem operator_call_transpose (m : matrix T) (r c : Nat) :
    operator_call (.transpose_matrix m) r c =
      if r < get_cols m ∧ c < get_rows m then operator_call m c r else .error .OutOfBounds := by
  simp [operator_call, get_rows, get_cols]

theorem operator_call_submatrix (m : matrix T) (fr lr fc lc r c : Nat) :
    operator_call (.submatrix m fr lr fc lc) r c =
      if r ≤ usub lr fr ∧ r < lr ∧ c ≤ usub lc fc ∧ c < lc then
        operator_call m (u32 (r + fr)) (u32 (c + fc))
      else .error .OutOfBounds := by
  simp [operator_call, get_rows, get_cols]

theorem is_submatrix_iff {m : matrix T} :
    is_submatrix m = true ↔ ∃ base fr lr fc lc, m = .submatrix base fr lr fc lc := by
  cases m <;> simp [is_submatrix]

theorem get_submatrix_of_not_submatrix {m : matrix T} (hm : is_submatrix m = false)
    (a b c d : Nat) : get_submatrix m a b c d = submatrix_constructor m a b c d := by
  cases m <;> simp [get_submatrix, is_submatrix] at hm ⊢

theorem submatrix_constructor_ok {m w : matrix T} {fr lr fc lc : Nat}
    (hw : submatrix_constructor m fr lr fc lc = .ok w) :
    w = .submatrix m fr lr fc lc ∧ lr ≤ get_rows m ∧ lc ≤ get_cols m := by
  unfold submatrix_constructor at hw
  split at hw
  · rename_i hle
    simp only [copy_constructor_eq, Except.ok.injEq] at hw
    exact ⟨hw.symm, hle.1, hle.2⟩
  · cases hw

theorem submatrix_constructor_of_le {m : matrix T} {fr lr fc lc : Nat}
    (hr : lr ≤ get_rows m) (hc : lc ≤ get_cols m) :
    submatrix_constructor m fr lr fc lc = .ok (.submatrix m fr lr fc lc) := by
  simp [submatrix_constructor, hr, hc]

theorem submatrix_constructor_error_iff (m : matrix T) (fr lr fc lc : Nat) :
    submatrix_constructor m fr lr fc lc = .error .OutOfBounds ↔
      (lr > get_rows m ∨ lc > get_cols m) := by
  unfold submatrix_constructor
  split
  · rename_i hle
    simp only [reduceCtorEq, false_iff]
    omega
  · rename_i hle
    simp only [true_iff]
    omega

theorem u32_add_u32 (a b : Nat) : u32 (a + u32 b) = u32 (a + b) := by
  unfold u32; omega

theorem matrix_ne_submatrix_self (m : matrix T) (fr lr fc lc : Nat) :
    m ≠ .submatrix m fr lr fc lc := by
  intro h
  have hs := congrArg sizeOf h
  simp at hs
  omega

theorem operator_call_diagonal (m : matrix T) (r c : Nat) :
    operator_call (.diagonal m) r c =
      if c = 0 then operator_call m r r else .error .InvalidAccess := by
  simp [operator_call]

theorem operator_call_diagonalmatrix (m : matrix T) (z : T) (r c : Nat) :
    operator_call (.diagonalmatrix m z) r c =
      if r ≠ c then .ok (.null_element z) else operator_call m r 0 := by
  simp [operator_call]

theorem operator_call_basic (n_rows n_cols p r c : Nat) :
    operator_call (.basic_matrix n_rows n_cols p : matrix T) r c =
      if r < n_rows ∧ c < n_cols then .ok (.cell p (u32 (r * n_cols + c)))
      else .error .OutOfBounds := by
  simp [operator_call, get_rows, get_cols]

theorem get_rows_diagonal (m : matrix T) :
    get_rows (.diagonal m) = if get_rows m < get_cols m then get_rows m else get_cols m := by
  simp [get_rows]

theorem get_cols_diagonal (m : matrix T) : get_cols (.diagonal m) = 1 := by
  simp [get_cols]

theorem get_rows_diagonalmatrix (m : matrix T) (z : T) :
    get_rows (.diagonalmatrix m z) = get_rows m := by
  simp [get_rows]

theorem get_cols_diagonalmatrix (m : matrix T) (z : T) :
    get_cols (.diagonalmatrix m z) = get_rows m := by
  simp [get_cols]

theorem get_diagonalmatrix_ok [Zero T] {m w : matrix T} (hw : get_diagonalmatrix m = .ok w) :
    w = .diagonalmatrix m 0 ∧ get_cols m = 1 := by
  unfold get_diagonalmatrix at hw
  split at hw
  · rename_i h1
    simp only [copy_constructor_eq, Except.ok.injEq] at hw
    exact ⟨hw.symm, h1⟩
  · cases hw

theorem get_diagonalmatrix_of_cols [Zero T] {m : matrix T} (hm : get_cols m = 1) :
    get_diagonalmatrix m = .ok (.diagonalmatrix m 0) := by
  simp [get_diagonalmatrix, hm]

/-- Two in-row offsets of a row-major layout coincide only for equal
coordinates. -/
theorem offset_injective {n i j i2 j2 : Nat} (hj : j < n) (hj2 : j2 < n)
    (h : i * n + j = i2 * n + j2) : i = i2 ∧ j = j2 := by
  have key : ∀ {a b c d : Nat}, c < n → d < n → a * n + c = b * n + d → ¬ a < b := by
    intro a b c d hc _ he hab
    have h1 : (a + 1) * n ≤ b * n := Nat.mul_le_mul_right _ hab
    have h2 : (a + 1) * n = a * n + n := by ring
    omega
  have h1 := key hj hj2 h
  have h2 := key hj2 hj h.symm
  have hi : i = i2 := by omega
  subst hi
  exact ⟨rfl, by omega⟩

/-- A store changes the value loaded through the same reference and nothing
else. -/
theorem load_after_store {h h2 : Heap T} {ref : Ref T} {x : T}
    (hs : store h ref x = some h2) :
    load h2 ref = some x ∧ ∀ ref2, ref2 ≠ ref → load h2 ref2 = load h ref2 := by
  cases ref with
  | null_element z => simp [store] at hs
  | cell p off =>
    simp only [store] at hs
    split at hs
    · rename_i v hv
      split at hs
      · rename_i hoff
        simp only [Option.some.injEq] at hs
        subst hs
        have hp : p < h.length := by
          rcases Nat.lt_or_ge p h.length with hlt | hge
          · exact hlt
          · rw [List.getElem?_eq_none hge] at hv; cases hv
        refine ⟨by simp [load, hp, hoff], ?_⟩
        intro ref2 hne
        cases ref2 with
        | null_element z => simp [load]
        | cell q o =>
          by_cases hq : q = p
          · subst hq
            have ho : off ≠ o := by
              intro ho; apply hne; rw [ho]
            simp [load, hp, hv, List.getElem?_set_ne ho]
          · have hq2 : p ≠ q := fun e => hq e.symm
            simp [load, List.getElem?_set_ne hq2]
      · cases hs
    · cases hs

/-! ## The converting constructor: cursors along one row -/

theorem load_append {h : Heap T} {ref : Ref T} {x : T} (v : List T)
    (hl : load h ref = some x) : load (h ++ [v]) ref = some x := by
  cases ref with
  | null_element z => simpa [load] using hl
  | cell q off =>
    simp only [load] at hl ⊢
    have hq : q < h.length := by
      rcases Nat.lt_or_ge q h.length with hlt | hge
      · exact hlt
      · rw [List.getElem?_eq_none hge] at hl; simp at hl
    rw [List.getElem?_append_left hq]
    exact hl

theorem store_new_buffer (h : Heap T) (v : List T) (off : Nat) (x : T)
    (hoff : off < v.length) :
    store (h ++ [v]) (.cell h.length off) x = some (h ++ [v.set off x]) := by
  simp [store, hoff]

theorem load_new_buffer (h : Heap T) (v : List T) (off : Nat) :
    load (h ++ [v]) (.cell h.length off) = v[off]? := by
  simp [load]

/-- The positions of a `column_iterator` over `D` walking down column `i`. -/
theorem column_walk (D : matrix T) (i : Nat) (hrows : get_rows D < 4294967296)
    (hi : i + 1 < 4294967296) (k : Nat) (hk : k < get_rows D) :
    not_equal (.column_iterator D k i) (.column_iterator D 0 (i + 1)) = true ∧
    dereference (.column_iterator D k i) = operator_call D k i ∧
    increment (.column_iterator D k i) =
      (if k + 1 < get_rows D then .column_iterator D (k + 1) i
       else .column_iterator D 0 (i + 1)) := by
  refine ⟨by simp [not_equal], rfl, ?_⟩
  have hu : usub (get_rows D) 1 = get_rows D - 1 := usub_of_le (by omega) hrows
  simp only [increment, hu]
  by_cases hlast : k + 1 < get_rows D
  · rw [if_neg (by omega), if_pos hlast, u32_of_lt (by omega)]
  · rw [if_pos (by omega), if_neg hlast, u32_of_lt hi]

/-- The positions of an `iterator_limited` over `f` walking along row `i`. -/
theorem limited_walk (f : matrix T) (i : Nat) (hcols : get_cols f < 4294967296)
    (hi : i + 1 < 4294967296) (k : Nat) (hk : k < get_cols f) :
    not_equal (.iterator_limited f i k) (.iterator_limited f (i + 1) 0) = true ∧
    dereference (.iterator_limited f i k) = operator_call f i k ∧
    increment (.iterator_limited f i k) =
      (if k + 1 < get_cols f then .iterator_limited f i (k + 1)
       else .iterator_limited f (i + 1) 0) := by
  refine ⟨by simp [not_equal], rfl, ?_⟩
  have hu : u32 (k + 1) = k + 1 := u32_of_lt (by omega)
  simp only [increment, hu]
  by_cases hlast : k + 1 < get_cols f
  · rw [if_neg (by omega), if_pos hlast]
  · rw [if_pos (by omega), if_neg hlast, u32_of_lt hi]

theorem column_begin_of_access (D : matrix T) (hnt : is_transpose D = false) (i : Nat)
    (hacc : ∃ ref, operator_call D 0 i = .ok ref) :
    column_begin D i = .ok (.column_iterator D 0 i) ∧
    column_end_at D i = .ok (.column_iterator D 0 (u32 (i + 1))) := by
  obtain ⟨ref, hacc⟩ := hacc
  cases D with
  | basic_matrix n_rows n_cols p =>
    rw [operator_call_basic] at hacc
    split at hacc
    · rename_i hin
      simp [column_begin, column_end_at, hin.2]
    · cases hacc
  | transpose_matrix base => simp [is_transpose] at hnt
  | submatrix base fr lr fc lc =>
    rw [operator_call_submatrix] at hacc
    split at hacc
    · rename_i hin
      simp [column_begin, column_end_at, hin.2.2.2]
    · cases hacc
  | diagonalmatrix base z => simp [column_begin, column_end_at]
  | diagonal base => simp [column_begin, column_end_at]

theorem begin_of_access (f : matrix T) (hnb : is_basic f = false)
    (hnt : is_transpose f = false) (i : Nat)
    (hacc : ∃ ref, operator_call f i 0 = .ok ref) :
    begin f i = .ok (.iterator_limited f i 0) ∧
    end_at f i = .ok (.iterator_limited f (u32 (i + 1)) 0) := by
  obtain ⟨ref, hacc⟩ := hacc
  cases f with
  | basic_matrix n_rows n_cols p => simp [is_basic] at hnb
  | transpose_matrix base => simp [is_transpose] at hnt
  | submatrix base fr lr fc lc =>
    rw [operator_call_submatrix] at hacc
    split at hacc
    · rename_i hin
      simp [begin, end_at, hin.2.1]
    · cases hacc
  | diagonalmatrix base z => simp [begin, end_at]
  | diagonal base => simp [begin, end_at]

/-- The row iterators of a view that is not a basic matrix: `begin(i)` and
`end(i)` are obtained without a failed assertion, and `cols()` increments lead
from the first to the second through positions whose dereference is the access
`f(i, 0)`, ..., `f(i, cols() - 1)`. -/
theorem row_walk (f : matrix T) (hval : Valid f) (hnb : is_basic f = false) (i : Nat)
    (hi : i < get_rows f) (hc : 0 < get_cols f)
    (hacc : ∃ ref, operator_call f i 0 = .ok ref) :
    ∃ (pos : Nat → cursor T) (last : cursor T),
      begin f i = .ok (pos 0) ∧ end_at f i = .ok last ∧
      pos (get_cols f) = last ∧ not_equal last last = false ∧
      ∀ k, k < get_cols f →
        not_equal (pos k) last = true ∧
        dereference (pos k) = operator_call f i k ∧
        increment (pos k) = pos (k + 1) := by
  have hshape := valid_shape_lt hval
  have hi1 : i + 1 < 4294967296 := by omega
  by_cases ht : is_transpose f = true
  · obtain ⟨D, rfl⟩ := is_transpose_iff.mp ht
    rw [get_rows_transpose] at hi hshape
    rw [get_cols_transpose] at hc hshape ⊢
    have hD : is_transpose D = false := hval.2
    have haccD : ∃ ref, operator_call D 0 i = .ok ref := by
      obtain ⟨ref, hr⟩ := hacc
      rw [operator_call_transpose, if_pos ⟨hi, hc⟩] at hr
      exact ⟨ref, hr⟩
    obtain ⟨hb, he⟩ := column_begin_of_access D hD i haccD
    rw [u32_of_lt hi1] at he
    refine ⟨fun k => if k < get_rows D then .column_iterator D k i
        else .column_iterator D 0 (i + 1), .column_iterator D 0 (i + 1), ?_, ?_, ?_, ?_, ?_⟩
    · simp only [begin, if_pos hc]; exact hb
    · simp only [end_at]; exact he
    · simp
    · simp [not_equal]
    · intro k hk
      obtain ⟨h1, h2, h3⟩ := column_walk D i hshape.2 hi1 k hk
      simp only [if_pos hk]
      refine ⟨h1, ?_, h3⟩
      rw [h2, operator_call_transpose, if_pos ⟨hi, hk⟩]
  · have ht2 : is_transpose f = false := by simpa using ht
    obtain ⟨hb, he⟩ := begin_of_access f hnb ht2 i hacc
    rw [u32_of_lt hi1] at he
    refine ⟨fun k => if k < get_cols f then .iterator_limited f i k
        else .iterator_limited f (i + 1) 0, .iterator_limited f (i + 1) 0, ?_, he, ?_, ?_, ?_⟩
    · simp only [if_pos hc]; exact hb
    · simp
    · simp [not_equal]
    · intro k hk
      obtain ⟨h1, h2, h3⟩ := limited_walk f i hshape.2 hi1 k hk
      simp only [if_pos hk]
      exact ⟨h1, h2, h3⟩

theorem copy_loop_step (fuel : Nat) (h : Heap T) (ii ie i_this : cursor T)
    (source : Ref T) (x : T) (target : Ref T) (h2 : Heap T)
    (hne : not_equal ii ie = true) (hd : dereference ii = .ok source)
    (hl : load h source = some x) (hd2 : dereference i_this = .ok target)
    (hs : store h target x = some h2) :
    copy_loop (fuel + 1) h ii ie i_this
      = copy_loop fuel h2 (increment ii) ie (increment i_this) := by
  simp [copy_loop, hne, hd, hl, hd2, hs]

/-- The inner loop of the converting constructor along a walk `pos`: started at
position `k` with the new buffer `v`, it ends normally, having stored the values
read at positions `k`, ..., `C - 1` at offsets `base + k`, ..., `base + C - 1` of
the new buffer and nothing else. -/
theorem copy_loop_row (h : Heap T) (f : matrix T) (i C base : Nat)
    (pos : Nat → cursor T) (last : cursor T)
    (hstop : pos C = last) (hlast : not_equal last last = false)
    (hstep : ∀ k, k < C →
      not_equal (pos k) last = true ∧
      dereference (pos k) = operator_call f i k ∧
      increment (pos k) = pos (k + 1))
    (hread : ∀ k, k < C → ∃ ref x, operator_call f i k = .ok ref ∧ load h ref = some x) :
    ∀ (d k : Nat) (v : List T) (fuel : Nat), k + d = C → d < fuel → base + C ≤ v.length →
      ∃ v2, copy_loop fuel (h ++ [v]) (pos k) last (.vector_iterator h.length (base + k))
          = .done (h ++ [v2]) ∧
        v2.length = v.length ∧
        (∀ j, k ≤ j → j < C → ∀ ref x, operator_call f i j = .ok ref →
          load h ref = some x → v2[base + j]? = some x) ∧
        (∀ o, (o < base + k ∨ base + C ≤ o) → v2[o]? = v[o]?) := by
  intro d
  induction d with
  | zero =>
    intro k v fuel hk hfuel hlen
    have hkC : k = C := by omega
    subst hkC
    obtain ⟨fuel2, rfl⟩ : ∃ n, fuel = n + 1 := ⟨fuel - 1, by omega⟩
    refine ⟨v, ?_, rfl, ?_, fun _ _ => rfl⟩
    · simp [copy_loop, hstop, hlast]
    · intro j hj1 hj2
      omega
  | succ d ih =>
    intro k v fuel hk hfuel hlen
    have hkC : k < C := by omega
    obtain ⟨fuel2, rfl⟩ : ∃ n, fuel = n + 1 := ⟨fuel - 1, by omega⟩
    obtain ⟨hne, hderef, hinc⟩ := hstep k hkC
    obtain ⟨ref, x, hacc, hload⟩ := hread k hkC
    have hoff : base + k < v.length := by omega
    obtain ⟨v2, hrun, hlen2, hvals, hrest⟩ :=
      ih (k + 1) (v.set (base + k) x) fuel2 (by omega) (by omega)
        (by rw [List.length_set]; exact hlen)
    refine ⟨v2, ?_, ?_, ?_, ?_⟩
    · have hrun2 : copy_loop fuel2 (h ++ [v.set (base + k) x]) (pos (k + 1)) last
          (.vector_iterator h.length (base + k + 1)) = .done (h ++ [v2]) := by
        rw [← hrun, Nat.add_assoc]
      rw [copy_loop_step fuel2 (h ++ [v]) (pos k) last (.vector_iterator h.length (base + k))
        ref x (.cell h.length (base + k)) (h ++ [v.set (base + k) x]) hne
        (hderef.trans hacc) (load_append v hload) rfl (store_new_buffer h v (base + k) x hoff),
        hinc]
      exact hrun2
    · rw [hlen2, List.length_set]
    · intro j hj1 hj2 ref2 x2 hacc2 hload2
      rcases Nat.eq_or_lt_of_le hj1 with hjk | hjk
      · subst hjk
        rw [hacc] at hacc2
        injection hacc2 with hrr
        subst hrr
        rw [hload] at hload2
        injection hload2 with hxx
        subst hxx
        rw [hrest (base + k) (Or.inl (by omega))]
        simp [hoff]
      · exact hvals j (by omega) hj2 ref2 x2 hacc2 hload2
    · intro o ho
      rw [hrest o (by omega)]
      have hne2 : base + k ≠ o := by omega
      exact List.getElem?_set_ne hne2

theorem copy_rows_step (fuel : Nat) (matrix_to_copy this : matrix T) (steps i : Nat)
    (h h2 : Heap T) (ii ie i_this : cursor T)
    (hb : begin matrix_to_copy i = .ok ii) (he : end_at matrix_to_copy i = .ok ie)
    (hb2 : begin this i = .ok i_this) (hl : copy_loop fuel h ii ie i_this = .done h2) :
    copy_rows fuel matrix_to_copy this (steps + 1) i h
      = copy_rows fuel matrix_to_copy this steps (i + 1) h2 := by
  simp [copy_rows, hb, he, hb2, hl]

theorem row_offset_lt {N C i j : Nat} (hi : i < N) (hj : j < C) : i * C + j < N * C := by
  have h1 : (i + 1) * C ≤ N * C := Nat.mul_le_mul_right _ hi
  have h2 : (i + 1) * C = i * C + C := by ring
  omega

/-- The outer loop of the converting constructor on a readable view that is not
a basic matrix: started at row `i` with the new buffer `v`, it ends normally,
having stored the value read at `(i2, j)` at offset `i2 * cols + j` for every
remaining row `i2` and every column `j`, and nothing below offset `i * cols`. -/
theorem copy_rows_all (h : Heap T) (f : matrix T) (hval : Valid f) (hnb : is_basic f = false)
    (hc : 0 < get_cols f) (hsz : get_rows f * get_cols f < 4294967296)
    (hread : Readable h f) (fuel : Nat) (hfuel : get_cols f < fuel) :
    ∀ (steps i : Nat) (v : List T), i + steps = get_rows f →
      v.length = get_rows f * get_cols f →
      ∃ v2, copy_rows fuel f (.basic_matrix (get_rows f) (get_cols f) h.length) steps i
          (h ++ [v]) = .done (h ++ [v2]) ∧
        v2.length = v.length ∧
        (∀ i2 j, i ≤ i2 → i2 < get_rows f → j < get_cols f → ∀ ref x,
          operator_call f i2 j = .ok ref → load h ref = some x →
          v2[i2 * get_cols f + j]? = some x) ∧
        (∀ o, o < i * get_cols f → v2[o]? = v[o]?) := by
  intro steps
  induction steps with
  | zero =>
    intro i v hi hlen
    refine ⟨v, by simp [copy_rows], rfl, ?_, fun _ _ => rfl⟩
    intro i2 j h1 h2
    omega
  | succ steps ih =>
    intro i v hi hlen
    have hiN : i < get_rows f := by omega
    obtain ⟨ref0, x0, hacc0, _⟩ := hread i 0 hiN hc
    obtain ⟨pos, last, hb, he, hstop, hlast, hstep⟩ :=
      row_walk f hval hnb i hiN hc ⟨ref0, hacc0⟩
    have hrow : (i + 1) * get_cols f ≤ get_rows f * get_cols f :=
      Nat.mul_le_mul_right _ hiN
    have hrow2 : (i + 1) * get_cols f = i * get_cols f + get_cols f := by ring
    have hu : u32 (i * get_cols f) = i * get_cols f := u32_of_lt (by omega)
    have hb2 : begin (.basic_matrix (get_rows f) (get_cols f) h.length : matrix T) i
        = .ok (.vector_iterator h.length (i * get_cols f + 0)) := by
      simp [begin, hiN, hu]
    obtain ⟨v1, hrun1, hlen1, hvals1, hrest1⟩ :=
      copy_loop_row h f i (get_cols f) (i * get_cols f) pos last hstop hlast hstep
        (fun k hk => hread i k hiN hk) (get_cols f) 0 v fuel (by omega) hfuel (by omega)
    obtain ⟨v2, hrun2, hlen2, hvals2, hrest2⟩ :=
      ih (i + 1) v1 (by omega) (by rw [hlen1]; exact hlen)
    refine ⟨v2, ?_, by rw [hlen2, hlen1], ?_, ?_⟩
    · rw [copy_rows_step fuel f _ steps i (h ++ [v]) (h ++ [v1]) (pos 0) last _ hb he hb2 hrun1]
      exact hrun2
    · intro i2 j hi2 hi2N hj ref x hacc hload
      rcases Nat.eq_or_lt_of_le hi2 with heq | hlt
      · subst heq
        rw [hrest2 (i * get_cols f + j) (by omega)]
        exact hvals1 j (Nat.zero_le _) hj ref x hacc hload
      · exact hvals2 i2 j (by omega) hi2N hj ref x hacc hload
    · intro o ho
      rw [hrest2 o (by omega), hrest1 o (Or.inl (by omega))]

theorem copy_rows_undefined (fuel : Nat) (matrix_to_copy this : matrix T) (steps i : Nat)
    (h : Heap T) (ii ie i_this : cursor T)
    (hb : begin matrix_to_copy i = .ok ii) (he : end_at matrix_to_copy i = .ok ie)
    (hb2 : begin this i = .ok i_this) (hl : copy_loop fuel h ii ie i_this = .undefined) :
    copy_rows fuel matrix_to_copy this (steps + 1) i h = .undefined := by
  simp [copy_rows, hb, he, hb2, hl]

theorem copy_loop_undefined_store (fuel : Nat) (h : Heap T) (ii ie i_this : cursor T)
    (source : Ref T) (x : T) (target : Ref T)
    (hne : not_equal ii ie = true) (hd : dereference ii = .ok source)
    (hl : load h source = some x) (hd2 : dereference i_this = .ok target)
    (hs : store h target x = none) :
    copy_loop (fuel + 1) h ii ie i_this = .undefined := by
  simp [copy_loop, hne, hd, hl, hd2, hs]

/-- An access returns the null element of a `diagonalmatrix` or a cell of the
buffer at the bottom of the chain. -/
theorem operator_call_ref_cases {m : matrix T} {r c : Nat} {ref : Ref T}
    (hr : operator_call m r c = .ok ref) :
    (∃ z, ref = .null_element z) ∨ ∃ off, ref = .cell (buffer_of m) off := by
  induction m generalizing r c with
  | basic_matrix n_rows n_cols p =>
    rw [operator_call_basic] at hr
    split at hr
    · simp only [Except.ok.injEq] at hr
      exact Or.inr ⟨_, hr.symm⟩
    · cases hr
  | transpose_matrix base ih =>
    rw [operator_call_transpose] at hr
    split at hr
    · exact ih hr
    · cases hr
  | submatrix base fr lr fc lc ih =>
    rw [operator_call_submatrix] at hr
    split at hr
    · exact ih hr
    · cases hr
  | diagonalmatrix base z ih =>
    rw [operator_call_diagonalmatrix] at hr
    split at hr
    · simp only [Except.ok.injEq] at hr
      exact Or.inl ⟨z, hr.symm⟩
    · exact ih hr
  | diagonal base ih =>
    rw [operator_call_diagonal] at hr
    split at hr
    · exact ih hr
    · cases hr

theorem load_beyond_heap (h : Heap T) (off : Nat) : load h (.cell h.length off) = none := by
  simp [load]

/-! ## Cursors: positions reached by repeated increments -/

/-- Quotient and remainder of a successor. -/
theorem succ_div_mod (R k : Nat) (hR : 0 < R) :
    (k % R + 1 = R → (k + 1) / R = k / R + 1 ∧ (k + 1) % R = 0) ∧
    (k % R + 1 ≠ R → (k + 1) / R = k / R ∧ (k + 1) % R = k % R + 1) := by
  have hk := Nat.div_add_mod k R
  have hlt := Nat.mod_lt k hR
  constructor
  · intro he
    have e : k + 1 = R * (k / R + 1) := by rw [Nat.mul_add, Nat.mul_one]; omega
    rw [e]
    exact ⟨Nat.mul_div_cancel_left _ hR, Nat.mul_mod_right _ _⟩
  · intro hne
    have e : k + 1 = R * (k / R) + (k % R + 1) := by omega
    have hlt2 : k % R + 1 < R := by omega
    have hd : (R * (k / R) + (k % R + 1)) / R = k / R := by
      rw [Nat.mul_add_div hR, Nat.div_eq_of_lt hlt2, Nat.add_zero]
    have hm : (R * (k / R) + (k % R + 1)) % R = k % R + 1 := by
      rw [Nat.mul_add_mod, Nat.mod_eq_of_lt hlt2]
    rw [← e] at hd hm
    exact ⟨hd, hm⟩

theorem advance_succ (n : Nat) (it : cursor T) :
    advance (n + 1) it = increment (advance n it) := by
  induction n generalizing it with
  | zero => rfl
  | succ n ih =>
    show advance (n + 1) (increment it) = increment (advance n (increment it))
    exact ih (increment it)

theorem advance_vector (p a k : Nat) :
    advance k (.vector_iterator p a : cursor T) = .vector_iterator p (a + k) := by
  induction k with
  | zero => rfl
  | succ k ih => rw [advance_succ, ih]; rfl

/-- The position of an `iterator_limited` over `f` after `k` increments from
`(i, 0)`, as long as the row index does not wrap. -/
theorem advance_limited (f : matrix T) (i : Nat) (hc : 0 < get_cols f)
    (hcols : get_cols f < 4294967296) (k : Nat) (hk : i + k / get_cols f < 4294967296) :
    advance k (.iterator_limited f i 0)
      = .iterator_limited f (i + k / get_cols f) (k % get_cols f) := by
  induction k with
  | zero => simp [advance]
  | succ k ih =>
    have hle : k / get_cols f ≤ (k + 1) / get_cols f := Nat.div_le_div_right (Nat.le_succ k)
    rw [advance_succ, ih (by omega)]
    have hmod := Nat.mod_lt k hc
    obtain ⟨h1, h2⟩ := succ_div_mod (get_cols f) k hc
    have hu : u32 (k % get_cols f + 1) = k % get_cols f + 1 := u32_of_lt (by omega)
    simp only [increment, hu]
    by_cases hlast : k % get_cols f + 1 = get_cols f
    · obtain ⟨e1, e2⟩ := h1 hlast
      rw [if_pos hlast, e1, e2, u32_of_lt (by omega)]
      rfl
    · obtain ⟨e1, e2⟩ := h2 hlast
      rw [if_neg hlast, e1, e2]

/-- The position of a `column_iterator` over `m` after `k` increments from
`(0, j)`, as long as the column index does not wrap. -/
theorem advance_column (m : matrix T) (j : Nat) (hr : 0 < get_rows m)
    (hrows : get_rows m < 4294967296) (k : Nat) (hk : j + k / get_rows m < 4294967296) :
    advance k (.column_iterator m 0 j)
      = .column_iterator m (k % get_rows m) (j + k / get_rows m) := by
  induction k with
  | zero => simp [advance]
  | succ k ih =>
    have hle : k / get_rows m ≤ (k + 1) / get_rows m := Nat.div_le_div_right (Nat.le_succ k)
    rw [advance_succ, ih (by omega)]
    have hmod := Nat.mod_lt k hr
    obtain ⟨h1, h2⟩ := succ_div_mod (get_rows m) k hr
    have hu : usub (get_rows m) 1 = get_rows m - 1 := usub_of_le (by omega) hrows
    simp only [increment, hu]
    by_cases hlast : k % get_rows m + 1 = get_rows m
    · obtain ⟨e1, e2⟩ := h1 hlast
      rw [if_pos (by omega), e1, e2, u32_of_lt (by omega)]
      rfl
    · obtain ⟨e1, e2⟩ := h2 hlast
      rw [if_neg (by omega), e1, e2, u32_of_lt (by omega)]

/-- A loop from `first` to `last` whose first `n` positions differ from `last`
and can be dereferenced, and whose position after `n` increments equals `last`:
with more fuel than `n` it visits exactly those `n` positions. -/
theorem traverse_advance (first last : cursor T) (n : Nat)
    (hne : ∀ k, k < n → not_equal (advance k first) last = true)
    (hok : ∀ k, k < n → ∃ ref, dereference (advance k first) = .ok ref)
    (hend : not_equal (advance n first) last = false)
    (fuel : Nat) (hfuel : n < fuel) :
    traverse fuel first last = (List.range n).map (fun k => dereference (advance k first)) := by
  induction n generalizing first fuel with
  | zero =>
    obtain ⟨fuel2, rfl⟩ : ∃ f, fuel = f + 1 := ⟨fuel - 1, by omega⟩
    have h0 : not_equal first last = false := hend
    simp [traverse, h0]
  | succ n ih =>
    obtain ⟨fuel2, rfl⟩ : ∃ f, fuel = f + 1 := ⟨fuel - 1, by omega⟩
    have h0 : not_equal first last = true := hne 0 (Nat.succ_pos n)
    obtain ⟨ref, hd⟩ := hok 0 (Nat.succ_pos n)
    have hd0 : dereference first = .ok ref := hd
    have hrec := ih (increment first)
      (fun k hk => hne (k + 1) (by omega))
      (fun k hk => hok (k + 1) (by omega))
      hend fuel2 (by omega)
    rw [List.range_succ_eq_map, List.map_cons, List.map_map]
    simp only [traverse, h0, if_true, hd0]
    rw [hrec, hd0.symm]
    rfl

/-- A loop over a buffer from offset `a` to offset `a + n` visits the cells
`a`, ..., `a + n - 1`. -/
theorem traverse_vector (p a n fuel : Nat) (hfuel : n < fuel) :
    traverse fuel (.vector_iterator p a : cursor T) (.vector_iterator p (a + n))
      = (List.range n).map (fun k => .ok (.cell p (a + k))) := by
  rw [traverse_advance (.vector_iterator p a) (.vector_iterator p (a + n)) n ?_ ?_ ?_ fuel hfuel]
  · apply List.map_congr_left
    intro k _
    rw [advance_vector]
    rfl
  · intro k hk
    rw [advance_vector]
    have hne : a + k ≠ a + n := by omega
    simp [not_equal, hne]
  · intro k _
    rw [advance_vector]
    exact ⟨_, rfl⟩
  · rw [advance_vector]
    simp [not_equal]

/-- In a basic matrix without overflow the `k`-th cell of the buffer is the
element `(k / n_cols, k % n_cols)`. -/
theorem basic_cell_of_offset (n_rows n_cols p k : Nat) (hsz : n_rows * n_cols < 4294967296)
    (hk : k < n_rows * n_cols) :
    operator_call (.basic_matrix n_rows n_cols p : matrix T) (k / n_cols) (k % n_cols)
      = .ok (.cell p k) := by
  have hC : 0 < n_cols := by
    rcases Nat.eq_zero_or_pos n_cols with h0 | hpos
    · rw [h0, Nat.mul_zero] at hk; omega
    · exact hpos
  have h1 : k / n_cols < n_rows := (Nat.div_lt_iff_lt_mul hC).mpr hk
  have h2 : k % n_cols < n_cols := Nat.mod_lt k hC
  have h3 : k / n_cols * n_cols + k % n_cols = k := by
    rw [Nat.mul_comm]; exact Nat.div_add_mod k n_cols
  rw [operator_call_basic, if_pos ⟨h1, h2⟩, h3, u32_of_lt (by omega)]

theorem regular_shape_lt {h : Heap T} {m : matrix T} (hm : Regular h m) :
    get_rows m < 4294967296 ∧ get_cols m < 4294967296 := by
  induction m with
  | basic_matrix n_rows n_cols p => exact ⟨hm.1, hm.2.1⟩
  | transpose_matrix base ih =>
    have := ih hm
    simp only [get_rows, get_cols]; exact ⟨this.2, this.1⟩
  | submatrix base fr lr fc lc ih =>
    simp only [get_rows, get_cols]; exact ⟨usub_lt _ _, usub_lt _ _⟩
  | diagonalmatrix base z ih =>
    have := ih hm.1
    simp only [get_rows, get_cols]; exact ⟨this.1, this.1⟩
  | diagonal base ih =>
    have := ih hm
    simp only [get_rows, get_cols]
    refine ⟨?_, by omega⟩
    split <;> omega

/-- Under the invariant `Regular`, every in-shape access passes the assertions
of every layer and yields a reference that designates an element. -/
theorem regular_readable {h : Heap T} {m : matrix T} (hm : Regular h m) : Readable h m := by
  induction m with
  | basic_matrix n_rows n_cols p =>
    intro i j hi hj
    simp only [get_rows, get_cols] at hi hj
    obtain ⟨_, _, hsz, v, hv, hlen⟩ := hm
    have hoff : i * n_cols + j < n_rows * n_cols := row_offset_lt hi hj
    rw [u32_of_lt hsz] at hlen
    have hlt : i * n_cols + j < v.length := by omega
    refine ⟨.cell p (i * n_cols + j), v[i * n_cols + j], ?_, ?_⟩
    · rw [operator_call_basic, if_pos ⟨hi, hj⟩, u32_of_lt (by omega)]
    · simp [load, hv, hlt]
  | transpose_matrix base ih =>
    intro i j hi hj
    rw [get_rows_transpose] at hi
    rw [get_cols_transpose] at hj
    obtain ⟨ref, x, hacc, hload⟩ := ih hm j i hj hi
    refine ⟨ref, x, ?_, hload⟩
    rw [operator_call_transpose, if_pos ⟨hi, hj⟩]
    exact hacc
  | submatrix base fr lr fc lc ih =>
    intro i j hi hj
    obtain ⟨hb, hr, hc, hlr, hlc⟩ := hm
    have hshape := regular_shape_lt hb
    rw [get_rows_submatrix, usub_of_le hr (by omega)] at hi
    rw [get_cols_submatrix, usub_of_le hc (by omega)] at hj
    obtain ⟨ref, x, hacc, hload⟩ := ih hb (i + fr) (j + fc) (by omega) (by omega)
    refine ⟨ref, x, ?_, hload⟩
    rw [operator_call_submatrix, usub_of_le hr (by omega), usub_of_le hc (by omega),
      if_pos ⟨by omega, by omega, by omega, by omega⟩, u32_of_lt (by omega),
      u32_of_lt (by omega)]
    exact hacc
  | diagonalmatrix base z ih =>
    intro i j hi hj
    rw [get_rows_diagonalmatrix] at hi
    by_cases hij : i = j
    · subst hij
      obtain ⟨ref, x, hacc, hload⟩ := ih hm.1 i 0 hi (by rw [hm.2]; omega)
      refine ⟨ref, x, ?_, hload⟩
      rw [operator_call_diagonalmatrix, if_neg (by simp)]
      exact hacc
    · refine ⟨.null_element z, z, ?_, rfl⟩
      rw [operator_call_diagonalmatrix, if_pos hij]
  | diagonal base ih =>
    intro i j hi hj
    rw [get_rows_diagonal] at hi
    rw [get_cols_diagonal] at hj
    have hj0 : j = 0 := by omega
    subst hj0
    have hi2 : i < get_rows base ∧ i < get_cols base := by
      split at hi <;> omega
    obtain ⟨ref, x, hacc, hload⟩ := ih hm i i hi2.1 hi2.2
    refine ⟨ref, x, ?_, hload⟩
    rw [operator_call_diagonal, if_pos rfl]
    exact hacc

/-- The inner loop of the converting constructor stores into the new buffer
only: when it ends normally, the heap is the old one followed by a buffer of the
same length. -/
theorem copy_loop_heap (h : Heap T) :
    ∀ (fuel : Nat) (v : List T) (ii ie : cursor T) (off : Nat) (h2 : Heap T),
      copy_loop fuel (h ++ [v]) ii ie (.vector_iterator h.length off) = .done h2 →
      ∃ v2, h2 = h ++ [v2] ∧ v2.length = v.length := by
  intro fuel
  induction fuel with
  | zero =>
    intro v ii ie off h2 hrun
    simp [copy_loop] at hrun
  | succ fuel ih =>
    intro v ii ie off h2 hrun
    by_cases hne : not_equal ii ie = true
    · cases hd : dereference ii with
      | error e => simp [copy_loop, hne, hd] at hrun
      | ok source =>
        cases hl : load (h ++ [v]) source with
        | none => simp [copy_loop, hne, hd, hl] at hrun
        | some x =>
          by_cases hoff : off < v.length
          · rw [copy_loop_step fuel (h ++ [v]) ii ie (.vector_iterator h.length off) source x
              (.cell h.length off) (h ++ [v.set off x]) hne hd hl rfl
              (store_new_buffer h v off x hoff)] at hrun
            obtain ⟨v2, e, hlen⟩ := ih (v.set off x) (increment ii) ie (off + 1) h2 hrun
            exact ⟨v2, e, by rw [hlen, List.length_set]⟩
          · have hs : store (h ++ [v]) (.cell h.length off) x = none := by
              simp [store, hoff]
            rw [copy_loop_undefined_store fuel (h ++ [v]) ii ie
              (.vector_iterator h.length off) source x (.cell h.length off) hne hd hl rfl hs]
              at hrun
            cases hrun
    · have hne2 : not_equal ii ie = false := by simpa using hne
      simp [copy_loop, hne2] at hrun
      exact ⟨v, hrun.symm, rfl⟩

/-- The outer loop of the converting constructor, likewise. -/
theorem copy_rows_heap (fuel : Nat) (f : matrix T) (R C : Nat) (h : Heap T) :
    ∀ (steps i : Nat) (v : List T) (h2 : Heap T),
      copy_rows fuel f (.basic_matrix R C h.length) steps i (h ++ [v]) = .done h2 →
      ∃ v2, h2 = h ++ [v2] ∧ v2.length = v.length := by
  intro steps
  induction steps with
  | zero =>
    intro i v h2 hrun
    simp [copy_rows] at hrun
    exact ⟨v, hrun.symm, rfl⟩
  | succ steps ih =>
    intro i v h2 hrun
    cases hb : begin f i with
    | error e => simp [copy_rows, hb] at hrun
    | ok ii =>
      cases he : end_at f i with
      | error e => simp [copy_rows, hb, he] at hrun
      | ok ie =>
        by_cases hcond : i = 0 ∨ i < R
        · have hb2 : begin (.basic_matrix R C h.length : matrix T) i
              = .ok (.vector_iterator h.length (u32 (i * C))) := by
            simp only [begin, if_pos hcond]
          cases hl : copy_loop fuel (h ++ [v]) ii ie (.vector_iterator h.length (u32 (i * C))) with
          | done h3 =>
            obtain ⟨v3, rfl, hlen3⟩ := copy_loop_heap h fuel v ii ie _ h3 hl
            rw [copy_rows_step fuel f (.basic_matrix R C h.length) steps i (h ++ [v])
              (h ++ [v3]) ii ie _ hb he hb2 hl] at hrun
            obtain ⟨v2, e, hlen⟩ := ih (i + 1) v3 h2 hrun
            exact ⟨v2, e, by rw [hlen, hlen3]⟩
          | failed e => simp [copy_rows, hb, he, hb2, hl] at hrun
          | undefined => simp [copy_rows, hb, he, hb2, hl] at hrun
          | out_of_fuel => simp [copy_rows, hb, he, hb2, hl] at hrun
        · have hb2 : begin (.basic_matrix R C h.length : matrix T) i
              = .error .OutOfBounds := by
            simp only [begin, if_neg hcond]
          simp [copy_rows, hb, he, hb2] at hrun

/-- What the converting constructor leaves when it returns: the old heap followed
by one new buffer, of the allocated length, and a basic matrix with the shape of
the argument on that buffer. -/
theorem converting_constructor_heap [Zero T] {fuel : Nat} {h h2 : Heap T} {f w : matrix T}
    (hw : converting_constructor fuel h f = .done (h2, w)) :
    w = .basic_matrix (get_rows f) (get_cols f) h.length ∧
    ∃ v2, h2 = h ++ [v2] ∧ v2.length = u32 (get_cols f * get_rows f) := by
  refine ⟨converting_constructor_descriptor hw, ?_⟩
  unfold converting_constructor at hw
  split at hw
  · rename_i h3 hrows
    obtain ⟨v2, e, hlen⟩ := copy_rows_heap fuel f _ _ h _ _ _ h3 hrows
    injection hw with hw
    injection hw with hw1 _
    subst hw1
    exact ⟨v2, e, by rw [hlen, List.length_replicate]⟩
  · cases hw
  · cases hw
  · cases hw

theorem regular_append {h : Heap T} {m : matrix T} (v : List T) (hm : Regular h m) :
    Regular (h ++ [v]) m := by
  induction m with
  | basic_matrix n_rows n_cols p =>
    obtain ⟨h1, h2, h3, w, hw, hlen⟩ := hm
    refine ⟨h1, h2, h3, w, ?_, hlen⟩
    have hp : p < h.length := by
      by_contra hge
      rw [List.getElem?_eq_none (by omega)] at hw
      cases hw
    rw [List.getElem?_append_left hp]
    exact hw
  | transpose_matrix base ih => exact ih hm
  | submatrix base fr lr fc lc ih => exact ⟨ih hm.1, hm.2⟩
  | diagonalmatrix base z ih => exact ⟨ih hm.1, hm.2⟩
  | diagonal base ih => exact ih hm

/-- The invariant `Regular` is kept by a `get_transpose` call that returns, in
the heap the call leaves. -/
theorem regular_get_transpose [Zero T] {fuel : Nat} {h h2 : Heap T} {m w : matrix T}
    (hm : Regular h m) (hw : get_transpose fuel h m = .done (h2, w)) : Regular h2 w := by
  by_cases ht : is_transpose m = true
  · obtain ⟨base, rfl⟩ := is_transpose_iff.mp ht
    by_cases hb : is_basic base = true
    · obtain ⟨n_rows, n_cols, p, rfl⟩ := is_basic_iff.mp hb
      rw [get_transpose_transpose_basic] at hw
      obtain ⟨rfl, v2, rfl, hlen⟩ := converting_constructor_heap hw
      obtain ⟨h1, h2, h3, _⟩ := hm
      simp only [get_rows, get_cols] at hlen ⊢
      refine ⟨h2, h1, by rw [Nat.mul_comm]; exact h3, v2, by simp, ?_⟩
      rw [hlen, Nat.mul_comm]
    · have hb2 : is_basic base = false := by simpa using hb
      rw [get_transpose_transpose fuel h hb2] at hw
      injection hw with hw
      injection hw with hw1 hw2
      subst hw1 hw2
      exact hm
  · have ht2 : is_transpose m = false := by simpa using ht
    rw [get_transpose_of_not_transpose fuel h ht2] at hw
    injection hw with hw
    injection hw with hw1 hw2
    subst hw1 hw2
    exact hm

/-- The invariant `Regular` is carried along a chain of calls with ordered
bounds. -/
theorem regular_of_chain [Zero T] {h0 h : Heap T} {B m : matrix T} (hB : Regular h0 B)
    (hm : OrderedChain h0 B h m) : Regular h m := by
  induction hm with
  | start => exact hB
  | transpose fuel _ hw ih => exact regular_get_transpose ih hw
  | @window h m w a b c d _ hab hcd hno hw ih =>
    by_cases hs : is_submatrix m = true
    · obtain ⟨base, fr, lr, fc, lc, rfl⟩ := is_submatrix_iff.mp hs
      obtain ⟨hb1, hd1⟩ := hno base fr lr fc lc rfl
      simp only [get_submatrix] at hw
      obtain ⟨rfl, hle1, hle2⟩ := submatrix_constructor_ok hw
      rw [u32_of_lt hb1] at hle1
      rw [u32_of_lt hd1] at hle2
      rw [u32_of_lt hb1, u32_of_lt hd1, u32_of_lt (by omega : a + fr < 4294967296),
        u32_of_lt (by omega : c + fc < 4294967296)]
      exact ⟨ih.1, by omega, by omega, hle1, hle2⟩
    · have hs2 : is_submatrix m = false := by simpa using hs
      rw [get_submatrix_of_not_submatrix hs2] at hw
      obtain ⟨rfl, hle1, hle2⟩ := submatrix_constructor_ok hw
      exact ⟨ih, hab, hcd, hle1, hle2⟩
  | diagonal _ ih => simpa [get_diagonal, Regular] using ih
  | diagonalmatrix _ hw ih =>
    obtain ⟨rfl, hc1⟩ := get_diagonalmatrix_ok hw
    exact ⟨ih, hc1⟩

/-- The converting constructor returns on a readable view that is not a basic
matrix, has at least one column and a size that is an `unsigned int`, for any
bound on the inner loops above the number of columns. -/
theorem converting_constructor_done [Zero T] (h : Heap T) (f : matrix T) (hval : Valid f)
    (hnb : is_basic f = false) (hc : 0 < get_cols f)
    (hsz : get_rows f * get_cols f < 4294967296) (hread : Readable h f)
    (fuel : Nat) (hfuel : get_cols f < fuel) :
    ∃ v2, converting_constructor fuel h f
      = .done (h ++ [v2], .basic_matrix (get_rows f) (get_cols f) h.length) := by
  have hsize : u32 (get_cols f * get_rows f) = get_rows f * get_cols f := by
    rw [Nat.mul_comm]; exact u32_of_lt hsz
  obtain ⟨v2, hrun, _, _, _⟩ :=
    copy_rows_all h f hval hnb hc hsz hread fuel hfuel (get_rows f) 0
      (List.replicate (get_rows f * get_cols f) 0) (by omega) (by simp)
  refine ⟨v2, ?_⟩
  unfold converting_constructor
  rw [hsize, hrun]

theorem read_ok_some {h : Heap T} {m : matrix T} {r c : Nat} {x : T}
    (hr : read h m r c = .ok (some x)) :
    ∃ ref, operator_call m r c = .ok ref ∧ load h ref = some x := by
  unfold read at hr
  split at hr
  · rename_i ref hacc
    injection hr with hr
    exact ⟨ref, hacc, hr⟩
  · cases hr

/-- The row iterators of a basic matrix whose size is an `unsigned int`:
`begin(i)` and `end(i)` are positions in the buffer, `cols()` increments apart,
and the positions between them designate the elements of row `i`. -/
theorem row_walk_basic (n_rows n_cols p i : Nat) (hr : n_rows < 4294967296)
    (hsz : n_rows * n_cols < 4294967296) (hi : i < n_rows) :
    ∃ (pos : Nat → cursor T) (last : cursor T),
      begin (.basic_matrix n_rows n_cols p : matrix T) i = .ok (pos 0) ∧
      end_at (.basic_matrix n_rows n_cols p : matrix T) i = .ok last ∧
      pos n_cols = last ∧ not_equal last last = false ∧
      ∀ k, k < n_cols →
        not_equal (pos k) last = true ∧
        dereference (pos k) = operator_call (.basic_matrix n_rows n_cols p) i k ∧
        increment (pos k) = pos (k + 1) := by
  have h1 : (i + 1) * n_cols ≤ n_rows * n_cols := Nat.mul_le_mul_right _ hi
  have h2 : (i + 1) * n_cols = i * n_cols + n_cols := by ring
  refine ⟨fun k => .vector_iterator p (i * n_cols + k),
    .vector_iterator p ((i + 1) * n_cols), ?_, ?_, ?_, ?_, ?_⟩
  · simp only [begin, if_pos (Or.inr hi : i = 0 ∨ i < n_rows)]
    rw [u32_of_lt (by omega : i * n_cols < 4294967296)]
    rfl
  · simp only [end_at]
    rw [u32_of_lt (by omega : i + 1 < 4294967296),
      u32_of_lt (by omega : (i + 1) * n_cols < 4294967296)]
  · simp only [h2]
  · simp [not_equal]
  · intro k hk
    refine ⟨?_, ?_, ?_⟩
    · simp only [not_equal, h2]
      simp
      omega
    · simp only [dereference]
      rw [operator_call_basic, if_pos ⟨hi, hk⟩,
        u32_of_lt (by omega : i * n_cols + k < 4294967296)]
    · simp only [increment]
      rfl

/-- A basic matrix with at least one column whose buffer has the allocated
length and whose in-shape reads all yield an element has a size that is an
`unsigned int`: otherwise the in-shape position whose offset is the length of
the buffer would designate no element. -/
theorem basic_readable_size_lt (h : Heap T) (n_rows n_cols p : Nat) (hc : 0 < n_cols)
    (halloc : Allocated h (.basic_matrix n_rows n_cols p))
    (hread : ∀ i j, i < n_rows → j < n_cols →
      ∃ x, read h (.basic_matrix n_rows n_cols p) i j = .ok (some x)) :
    n_rows * n_cols < 4294967296 := by
  by_contra hge
  obtain ⟨v, hv, hlen⟩ := halloc
  have hL : u32 (n_rows * n_cols) < 4294967296 := u32_lt _
  have hi : u32 (n_rows * n_cols) / n_cols < n_rows := by
    apply Nat.div_lt_of_lt_mul
    have hcomm : n_cols * n_rows = n_rows * n_cols := Nat.mul_comm _ _
    omega
  have hj : u32 (n_rows * n_cols) % n_cols < n_cols := Nat.mod_lt _ hc
  obtain ⟨x, hx⟩ := hread _ _ hi hj
  obtain ⟨ref, hacc, hload⟩ := read_ok_some hx
  rw [operator_call_basic, if_pos ⟨hi, hj⟩] at hacc
  have hoff : u32 (n_rows * n_cols) / n_cols * n_cols + u32 (n_rows * n_cols) % n_cols
      = u32 (n_rows * n_cols) := by
    rw [Nat.mul_comm]
    exact Nat.div_add_mod _ _
  rw [hoff, u32_of_lt hL] at hacc
  injection hacc with hacc
  subst hacc
  simp [load, hv, ← hlen] at hload

theorem operator_lshift_row_step (fuel : Nat) (h : Heap T) (columns : Nat) (i ie : cursor T)
    (k : Nat) (os : List (output T)) (ref : Ref T) (x : T)
    (hne : not_equal i ie = true) (hd : dereference i = .ok ref)
    (hl : load h ref = some x) :
    operator_lshift_row (fuel + 1) h columns i ie k os
      = if columns = u32 (k + 1) then
          operator_lshift_row fuel h columns (increment i) ie 0
            (os ++ [.element x, .space, .endl])
        else
          operator_lshift_row fuel h columns (increment i) ie (u32 (k + 1))
            (os ++ [.element x, .space]) := by
  simp [operator_lshift_row, hne, hd, hl]

theorem operator_lshift_row_stop (fuel : Nat) (h : Heap T) (columns : Nat) (ie : cursor T)
    (k : Nat) (os : List (output T)) (hlast : not_equal ie ie = false) :
    operator_lshift_row (fuel + 1) h columns ie ie k os = .done os := by
  simp [operator_lshift_row, hlast]

/-- The inner loop of `operator<<` along a walk `pos` over the `C` elements of
row `i`: started at position `k < C` with the counter at `k`, it ends normally,
having inserted the elements `k`, ..., `C - 1` each followed by a space, and
then one line break. -/
theorem operator_lshift_row_walk (h : Heap T) (f : matrix T) (i C : Nat) (x : Nat → T)
    (pos : Nat → cursor T) (last : cursor T) (hC : C < 4294967296)
    (hstop : pos C = last) (hlast : not_equal last last = false)
    (hstep : ∀ k, k < C →
      not_equal (pos k) last = true ∧
      dereference (pos k) = operator_call f i k ∧
      increment (pos k) = pos (k + 1))
    (hread : ∀ k, k < C → read h f i k = .ok (some (x k))) :
    ∀ (d k : Nat) (os : List (output T)) (fuel : Nat), k + d + 1 = C → d + 1 < fuel →
      operator_lshift_row fuel h C (pos k) last k (os ++ formatted_row x k)
        = .done (os ++ (formatted_row x C ++ [.endl])) := by
  intro d
  induction d with
  | zero =>
    intro k os fuel hk hfuel
    obtain ⟨fuel2, rfl⟩ : ∃ n, fuel = n + 2 := ⟨fuel - 2, by omega⟩
    have hC1 : C = k + 1 := by omega
    subst hC1
    have hkC : k < k + 1 := by omega
    obtain ⟨hne, hderef, hinc⟩ := hstep k hkC
    obtain ⟨ref, hacc, hload⟩ := read_ok_some (hread k hkC)
    have hk1 : k + 1 = u32 (k + 1) := (u32_of_lt hC).symm
    rw [operator_lshift_row_step (fuel2 + 1) h (k + 1) (pos k) last k _ ref (x k) hne
      (hderef.trans hacc) hload, if_pos hk1, hinc, hstop,
      operator_lshift_row_stop fuel2 h (k + 1) last 0 _ hlast]
    simp [formatted_row]
  | succ d ih =>
    intro k os fuel hk hfuel
    obtain ⟨fuel2, rfl⟩ : ∃ n, fuel = n + 1 := ⟨fuel - 1, by omega⟩
    have hkC : k < C := by omega
    obtain ⟨hne, hderef, hinc⟩ := hstep k hkC
    obtain ⟨ref, hacc, hload⟩ := read_ok_some (hread k hkC)
    have hk1 : u32 (k + 1) = k + 1 := u32_of_lt (by omega)
    rw [operator_lshift_row_step fuel2 h C (pos k) last k _ ref (x k) hne
      (hderef.trans hacc) hload, if_neg (by rw [hk1]; omega), hinc, hk1]
    have hos : os ++ formatted_row x k ++ [output.element (x k), output.space]
        = os ++ formatted_row x (k + 1) := by
      simp [formatted_row]
    rw [hos]
    exact ih (k + 1) os fuel2 (by omega) (by omega)

theorem operator_lshift_rows_step (fuel : Nat) (h : Heap T) (m : matrix T)
    (columns steps j : Nat) (os os2 : List (output T)) (i ie : cursor T)
    (hb : begin m j = .ok i) (he : end_at m j = .ok ie)
    (hl : operator_lshift_row fuel h columns i ie 0 os = .done os2) :
    operator_lshift_rows fuel h m columns (steps + 1) j os
      = operator_lshift_rows fuel h m columns steps (j + 1) os2 := by
  simp [operator_lshift_rows, hb, he, hl]

/-- The outer loop of `operator<<`, given that the inner loop of each row ends
normally with the text of the row: the rows are inserted one after the
other. -/
theorem operator_lshift_rows_all (fuel : Nat) (h : Heap T) (m : matrix T) (C R : Nat)
    (x : Nat → Nat → T)
    (hrow : ∀ j, j < R → ∀ os : List (output T), ∃ i ie,
      begin m j = .ok i ∧ end_at m j = .ok ie ∧
      operator_lshift_row fuel h C i ie 0 os
        = .done (os ++ (formatted_row (x j) C ++ [.endl]))) :
    ∀ (steps j : Nat) (os : List (output T)), j + steps = R →
      operator_lshift_rows fuel h m C steps j (os ++ formatted x C j)
        = .done (os ++ formatted x C R) := by
  intro steps
  induction steps with
  | zero =>
    intro j os hj
    have hjR : j = R := by omega
    subst hjR
    rfl
  | succ steps ih =>
    intro j os hj
    obtain ⟨i, ie, hb, he, hl⟩ := hrow j (by omega) (os ++ formatted x C j)
    rw [operator_lshift_rows_step fuel h m C steps j _ _ i ie hb he hl]
    have hos : os ++ formatted x C j ++ (formatted_row (x j) C ++ [output.endl])
        = os ++ formatted x C (j + 1) := by
      simp [formatted]
    rw [hos]
    exact ih (j + 1) os (by omega)

theorem formatted_row_count (x : Nat → T) (c : Nat) :
    (formatted_row x c).countP is_endl = 0 ∧ (formatted_row x c).countP is_element = c := by
  induction c with
  | zero => simp [formatted_row]
  | succ c ih => simp [formatted_row, List.countP_append, ih.1, ih.2, is_endl, is_element]

theorem formatted_count (x : Nat → Nat → T) (c r : Nat) :
    (formatted x c r).countP is_endl = r ∧ (formatted x c r).countP is_element = r * c := by
  induction r with
  | zero => simp [formatted]
  | succ r ih =>
    have hrow := formatted_row_count (x r) c
    refine ⟨?_, ?_⟩
    · simp [formatted, List.countP_append, ih.1, hrow.1, is_endl]
    · simp [formatted, List.countP_append, ih.2, hrow.2, is_element]
      ring


/-! ## Storage and the basic matrix -/

/-- C1: for a basic matrix of shape `(n_rows, n_cols)` with
`n_rows * n_cols < 2^32` whose buffer `v` has the length the constructor
allocated, element access at `(r, c)` fails with `OutOfBounds` exactly when
`r >= n_rows` or `c >= n_cols`; otherwise the offset `r * n_cols + c` lies inside
the buffer, the accessor returns a reference to that cell and reading it gives
the buffer element at that offset. -/
theorem basic_operator_call_spec (h : Heap T) (n_rows n_cols p : Nat) (v : List T)
    (hv : h[p]? = some v) (hlen : v.length = u32 (n_rows * n_cols))
    (hsz : n_rows * n_cols < 4294967296) (r c : Nat) :
    (read h (.basic_matrix n_rows n_cols p) r c = .error .OutOfBounds ↔
        (r ≥ n_rows ∨ c ≥ n_cols)) ∧
    (r < n_rows → c < n_cols →
      ∃ hoff : r * n_cols + c < v.length,
        operator_call (.basic_matrix n_rows n_cols p : matrix T) r c
            = .ok (.cell p (r * n_cols + c)) ∧
        read h (.basic_matrix n_rows n_cols p) r c
            = .ok (some (v.get ⟨r * n_cols + c, hoff⟩))) := by
  have hin : ∀ (_ : r < n_rows) (_ : c < n_cols), r * n_cols + c < n_rows * n_cols := by
    intro hr hc
    have h1 : (r + 1) * n_cols ≤ n_rows * n_cols := Nat.mul_le_mul_right _ hr
    have h2 : (r + 1) * n_cols = r * n_cols + n_cols := by ring
    omega
  refine ⟨?_, ?_⟩
  · by_cases hrc : r < n_rows ∧ c < n_cols
    · simp [read, operator_call, get_rows, get_cols, hrc]
    · simp [read, operator_call, get_rows, get_cols, hrc]
      omega
  · intro hr hc
    have hlt := hin hr hc
    have hoff : r * n_cols + c < v.length := by
      rw [hlen, u32_of_lt hsz]; exact hlt
    have hu : u32 (r * n_cols + c) = r * n_cols + c := u32_of_lt (by omega)
    refine ⟨hoff, ?_, ?_⟩
    · simp [operator_call, get_rows, get_cols, hr, hc, hu]
    · simp [read, operator_call, get_rows, get_cols, hr, hc, hu, load, hv,
        List.getElem?_eq_getElem hoff]

/-- Witness for C1: the freshly created 2 x 5 matrix. -/
theorem basic_operator_call_spec_witness :
    (read (create ([] : Heap Nat) 2 5).1 (.basic_matrix 2 5 0) 1 3 = .error .OutOfBounds ↔
        (1 ≥ 2 ∨ 3 ≥ 5)) ∧
    (1 < 2 → 3 < 5 →
      ∃ hoff : 1 * 5 + 3 < (List.replicate 10 (0 : Nat)).length,
        operator_call (.basic_matrix 2 5 0 : matrix Nat) 1 3 = .ok (.cell 0 (1 * 5 + 3)) ∧
        read (create ([] : Heap Nat) 2 5).1 (.basic_matrix 2 5 0) 1 3
            = .ok (some ((List.replicate 10 (0 : Nat)).get ⟨1 * 5 + 3, hoff⟩))) :=
  basic_operator_call_spec (create ([] : Heap Nat) 2 5).1 2 5 0 (List.replicate 10 0)
    (by decide) (by decide) (by decide) 1 3

/-- Storing through a cell reference that lies inside its buffer succeeds, and a
load of the same reference from the new heap gives the stored value. -/
theorem load_store_same (h : Heap T) (p off : Nat) (v : List T) (x : T)
    (hv : h[p]? = some v) (hoff : off < v.length) :
    ∃ h2, store h (.cell p off) x = some h2 ∧ load h2 (.cell p off) = some x := by
  have hp : p < h.length := by
    rcases Nat.lt_or_ge p h.length with hlt | hge
    · exact hlt
    · rw [List.getElem?_eq_none hge] at hv; cases hv
  refine ⟨h.set p (v.set off x), ?_, ?_⟩
  · simp [store, hv, hoff]
  · simp [load, hp, hoff]

/-- C2 (the code shares storage where the claim asks for isolation): `B` is a
fresh 1 x 1 matrix holding 0.  Both `matrix C = B` (copy construction) and
`C = B` on an existing 2 x 2 matrix `C` leave `C` with the buffer handle of `B`;
after `C(0, 0) = 7` the read `B(0, 0)` gives 7, and after `B(0, 0) = 7` the
read `C(0, 0)` gives 7. -/
theorem assignment_copy_shares_buffer :
    (create ([] : Heap Nat) 1 1) = ([[0]], .basic_matrix 1 1 0) ∧
    copy_constructor (.basic_matrix 1 1 0 : matrix Nat) = .basic_matrix 1 1 0 ∧
    (create ([[0]] : Heap Nat) 2 2) = ([[0], [0, 0, 0, 0]], .basic_matrix 2 2 1) ∧
    operator_assign (.basic_matrix 2 2 1 : matrix Nat) (.basic_matrix 1 1 0)
      = .basic_matrix 1 1 0 ∧
    read [[0], [0, 0, 0, 0]] (.basic_matrix 1 1 0) 0 0 = .ok (some 0) ∧
    write [[0], [0, 0, 0, 0]]
        (operator_assign (.basic_matrix 2 2 1 : matrix Nat) (.basic_matrix 1 1 0)) 0 0 7
      = .ok (some [[7], [0, 0, 0, 0]]) ∧
    read [[7], [0, 0, 0, 0]] (.basic_matrix 1 1 0) 0 0 = .ok (some 7) ∧
    write [[0], [0, 0, 0, 0]] (.basic_matrix 1 1 0) 0 0 7 = .ok (some [[7], [0, 0, 0, 0]]) ∧
    read [[7], [0, 0, 0, 0]]
        (operator_assign (.basic_matrix 2 2 1 : matrix Nat) (.basic_matrix 1 1 0)) 0 0
      = .ok (some 7) := by
  decide

/-- C3 fails as stated: the matrix built by `matrix(65536, 65536)` has an empty
buffer, because `rows * cols` wraps to 0 in `unsigned int`.  `(0, 0)` is in range
of its transpose and passes both assertions, but the cell referred to does not
exist: nothing is written, and no heap makes the read-back give 100. -/
theorem transpose_write_overflow_counterexample :
    create ([] : Heap Nat) 65536 65536 = ([[]], .basic_matrix 65536 65536 0) ∧
    get_transpose 0 [[]] (.basic_matrix 65536 65536 0 : matrix Nat)
      = .done ([[]], .transpose_matrix (.basic_matrix 65536 65536 0)) ∧
    0 < get_rows (.transpose_matrix (.basic_matrix 65536 65536 0) : matrix Nat) ∧
    0 < get_cols (.transpose_matrix (.basic_matrix 65536 65536 0) : matrix Nat) ∧
    write [[]] (.transpose_matrix (.basic_matrix 65536 65536 0) : matrix Nat) 0 0 100
      = .ok none ∧
    read [[]] (.basic_matrix 65536 65536 0 : matrix Nat) 0 0 = .ok none ∧
    ¬ ∃ h2, write [[]] (.transpose_matrix (.basic_matrix 65536 65536 0) : matrix Nat) 0 0 100
        = .ok (some h2) ∧ read h2 (.basic_matrix 65536 65536 0 : matrix Nat) 0 0
        = .ok (some 100) := by
  refine ⟨by decide, rfl, by decide, by decide, by decide, by decide, ?_⟩
  rintro ⟨h2, hw, _⟩
  have hn : write [[]] (.transpose_matrix (.basic_matrix 65536 65536 0) : matrix Nat) 0 0 100
      = .ok none := by decide
  rw [hn] at hw
  cases hw

/-- C3, amended: for a basic matrix `B` with `n_rows * n_cols < 2^32` whose
buffer is allocated, `B.get_transpose()` returns the transpose object built on
`B` and leaves the heap as it is; for `(i, j)` in range of that object, the
write of `x` through it at `(i, j)` succeeds and afterwards `B(j, i)` reads
`x`. -/
theorem transpose_write_aliases [Zero T] (h : Heap T) (n_rows n_cols p : Nat) (x : T)
    (halloc : Allocated h (.basic_matrix n_rows n_cols p))
    (hsz : n_rows * n_cols < 4294967296) (i j : Nat)
    (hi : i < get_rows (.transpose_matrix (.basic_matrix n_rows n_cols p) : matrix T))
    (hj : j < get_cols (.transpose_matrix (.basic_matrix n_rows n_cols p) : matrix T)) :
    (∀ fuel, get_transpose fuel h (.basic_matrix n_rows n_cols p)
      = .done (h, .transpose_matrix (.basic_matrix n_rows n_cols p))) ∧
    ∃ h2, write h (.transpose_matrix (.basic_matrix n_rows n_cols p)) i j x = .ok (some h2) ∧
      read h2 (.basic_matrix n_rows n_cols p) j i = .ok (some x) := by
  refine ⟨fun _ => rfl, ?_⟩
  obtain ⟨v, hv, hlen⟩ := halloc
  simp [get_rows, get_cols] at hi hj
  have hlt : j * n_cols + i < n_rows * n_cols := by
    have h1 : (j + 1) * n_cols ≤ n_rows * n_cols := Nat.mul_le_mul_right _ hj
    have h2 : (j + 1) * n_cols = j * n_cols + n_cols := by ring
    omega
  have hoff : j * n_cols + i < v.length := by
    rw [hlen, u32_of_lt hsz]; exact hlt
  have hu : u32 (j * n_cols + i) = j * n_cols + i := u32_of_lt (by omega)
  obtain ⟨h2, hs, hl⟩ := load_store_same h p (j * n_cols + i) v x hv hoff
  refine ⟨h2, ?_, ?_⟩
  · simp [write, operator_call, get_rows, get_cols, hi, hj, hu, hs]
  · simp [read, operator_call, get_rows, get_cols, hi, hj, hu, hl]

/-- Witness for the amended C3: the 8 x 10 matrix of the test `hard_test_1`,
written through its transpose at `(2, 2)`. -/
theorem transpose_write_aliases_witness :
    (∀ fuel, get_transpose fuel (create ([] : Heap Nat) 8 10).1 (.basic_matrix 8 10 0)
      = .done ((create ([] : Heap Nat) 8 10).1, .transpose_matrix (.basic_matrix 8 10 0))) ∧
    ∃ h2, write (create ([] : Heap Nat) 8 10).1
        (.transpose_matrix (.basic_matrix 8 10 0)) 2 2 100 = .ok (some h2) ∧
      read h2 (.basic_matrix 8 10 0) 2 2 = .ok (some 100) :=
  transpose_write_aliases (create ([] : Heap Nat) 8 10).1 8 10 0 100
    ⟨List.replicate 80 0, by decide, by decide⟩ (by decide) 2 2 (by decide) (by decide)

/-! ## Transpose -/

/-- C4 fails as stated when `V` is itself a transpose.  (1) With `B` a 1 x 2
matrix holding 1, 2 and `V = B.get_transpose()`, of shape `(2, 1)`, the object
`T = V.get_transpose()` is built by the constructor template of the basic
matrix: a basic matrix of shape `(2, 1)` on a new buffer, so `T.rows()` is 2
and not `V.cols() = 1`, and `T(1, 0)` is an element where `V(0, 1)` fails.
(2) With `W` the window `(1, 3, 1, 4)` of a 4 x 5 matrix and
`V = W.get_transpose()`, `T` is `W`; it has 2 rows, yet `T(2, 0)` returns an
element.  (3) With `v` a 3 x 1 matrix, `M = v.get_diagonalmatrix()` and
`V = M.get_transpose()`, `T` is `M`; it has 3 rows, yet `T(3, 0)` returns the
null element.  (4) With `D = B.get_diagonal()` for a 4 x 5 matrix `B` and
`V = D.get_transpose()`, `T` is `D`, it has one column, and `T(0, 1)` fails
with `InvalidAccess`, not `OutOfBounds`. -/
theorem get_transpose_out_of_shape_counterexample :
    (∀ fuel, get_transpose (fuel + 2) [[1, 2]]
        (.transpose_matrix (.basic_matrix 1 2 0) : matrix Nat)
      = .done ([[1, 2], [1, 2]], .basic_matrix 2 1 1)) ∧
    get_rows (.basic_matrix 2 1 1 : matrix Nat) = 2 ∧
    get_cols (.transpose_matrix (.basic_matrix 1 2 0) : matrix Nat) = 1 ∧
    operator_call (.basic_matrix 2 1 1 : matrix Nat) 1 0 = .ok (.cell 1 1) ∧
    operator_call (.transpose_matrix (.basic_matrix 1 2 0) : matrix Nat) 0 1
      = .error .OutOfBounds ∧
    (∀ fuel (h : Heap Nat), get_transpose fuel h
        (.transpose_matrix (.submatrix (.basic_matrix 4 5 0) 1 3 1 4))
      = .done (h, .submatrix (.basic_matrix 4 5 0) 1 3 1 4)) ∧
    2 ≥ get_rows (.submatrix (.basic_matrix 4 5 0) 1 3 1 4 : matrix Nat) ∧
    operator_call (.submatrix (.basic_matrix 4 5 0) 1 3 1 4 : matrix Nat) 2 0
      = .ok (.cell 0 16) ∧
    get_diagonalmatrix (.basic_matrix 3 1 0 : matrix Nat)
      = .ok (.diagonalmatrix (.basic_matrix 3 1 0) 0) ∧
    (∀ fuel (h : Heap Nat), get_transpose fuel h
        (.transpose_matrix (.diagonalmatrix (.basic_matrix 3 1 0) 0))
      = .done (h, .diagonalmatrix (.basic_matrix 3 1 0) 0)) ∧
    3 ≥ get_rows (.diagonalmatrix (.basic_matrix 3 1 0) 0 : matrix Nat) ∧
    operator_call (.diagonalmatrix (.basic_matrix 3 1 0) 0 : matrix Nat) 3 0
      = .ok (.null_element 0) ∧
    (∀ fuel (h : Heap Nat), get_transpose fuel h
        (.transpose_matrix (get_diagonal (.basic_matrix 4 5 0)))
      = .done (h, .diagonal (.basic_matrix 4 5 0))) ∧
    1 ≥ get_cols (.diagonal (.basic_matrix 4 5 0) : matrix Nat) ∧
    operator_call (.diagonal (.basic_matrix 4 5 0) : matrix Nat) 0 1
      = .error .InvalidAccess := by
  refine ⟨fun _ => rfl, by decide, by decide, by decide, by decide, fun _ _ => rfl,
    by decide, by decide, by decide, fun _ _ => rfl, by decide, by decide, fun _ _ => rfl,
    by decide, by decide⟩

/-- C4, amended.  For every `V` that is not itself a transpose,
`T = V.get_transpose()` is the transpose object built on `V`, the heap being
left as it is: `T.rows() == V.cols()`, `T.cols() == V.rows()`, for `r < T.rows()`
and `c < T.cols()` the access `T(r, c)` is the access `V(c, r)` (same reference
or same failure), and `T(r, c)` fails with `OutOfBounds` whenever
`r >= T.rows()` or `c >= T.cols()`.  For `V` the transpose of an `X` that is not
a basic matrix, `T = V.get_transpose()` is `X`, with `T.rows() == V.cols()`,
`T.cols() == V.rows()` and, for `r < T.rows()` and `c < T.cols()`, `T(r, c)` the
access `V(c, r)`.  For `V` the transpose of a basic matrix with at least one
row, `rows * cols < 2^32` and its buffer allocated, `V.get_transpose()` returns
(for any bound on the loops above `V.cols()`) a basic matrix `T`, and `T(r, c)`
fails with `OutOfBounds` whenever `r >= T.rows()` or `c >= T.cols()`. -/
theorem get_transpose_spec [Zero T] (fuel : Nat) (h : Heap T) (V : matrix T) :
    (is_transpose V = false →
      get_transpose fuel h V = .done (h, .transpose_matrix V) ∧
      get_rows (.transpose_matrix V) = get_cols V ∧
      get_cols (.transpose_matrix V) = get_rows V ∧
      (∀ r c, r < get_rows (.transpose_matrix V) → c < get_cols (.transpose_matrix V) →
        operator_call (.transpose_matrix V) r c = operator_call V c r) ∧
      (∀ r c, (r ≥ get_rows (.transpose_matrix V) ∨ c ≥ get_cols (.transpose_matrix V)) →
        operator_call (.transpose_matrix V) r c = .error .OutOfBounds)) ∧
    (∀ X, V = .transpose_matrix X → is_basic X = false →
      get_transpose fuel h V = .done (h, X) ∧
      get_rows X = get_cols V ∧
      get_cols X = get_rows V ∧
      (∀ r c, r < get_rows X → c < get_cols X →
        operator_call X r c = operator_call V c r)) ∧
    (∀ n_rows n_cols p, V = .transpose_matrix (.basic_matrix n_rows n_cols p) →
      n_rows < 4294967296 → n_cols < 4294967296 → 0 < n_rows →
      n_rows * n_cols < 4294967296 → Allocated h (.basic_matrix n_rows n_cols p) →
      get_cols V < fuel →
      ∃ h2 Tt, get_transpose fuel h V = .done (h2, Tt) ∧ is_basic Tt = true ∧
        ∀ r c, (r ≥ get_rows Tt ∨ c ≥ get_cols Tt) →
          operator_call Tt r c = .error .OutOfBounds) := by
  refine ⟨?_, ?_, ?_⟩
  · intro ht
    refine ⟨get_transpose_of_not_transpose fuel h ht, get_rows_transpose V,
      get_cols_transpose V, ?_, ?_⟩
    · intro r c hr hc
      rw [get_rows_transpose] at hr
      rw [get_cols_transpose] at hc
      rw [operator_call_transpose, if_pos ⟨hr, hc⟩]
    · intro r c hrc
      rw [get_rows_transpose, get_cols_transpose] at hrc
      rw [operator_call_transpose, if_neg (by omega)]
  · rintro X rfl hX
    refine ⟨get_transpose_transpose fuel h hX, (get_cols_transpose X).symm,
      (get_rows_transpose X).symm, ?_⟩
    intro r c hr hc
    rw [operator_call_transpose, if_pos ⟨hc, hr⟩]
  · rintro n_rows n_cols p rfl hr hc hpos hsz halloc hfuel
    have hreg : Regular h (.transpose_matrix (.basic_matrix n_rows n_cols p)) :=
      ⟨hr, hc, hsz, halloc⟩
    obtain ⟨v2, hrun⟩ := converting_constructor_done h
      (.transpose_matrix (.basic_matrix n_rows n_cols p)) ⟨⟨hr, hc⟩, rfl⟩ rfl
      (by simpa [get_cols] using hpos)
      (by simp only [get_rows, get_cols]; rw [Nat.mul_comm]; exact hsz)
      (regular_readable hreg) fuel hfuel
    refine ⟨_, _, hrun, rfl, ?_⟩
    intro r c hrc
    rw [operator_call_basic, if_neg (by simp only [get_rows, get_cols] at hrc ⊢; omega)]

/-- Witness for the amended C4: the 2 x 5 matrix of `basic_test_transpose_matrix`. -/
theorem get_transpose_spec_witness :
    get_transpose 0 ([] : Heap Nat) (.basic_matrix 2 5 0)
      = .done ([], .transpose_matrix (.basic_matrix 2 5 0)) ∧
    operator_call (.transpose_matrix (.basic_matrix 2 5 0) : matrix Nat) 4 1
      = operator_call (.basic_matrix 2 5 0 : matrix Nat) 1 4 ∧
    operator_call (.transpose_matrix (.basic_matrix 2 5 0) : matrix Nat) 5 0
      = .error .OutOfBounds :=
  have hres := (get_transpose_spec 0 ([] : Heap Nat) (.basic_matrix 2 5 0)).1 rfl
  ⟨hres.1, hres.2.2.2.1 4 1 (by decide) (by decide),
    hres.2.2.2.2 5 0 (Or.inl (by decide))⟩

/-- C5 (evaluation at the failing input): `B` is a 2 x 3 basic matrix holding
1, ..., 6.  `B.get_transpose()` is the transpose object built on `B`.  Its
`get_transpose()` is `return *this;` into a `matrix<T, basic_matrix>`, which
runs the constructor template of the basic matrix on the transpose: the result
is a basic matrix of shape `(3, 2)`, not `(2, 3)`, on a new buffer (handle 1,
not 0) holding 1, 4, 2, 5, 3, 6; its element `(0, 1)` is 4 where `B(0, 1)` is
2, its element `(2, 1)` exists where `B(2, 1)` fails, and its row-major
iteration visits the cells of the new buffer. -/
theorem double_transpose_deep_copy :
    (∀ fuel, get_transpose fuel [[1, 2, 3, 4, 5, 6]] (.basic_matrix 2 3 0 : matrix Nat)
      = .done ([[1, 2, 3, 4, 5, 6]], .transpose_matrix (.basic_matrix 2 3 0))) ∧
    (∀ fuel, get_transpose (fuel + 3) [[1, 2, 3, 4, 5, 6]]
        (.transpose_matrix (.basic_matrix 2 3 0) : matrix Nat)
      = .done ([[1, 2, 3, 4, 5, 6], [1, 4, 2, 5, 3, 6]], .basic_matrix 3 2 1)) ∧
    (.basic_matrix 3 2 1 : matrix Nat) ≠ .basic_matrix 2 3 0 ∧
    get_rows (.basic_matrix 3 2 1 : matrix Nat) = 3 ∧
    get_cols (.basic_matrix 3 2 1 : matrix Nat) = 2 ∧
    get_rows (.basic_matrix 2 3 0 : matrix Nat) = 2 ∧
    get_cols (.basic_matrix 2 3 0 : matrix Nat) = 3 ∧
    read [[1, 2, 3, 4, 5, 6], [1, 4, 2, 5, 3, 6]] (.basic_matrix 3 2 1) 0 1 = .ok (some 4) ∧
    read [[1, 2, 3, 4, 5, 6], [1, 4, 2, 5, 3, 6]] (.basic_matrix 2 3 0) 0 1 = .ok (some 2) ∧
    read [[1, 2, 3, 4, 5, 6], [1, 4, 2, 5, 3, 6]] (.basic_matrix 3 2 1) 2 1 = .ok (some 6) ∧
    read [[1, 2, 3, 4, 5, 6], [1, 4, 2, 5, 3, 6]] (.basic_matrix 2 3 0) 2 1
      = .error .OutOfBounds ∧
    row_major 7 (.basic_matrix 3 2 1 : matrix Nat)
      = .ok [.ok (.cell 1 0), .ok (.cell 1 1), .ok (.cell 1 2), .ok (.cell 1 3),
          .ok (.cell 1 4), .ok (.cell 1 5)] ∧
    row_major 7 (.basic_matrix 2 3 0 : matrix Nat)
      = .ok [.ok (.cell 0 0), .ok (.cell 0 1), .ok (.cell 0 2), .ok (.cell 0 3),
          .ok (.cell 0 4), .ok (.cell 0 5)] := by
  refine ⟨fun _ => rfl, fun _ => rfl, by decide, by decide, by decide, by decide, by decide,
    by decide, by decide, by decide, by decide, by decide, by decide⟩

/-! ## Windows -/

/-- C6 fails as stated when `V` is a window whose stored bounds are inverted.
`V = B.get_submatrix(1, 0, 0, 5)` on a 4 x 5 matrix `B` is accepted by the
constructor and reports `2^32 - 1` rows and 5 columns.  The bounds
`(0, 2, 0, 5)` satisfy `0 <= 2 <= V.rows()` and `0 <= 5 <= V.cols()`;
`W = V.get_submatrix(0, 2, 0, 5)` is built and `W(0, 0)` refers to cell 5 of the
buffer, while `V(0, 0)` fails with `OutOfBounds`.  With the bounds
`(0, 10, 0, 5)`, also within the shape of `V`, the construction itself fails. -/
theorem get_submatrix_inverted_window_counterexample :
    get_submatrix (.basic_matrix 4 5 0 : matrix Nat) 1 0 0 5
      = .ok (.submatrix (.basic_matrix 4 5 0) 1 0 0 5) ∧
    get_rows (.submatrix (.basic_matrix 4 5 0) 1 0 0 5 : matrix Nat) = 4294967295 ∧
    get_cols (.submatrix (.basic_matrix 4 5 0) 1 0 0 5 : matrix Nat) = 5 ∧
    get_submatrix (.submatrix (.basic_matrix 4 5 0) 1 0 0 5 : matrix Nat) 0 2 0 5
      = .ok (.submatrix (.basic_matrix 4 5 0) 1 3 0 5) ∧
    operator_call (.submatrix (.basic_matrix 4 5 0) 1 3 0 5 : matrix Nat) 0 0
      = .ok (.cell 0 5) ∧
    operator_call (.submatrix (.basic_matrix 4 5 0) 1 0 0 5 : matrix Nat) (0 + 0) (0 + 0)
      = .error .OutOfBounds ∧
    get_submatrix (.submatrix (.basic_matrix 4 5 0) 1 0 0 5 : matrix Nat) 0 10 0 5
      = .error .OutOfBounds := by
  decide

/-- C6, amended: for every view `V` that, if it is a window, has ordered bounds
(`first_row <= last_row`, `first_col <= last_col`), and bounds with
`a <= b <= V.rows()` and `c <= d <= V.cols()`: `W = V.get_submatrix(a, b, c, d)`
is constructed, `W.rows() == b - a`, `W.cols() == d - c`, and for `i < b - a`,
`j < d - c` the access `W(i, j)` is the access `V(i + a, j + c)`. -/
theorem get_submatrix_spec [Zero T] (V : matrix T) (hV : View V) (hord : window_ordered V)
    (a b c d : Nat) (hab : a ≤ b) (hb : b ≤ get_rows V) (hcd : c ≤ d) (hd : d ≤ get_cols V) :
    ∃ W, get_submatrix V a b c d = .ok W ∧
      get_rows W = b - a ∧ get_cols W = d - c ∧
      ∀ i j, i < b - a → j < d - c →
        operator_call W i j = operator_call V (i + a) (j + c) := by
  have hval := view_valid hV
  have hshape := valid_shape_lt hval
  by_cases hs : is_submatrix V = true
  · obtain ⟨base, fr, lr, fc, lc, rfl⟩ := is_submatrix_iff.mp hs
    obtain ⟨_, _, hfr, hlr, hfc, hlc, hlrb, hlcb⟩ := hval
    obtain ⟨hrord, hcord⟩ := hord
    rw [get_rows_submatrix, usub_of_le hrord hlr] at hb
    rw [get_cols_submatrix, usub_of_le hcord hlc] at hd
    have e1 : u32 (a + fr) = a + fr := u32_of_lt (by omega)
    have e2 : u32 (b + fr) = b + fr := u32_of_lt (by omega)
    have e3 : u32 (c + fc) = c + fc := u32_of_lt (by omega)
    have e4 : u32 (d + fc) = d + fc := u32_of_lt (by omega)
    refine ⟨.submatrix base (a + fr) (b + fr) (c + fc) (d + fc), ?_, ?_, ?_, ?_⟩
    · simp only [get_submatrix, e1, e2, e3, e4]
      exact submatrix_constructor_of_le (by omega) (by omega)
    · rw [get_rows_submatrix, usub_of_le (by omega) (by omega)]; omega
    · rw [get_cols_submatrix, usub_of_le (by omega) (by omega)]; omega
    · intro i j hi hj
      have u1 : usub (b + fr) (a + fr) = b - a := by
        rw [usub_of_le (by omega) (by omega)]; omega
      have u2 : usub (d + fc) (c + fc) = d - c := by
        rw [usub_of_le (by omega) (by omega)]; omega
      have u3 : usub lr fr = lr - fr := usub_of_le hrord hlr
      have u4 : usub lc fc = lc - fc := usub_of_le hcord hlc
      rw [operator_call_submatrix, operator_call_submatrix, u1, u2, u3, u4,
        if_pos (by omega), if_pos (by omega)]
      have a1 : i + (a + fr) = i + a + fr := by omega
      have a2 : j + (c + fc) = j + c + fc := by omega
      rw [a1, a2]
  · have hs2 : is_submatrix V = false := by simpa using hs
    refine ⟨.submatrix V a b c d, ?_, ?_, ?_, ?_⟩
    · rw [get_submatrix_of_not_submatrix hs2]
      exact submatrix_constructor_of_le hb hd
    · rw [get_rows_submatrix, usub_of_le hab (by omega)]
    · rw [get_cols_submatrix, usub_of_le hcd (by omega)]
    · intro i j hi hj
      rw [operator_call_submatrix, usub_of_le hab (by omega), usub_of_le hcd (by omega),
        if_pos (by omega), u32_of_lt (by omega), u32_of_lt (by omega)]

/-- Witness for the amended C6: the 4 x 5 matrix and the bounds `(1, 3, 1, 4)` of
`basic_test_submatrix`. -/
theorem get_submatrix_spec_witness :
    ∃ W, get_submatrix (.basic_matrix 4 5 0 : matrix Nat) 1 3 1 4 = .ok W ∧
      get_rows W = 3 - 1 ∧ get_cols W = 4 - 1 ∧
      ∀ i j, i < 3 - 1 → j < 4 - 1 →
        operator_call W i j = operator_call (.basic_matrix 4 5 0 : matrix Nat) (i + 1) (j + 1) :=
  get_submatrix_spec (.basic_matrix 4 5 0 : matrix Nat)
    (View.basic 4 5 0 (by decide) (by decide)) trivial 1 3 1 4
    (by decide) (by decide) (by decide) (by decide)

/-- C7 (the code accepts an access the claim rejects): `W` is the window
`get_submatrix(1, 3, 1, 4)` of a 4 x 5 matrix, of shape (2, 3).  The accessor
tests `r <= get_rows()` and `r < last_row`, so `W(2, 0)`, with
`r = 2 >= W.rows()`, is let through and refers to cell `3 * 5 + 1` of the parent,
and `W(0, 3)`, with `c = 3 >= W.cols()`, refers to cell `1 * 5 + 4`. -/
theorem window_access_past_own_shape :
    get_submatrix (.basic_matrix 4 5 0 : matrix Nat) 1 3 1 4
      = .ok (.submatrix (.basic_matrix 4 5 0) 1 3 1 4) ∧
    get_rows (.submatrix (.basic_matrix 4 5 0) 1 3 1 4 : matrix Nat) = 2 ∧
    get_cols (.submatrix (.basic_matrix 4 5 0) 1 3 1 4 : matrix Nat) = 3 ∧
    operator_call (.submatrix (.basic_matrix 4 5 0) 1 3 1 4 : matrix Nat) 2 0
      = .ok (.cell 0 16) ∧
    operator_call (.submatrix (.basic_matrix 4 5 0) 1 3 1 4 : matrix Nat) 0 3
      = .ok (.cell 0 9) := by
  decide

/-- C8: for every `P` that is not a window and all bounds,
`P.get_submatrix(row0, row1, col0, col1)` fails with `OutOfBounds` if and only if
`row1 > P.rows()` or `col1 > P.cols()`; otherwise it returns the window over `P`
with those bounds. -/
theorem get_submatrix_fails_iff (P : matrix T) (hP : is_submatrix P = false)
    (row0 row1 col0 col1 : Nat) :
    (get_submatrix P row0 row1 col0 col1 = .error .OutOfBounds ↔
      (row1 > get_rows P ∨ col1 > get_cols P)) ∧
    (¬ (row1 > get_rows P ∨ col1 > get_cols P) →
      get_submatrix P row0 row1 col0 col1 = .ok (.submatrix P row0 row1 col0 col1)) := by
  rw [get_submatrix_of_not_submatrix hP]
  refine ⟨submatrix_constructor_error_iff P row0 row1 col0 col1, ?_⟩
  intro hn
  exact submatrix_constructor_of_le (by omega) (by omega)

/-- Witness for C8: the transpose of a 2 x 5 matrix, asked for 6 rows. -/
theorem get_submatrix_fails_iff_witness :
    (get_submatrix (.transpose_matrix (.basic_matrix 2 5 0) : matrix Nat) 0 6 0 2
        = .error .OutOfBounds ↔
      (6 > get_rows (.transpose_matrix (.basic_matrix 2 5 0) : matrix Nat) ∨
        2 > get_cols (.transpose_matrix (.basic_matrix 2 5 0) : matrix Nat))) ∧
    (¬ (6 > get_rows (.transpose_matrix (.basic_matrix 2 5 0) : matrix Nat) ∨
        2 > get_cols (.transpose_matrix (.basic_matrix 2 5 0) : matrix Nat)) →
      get_submatrix (.transpose_matrix (.basic_matrix 2 5 0) : matrix Nat) 0 6 0 2
        = .ok (.submatrix (.transpose_matrix (.basic_matrix 2 5 0)) 0 6 0 2)) :=
  get_submatrix_fails_iff (.transpose_matrix (.basic_matrix 2 5 0) : matrix Nat) rfl 0 6 0 2

/-- C9 fails as stated: `W = B.get_submatrix(1, 2, 1, 2)` on a 4 x 5 matrix `B`
has shape (1, 1), yet `W.get_submatrix(0, 2, 0, 2)`, with `2 > W.rows()` and
`2 > W.cols()`, is constructed: the constructor receives the parent `B` and
tests the shifted bounds `3 <= 4` and `3 <= 5` against it.  The result has shape
(2, 2) and reaches outside `W`. -/
theorem window_of_window_exceeds_outer_counterexample :
    get_submatrix (.basic_matrix 4 5 0 : matrix Nat) 1 2 1 2
      = .ok (.submatrix (.basic_matrix 4 5 0) 1 2 1 2) ∧
    get_rows (.submatrix (.basic_matrix 4 5 0) 1 2 1 2 : matrix Nat) = 1 ∧
    get_cols (.submatrix (.basic_matrix 4 5 0) 1 2 1 2 : matrix Nat) = 1 ∧
    get_submatrix (.submatrix (.basic_matrix 4 5 0) 1 2 1 2 : matrix Nat) 0 2 0 2
      = .ok (.submatrix (.basic_matrix 4 5 0) 1 3 1 3) ∧
    get_rows (.submatrix (.basic_matrix 4 5 0) 1 3 1 3 : matrix Nat) = 2 ∧
    get_cols (.submatrix (.basic_matrix 4 5 0) 1 3 1 3 : matrix Nat) = 2 := by
  decide

/-- C9, amended: for every window `W` with parent `P` and offsets
`(first_row, first_col)`, and all bounds, `W.get_submatrix(a, b, c, d)` fails
with `OutOfBounds` if and only if `b + first_row` (in `unsigned int`) exceeds
`P.rows()` or `d + first_col` exceeds `P.cols()`. -/
theorem window_get_submatrix_fails_iff (P : matrix T) (first_row last_row first_col last_col : Nat)
    (a b c d : Nat) :
    get_submatrix (.submatrix P first_row last_row first_col last_col) a b c d
        = .error .OutOfBounds ↔
      (u32 (b + first_row) > get_rows P ∨ u32 (d + first_col) > get_cols P) := by
  simp only [get_submatrix]
  exact submatrix_constructor_error_iff P _ _ _ _

/-- C10: if `W = P.get_submatrix(r0, r1, c0, c1)` and `W.get_submatrix(a, b, c, d)`
are both constructed and the sums `a + r0`, `b + r0`, `c + c0`, `d + c0` do not
overflow, then `W.get_submatrix(a, b, c, d)` is
`P.get_submatrix(a + r0, b + r0, c + c0, d + c0)`; it is not a window whose
parent is `W`, and when `P` is not itself a window it is the window over `P`
with those bounds. -/
theorem window_of_window_flattens (P W W2 : matrix T) (r0 r1 c0 c1 a b c d : Nat)
    (hW : get_submatrix P r0 r1 c0 c1 = .ok W)
    (hW2 : get_submatrix W a b c d = .ok W2)
    (ha : a + r0 < 4294967296) (hb : b + r0 < 4294967296)
    (hc : c + c0 < 4294967296) (hd : d + c0 < 4294967296) :
    get_submatrix W a b c d = get_submatrix P (a + r0) (b + r0) (c + c0) (d + c0) ∧
    (∀ fr lr fc lc, W2 ≠ .submatrix W fr lr fc lc) ∧
    (is_submatrix P = false →
      W2 = .submatrix P (a + r0) (b + r0) (c + c0) (d + c0)) := by
  by_cases hs : is_submatrix P = true
  · obtain ⟨base, fr, lr, fc, lc, rfl⟩ := is_submatrix_iff.mp hs
    simp only [get_submatrix] at hW
    obtain ⟨rfl, _, _⟩ := submatrix_constructor_ok hW
    simp only [get_submatrix] at hW2 ⊢
    obtain ⟨rfl, _, _⟩ := submatrix_constructor_ok hW2
    refine ⟨?_, ?_, by simp [is_submatrix]⟩
    · rw [u32_add_u32, u32_add_u32, u32_add_u32, u32_add_u32]
      simp only [Nat.add_assoc]
    · intro fr2 lr2 fc2 lc2 heq
      injection heq with h1
      exact matrix_ne_submatrix_self base _ _ _ _ h1
  · have hs2 : is_submatrix P = false := by simpa using hs
    rw [get_submatrix_of_not_submatrix hs2] at hW
    obtain ⟨rfl, _, _⟩ := submatrix_constructor_ok hW
    simp only [get_submatrix] at hW2 ⊢
    rw [u32_of_lt ha, u32_of_lt hb, u32_of_lt hc, u32_of_lt hd] at hW2 ⊢
    obtain ⟨rfl, _, _⟩ := submatrix_constructor_ok hW2
    refine ⟨(get_submatrix_of_not_submatrix hs2 _ _ _ _).symm, ?_, fun _ => rfl⟩
    intro fr2 lr2 fc2 lc2 heq
    injection heq with h1
    exact matrix_ne_submatrix_self P _ _ _ _ h1

/-- Witness for C10: a window of the window `(1, 4, 1, 5)` of a 4 x 5 matrix. -/
theorem window_of_window_flattens_witness :
    get_submatrix (.submatrix (.basic_matrix 4 5 0) 1 4 1 5 : matrix Nat) 1 2 0 3
      = get_submatrix (.basic_matrix 4 5 0 : matrix Nat) (1 + 1) (2 + 1) (0 + 1) (3 + 1) ∧
    (∀ fr lr fc lc, (.submatrix (.basic_matrix 4 5 0) 2 3 1 4 : matrix Nat)
      ≠ .submatrix (.submatrix (.basic_matrix 4 5 0) 1 4 1 5) fr lr fc lc) ∧
    (is_submatrix (.basic_matrix 4 5 0 : matrix Nat) = false →
      (.submatrix (.basic_matrix 4 5 0) 2 3 1 4 : matrix Nat)
        = .submatrix (.basic_matrix 4 5 0) (1 + 1) (2 + 1) (0 + 1) (3 + 1)) :=
  window_of_window_flattens (.basic_matrix 4 5 0 : matrix Nat)
    (.submatrix (.basic_matrix 4 5 0) 1 4 1 5) (.submatrix (.basic_matrix 4 5 0) 2 3 1 4)
    1 4 1 5 1 2 0 3 (by decide) (by decide) (by decide) (by decide) (by decide) (by decide)


/-! ## Diagonal views -/

/-- C11: for every `V`, `D = V.get_diagonal()` is constructed without any check
(the function is total), `D.rows()` is the minimum of `V.rows()` and `V.cols()`,
`D.cols() == 1`, and for every `r` (in particular every `r < D.rows()`) the
access `D(r, 0)` is the access `V(r, r)`. -/
theorem get_diagonal_spec (V : matrix T) :
    get_diagonal V = .diagonal V ∧
    get_rows (get_diagonal V) = min (get_rows V) (get_cols V) ∧
    get_cols (get_diagonal V) = 1 ∧
    ∀ r, operator_call (get_diagonal V) r 0 = operator_call V r r := by
  refine ⟨by simp [get_diagonal], ?_, by simp [get_diagonal, get_cols], ?_⟩
  · simp only [get_diagonal, copy_constructor_eq, get_rows_diagonal]
    split <;> omega
  · intro r
    simp [get_diagonal, operator_call_diagonal]

/-- C12: for every basic matrix `B`, `D = B.get_diagonal()` and every `(r, c)`:
`D(r, c)` fails with `InvalidAccess` if and only if `c != 0`, and when `c == 0`
it fails with `OutOfBounds` if and only if `r >= min(B.rows(), B.cols())`. -/
theorem diagonal_access_failures (n_rows n_cols p r c : Nat) :
    (operator_call (get_diagonal (.basic_matrix n_rows n_cols p : matrix T)) r c
        = .error .InvalidAccess ↔ c ≠ 0) ∧
    (c = 0 →
      (operator_call (get_diagonal (.basic_matrix n_rows n_cols p : matrix T)) r c
        = .error .OutOfBounds ↔ r ≥ min n_rows n_cols)) := by
  simp only [get_diagonal, copy_constructor_eq, operator_call_diagonal, operator_call_basic]
  constructor
  · by_cases hc : c = 0
    · simp only [hc, if_true]
      split <;> simp
    · simp [hc]
  · intro hc
    simp only [hc, if_true]
    split
    · rename_i h1
      simp only [reduceCtorEq, false_iff]
      omega
    · rename_i h1
      simp only [true_iff]
      omega

/-- Witness for C12: the diagonal of a 4 x 5 matrix at `(4, 0)`. -/
theorem diagonal_access_failures_witness :
    (operator_call (get_diagonal (.basic_matrix 4 5 0 : matrix Nat)) 4 0
        = .error .OutOfBounds ↔ 4 ≥ min 4 5) :=
  (diagonal_access_failures 4 5 0 4 0).2 rfl

/-- C14: for every `V`, `V.get_diagonalmatrix()` fails with `InvalidShape` if and
only if `V.cols() != 1`; when it succeeds the result `M` has
`M.rows() == M.cols() == V.rows()`. -/
theorem get_diagonalmatrix_spec [Zero T] (V : matrix T) :
    (get_diagonalmatrix V = .error .InvalidShape ↔ get_cols V ≠ 1) ∧
    (∀ M, get_diagonalmatrix V = .ok M →
      get_rows M = get_rows V ∧ get_cols M = get_rows V) := by
  constructor
  · by_cases hc : get_cols V = 1 <;> simp [get_diagonalmatrix, hc]
  · intro M hM
    obtain ⟨rfl, _⟩ := get_diagonalmatrix_ok hM
    exact ⟨get_rows_diagonalmatrix V 0, get_cols_diagonalmatrix V 0⟩

/-- Witness for C14: the 5 x 1 matrix of `basic_test_diagonalmatrix`. -/
theorem get_diagonalmatrix_spec_witness :
    get_rows (.diagonalmatrix (.basic_matrix 5 1 0) 0 : matrix Nat)
        = get_rows (.basic_matrix 5 1 0 : matrix Nat) ∧
      get_cols (.diagonalmatrix (.basic_matrix 5 1 0) 0 : matrix Nat)
        = get_rows (.basic_matrix 5 1 0 : matrix Nat) :=
  (get_diagonalmatrix_spec (.basic_matrix 5 1 0 : matrix Nat)).2 _ rfl

/-- C15: for every column vector `v` (a view with one column) the diagonal
matrix `M = v.get_diagonalmatrix()` is constructed; for every `i` (in particular
`i < n`) the access `M(i, i)` is the access `v(i, 0)`, so both read the same
value, and for all `i != j` the access `M(i, j)` refers to the null element,
whose value is zero. -/
theorem diagonalmatrix_round_trip [Zero T] (v : matrix T) (hv : get_cols v = 1) :
    ∃ M, get_diagonalmatrix v = .ok M ∧
      (∀ i, operator_call M i i = operator_call v i 0) ∧
      (∀ h i, read h M i i = read h v i 0) ∧
      (∀ i j, i ≠ j → operator_call M i j = .ok (.null_element 0)) ∧
      (∀ h i j, i ≠ j → read h M i j = .ok (some 0)) := by
  refine ⟨.diagonalmatrix v 0, get_diagonalmatrix_of_cols hv, ?_, ?_, ?_, ?_⟩
  · intro i
    simp [operator_call_diagonalmatrix]
  · intro h i
    simp [read, operator_call_diagonalmatrix]
  · intro i j hij
    simp [operator_call_diagonalmatrix, hij]
  · intro h i j hij
    simp [read, operator_call_diagonalmatrix, hij, load]

/-- Witness for C15: the 5 x 1 matrix of `basic_test_diagonalmatrix`. -/
theorem diagonalmatrix_round_trip_witness :
    ∃ M, get_diagonalmatrix (.basic_matrix 5 1 0 : matrix Nat) = .ok M ∧
      (∀ i, operator_call M i i = operator_call (.basic_matrix 5 1 0 : matrix Nat) i 0) ∧
      (∀ h i, read h M i i = read h (.basic_matrix 5 1 0 : matrix Nat) i 0) ∧
      (∀ i j, i ≠ j → operator_call M i j = .ok (.null_element 0)) ∧
      (∀ h i j, i ≠ j → read h M i j = .ok (some 0)) :=
  diagonalmatrix_round_trip (.basic_matrix 5 1 0 : matrix Nat) rfl

/-- C16 (the code returns a value where the claim asks for a failure): for the
5 x 1 matrix `v` and `M = v.get_diagonalmatrix()`, which has 5 rows, the access
`M(5, 0)` has `r != c` and returns the null element before any bounds check; so
does `M(7, 100)`. -/
theorem diagonalmatrix_access_unchecked :
    get_diagonalmatrix (.basic_matrix 5 1 0 : matrix Nat)
      = .ok (.diagonalmatrix (.basic_matrix 5 1 0) 0) ∧
    get_rows (.diagonalmatrix (.basic_matrix 5 1 0) 0 : matrix Nat) = 5 ∧
    operator_call (.diagonalmatrix (.basic_matrix 5 1 0) 0 : matrix Nat) 5 0
      = .ok (.null_element 0) ∧
    operator_call (.diagonalmatrix (.basic_matrix 5 1 0) 0 : matrix Nat) 7 100
      = .ok (.null_element 0) := by
  decide

/-- C17: for every column vector `v` of length `n = v.rows()`,
`D = v.get_diagonalmatrix().get_diagonal()` is constructed, has shape `(n, 1)`,
and for every `i` (in particular `i < n`) the access `D(i, 0)` is the access
`v(i, 0)`. -/
theorem diagonal_of_diagonalmatrix [Zero T] (v : matrix T) (hv : get_cols v = 1) :
    ∃ M, get_diagonalmatrix v = .ok M ∧
      get_rows (get_diagonal M) = get_rows v ∧
      get_cols (get_diagonal M) = 1 ∧
      (∀ i, operator_call (get_diagonal M) i 0 = operator_call v i 0) ∧
      (∀ h i, read h (get_diagonal M) i 0 = read h v i 0) := by
  refine ⟨.diagonalmatrix v 0, get_diagonalmatrix_of_cols hv, ?_, ?_, ?_, ?_⟩
  · simp [get_diagonal, get_rows_diagonal, get_rows_diagonalmatrix, get_cols_diagonalmatrix]
  · simp [get_diagonal, get_cols_diagonal]
  · intro i
    simp [get_diagonal, operator_call_diagonal, operator_call_diagonalmatrix]
  · intro h i
    simp [read, get_diagonal, operator_call_diagonal, operator_call_diagonalmatrix]

/-- Witness for C17: the 5 x 1 matrix of `basic_test_diagonalmatrix`. -/
theorem diagonal_of_diagonalmatrix_witness :
    ∃ M, get_diagonalmatrix (.basic_matrix 5 1 0 : matrix Nat) = .ok M ∧
      get_rows (get_diagonal M) = get_rows (.basic_matrix 5 1 0 : matrix Nat) ∧
      get_cols (get_diagonal M) = 1 ∧
      (∀ i, operator_call (get_diagonal M) i 0
        = operator_call (.basic_matrix 5 1 0 : matrix Nat) i 0) ∧
      (∀ h i, read h (get_diagonal M) i 0 = read h (.basic_matrix 5 1 0 : matrix Nat) i 0) :=
  diagonal_of_diagonalmatrix (.basic_matrix 5 1 0 : matrix Nat) rfl

/-- C13: for a basic matrix `B` with `n_rows * n_cols < 2^32` whose buffer is
allocated, `D = B.get_diagonal()` and `r < D.rows()`: the write of `x` through
`D` at `(r, 0)` succeeds, afterwards `B(r, r)` reads `x`, and every other
in-range cell of `B` reads what it read before. -/
theorem diagonal_write_frame (h : Heap T) (n_rows n_cols p : Nat) (x : T)
    (halloc : Allocated h (.basic_matrix n_rows n_cols p))
    (hsz : n_rows * n_cols < 4294967296) (r : Nat)
    (hr : r < get_rows (get_diagonal (.basic_matrix n_rows n_cols p : matrix T))) :
    ∃ h2, write h (get_diagonal (.basic_matrix n_rows n_cols p)) r 0 x = .ok (some h2) ∧
      read h2 (.basic_matrix n_rows n_cols p) r r = .ok (some x) ∧
      ∀ i j, i < n_rows → j < n_cols → (i, j) ≠ (r, r) →
        read h2 (.basic_matrix n_rows n_cols p) i j
          = read h (.basic_matrix n_rows n_cols p) i j := by
  obtain ⟨v, hv, hlen⟩ := halloc
  simp only [get_diagonal, copy_constructor_eq, get_rows_diagonal, get_rows, get_cols] at hr
  have hrr : r < n_rows := by split at hr <;> omega
  have hrc : r < n_cols := by split at hr <;> omega
  have hin : ∀ {i j : Nat}, i < n_rows → j < n_cols → i * n_cols + j < n_rows * n_cols := by
    intro i j hi hj
    have h1 : (i + 1) * n_cols ≤ n_rows * n_cols := Nat.mul_le_mul_right _ hi
    have h2 : (i + 1) * n_cols = i * n_cols + n_cols := by ring
    omega
  have hoff : r * n_cols + r < v.length := by
    rw [hlen, u32_of_lt hsz]; exact hin hrr hrc
  have hu : u32 (r * n_cols + r) = r * n_cols + r := u32_of_lt (by have := hin hrr hrc; omega)
  obtain ⟨h2, hs, _⟩ := load_store_same h p (r * n_cols + r) v x hv hoff
  obtain ⟨hsame, hother⟩ := load_after_store hs
  refine ⟨h2, ?_, ?_, ?_⟩
  · simp [write, get_diagonal, operator_call_diagonal, operator_call_basic, hrr, hrc, hu, hs]
  · simp [read, operator_call_basic, hrr, hrc, hu, hsame]
  · intro i j hi hj hne
    have hu2 : u32 (i * n_cols + j) = i * n_cols + j :=
      u32_of_lt (by have := hin hi hj; omega)
    have hne2 : (Ref.cell p (i * n_cols + j) : Ref T) ≠ .cell p (r * n_cols + r) := by
      intro he
      injection he with _ he2
      obtain ⟨h1, h2⟩ := offset_injective hj hrc he2
      exact hne (by rw [h1, h2])
    simp [read, operator_call_basic, hi, hj, hu2, hother _ hne2]

/-- Witness for C13: the 4 x 5 matrix of `basic_test_diagonal`, written through
its diagonal at `(2, 0)`. -/
theorem diagonal_write_frame_witness :
    ∃ h2, write (create ([] : Heap Nat) 4 5).1 (get_diagonal (.basic_matrix 4 5 0)) 2 0 9
        = .ok (some h2) ∧
      read h2 (.basic_matrix 4 5 0) 2 2 = .ok (some 9) ∧
      ∀ i j, i < 4 → j < 5 → (i, j) ≠ (2, 2) →
        read h2 (.basic_matrix 4 5 0) i j
          = read (create ([] : Heap Nat) 4 5).1 (.basic_matrix 4 5 0) i j :=
  diagonal_write_frame (create ([] : Heap Nat) 4 5).1 4 5 0 9
    ⟨List.replicate 20 0, by decide, by decide⟩ (by decide) 2 (by decide)

/-! ## Assignment and shared storage -/

/-- C19: for all basic matrices `a` and `b`, after `a = b` the object `a` has the
rows and columns of `b` and, in every heap, `a(i, j)` reads what `b(i, j)` reads
(for every `(i, j)`, in particular the in-range ones).  The operator takes `b`
by `const` reference, allocates nothing and stores nothing, so `b` and the heap
are the same before and after: `a` ends up with the members of `b`. -/
theorem assignment_copies_shape_and_elements (a_rows a_cols a_content : Nat)
    (b_rows b_cols b_content : Nat) :
    get_rows (operator_assign (.basic_matrix a_rows a_cols a_content : matrix T)
        (.basic_matrix b_rows b_cols b_content)) = b_rows ∧
    get_cols (operator_assign (.basic_matrix a_rows a_cols a_content : matrix T)
        (.basic_matrix b_rows b_cols b_content)) = b_cols ∧
    (∀ (h : Heap T) i j,
      read h (operator_assign (.basic_matrix a_rows a_cols a_content : matrix T)
          (.basic_matrix b_rows b_cols b_content)) i j
        = read h (.basic_matrix b_rows b_cols b_content) i j) ∧
    operator_assign (.basic_matrix a_rows a_cols a_content : matrix T)
        (.basic_matrix b_rows b_cols b_content)
      = .basic_matrix b_rows b_cols b_content := by
  have he : operator_assign (.basic_matrix a_rows a_cols a_content : matrix T)
      (.basic_matrix b_rows b_cols b_content) = .basic_matrix b_rows b_cols b_content := by
    simp [operator_assign]
  rw [he]
  exact ⟨by simp [get_rows], by simp [get_cols], fun _ _ _ => rfl, rfl⟩

/-- C20 (evaluation at the failing input): `B` is a fresh 2 x 2 basic matrix and
`V1 = B.get_transpose().get_transpose()`, a view built over `B` by a chain of
two `get_transpose` calls.  The second call is `return *this;` into a
`matrix<T, basic_matrix>` and runs the constructor template of the basic
matrix, so `V1` is a basic matrix of shape `(2, 2)` on a buffer of its own
(handle 1, the buffer of `B` having handle 0).  `V1(0, 1)` and `B(0, 1)` both
refer to offset 1, each of its own buffer; after the write `V1(0, 1) = 7`,
which succeeds, `V1(0, 1)` reads 7 and `B(0, 1)` still reads 0. -/
theorem double_transpose_write_not_shared :
    create ([] : Heap Nat) 2 2 = ([[0, 0, 0, 0]], .basic_matrix 2 2 0) ∧
    (∀ fuel, get_transpose fuel [[0, 0, 0, 0]] (.basic_matrix 2 2 0 : matrix Nat)
      = .done ([[0, 0, 0, 0]], .transpose_matrix (.basic_matrix 2 2 0))) ∧
    (∀ fuel, get_transpose (fuel + 3) [[0, 0, 0, 0]]
        (.transpose_matrix (.basic_matrix 2 2 0) : matrix Nat)
      = .done ([[0, 0, 0, 0], [0, 0, 0, 0]], .basic_matrix 2 2 1)) ∧
    operator_call (.basic_matrix 2 2 1 : matrix Nat) 0 1 = .ok (.cell 1 1) ∧
    operator_call (.basic_matrix 2 2 0 : matrix Nat) 0 1 = .ok (.cell 0 1) ∧
    write [[0, 0, 0, 0], [0, 0, 0, 0]] (.basic_matrix 2 2 1) 0 1 7
      = .ok (some [[0, 0, 0, 0], [0, 7, 0, 0]]) ∧
    read [[0, 0, 0, 0], [0, 7, 0, 0]] (.basic_matrix 2 2 1) 0 1 = .ok (some 7) ∧
    read [[0, 0, 0, 0], [0, 7, 0, 0]] (.basic_matrix 2 2 0) 0 1 = .ok (some 0) := by
  refine ⟨by decide, fun _ => rfl, fun _ => rfl, by decide, by decide, by decide, by decide,
    by decide⟩

/-! ## Conversion of a view into a basic matrix -/

/-- The conversion of the 65536 x 65536 diagonal matrix over a 65536 x 1 matrix
stored in `v`: the new buffer has `u32 (65536 * 65536) = 0` elements, so the
first assignment of the first row has no target. -/
theorem overflow_conversion_undefined (v : List Nat) (x : Nat) (hv : v[0]? = some x)
    (fuel : Nat) :
    converting_constructor (fuel + 1) [v]
      (.diagonalmatrix (.basic_matrix 65536 1 0) 0 : matrix Nat) = .undefined := by
  have hrows : get_rows (.diagonalmatrix (.basic_matrix 65536 1 0) 0 : matrix Nat)
      = 65535 + 1 := by decide
  have hcols : get_cols (.diagonalmatrix (.basic_matrix 65536 1 0) 0 : matrix Nat)
      = 65536 := by decide
  have hsize : u32 (65536 * (65535 + 1)) = 0 := by decide
  have hloop : copy_loop (fuel + 1) ([v] ++ [[]])
      (.iterator_limited (.diagonalmatrix (.basic_matrix 65536 1 0) 0) 0 0)
      (.iterator_limited (.diagonalmatrix (.basic_matrix 65536 1 0) 0) 1 0)
      (.vector_iterator 1 0) = .undefined :=
    copy_loop_undefined_store fuel _ _ _ _ (.cell 0 0) x (.cell 1 0)
      (by decide) (by decide) (by simp [load, hv]) rfl (by simp [store])
  have hrun : copy_rows (fuel + 1) (.diagonalmatrix (.basic_matrix 65536 1 0) 0 : matrix Nat)
      (.basic_matrix (65535 + 1) 65536 1) (65535 + 1) 0 ([v] ++ [[]]) = .undefined :=
    copy_rows_undefined (fuel + 1) _ _ 65535 0 _
      (.iterator_limited (.diagonalmatrix (.basic_matrix 65536 1 0) 0) 0 0)
      (.iterator_limited (.diagonalmatrix (.basic_matrix 65536 1 0) 0) 1 0)
      (.vector_iterator 1 0) (by decide) (by decide) (by decide) hloop
  unfold converting_constructor
  rw [hrows, hcols, hsize]
  simp only [List.length_singleton, List.replicate_zero]
  rw [hrun]

theorem overflow_conversion_readable (v : List Nat)
    (hv : ∀ i, i < 65536 → ∃ x, v[i]? = some x) :
    Readable [v] (.diagonalmatrix (.basic_matrix 65536 1 0) 0 : matrix Nat) := by
  intro i j hi hj
  have hcols : get_cols (.diagonalmatrix (.basic_matrix 65536 1 0) 0 : matrix Nat)
      = 65536 := by decide
  rw [hcols] at hj
  by_cases hij : i = j
  · subst hij
    obtain ⟨x, hx⟩ := hv i hj
    refine ⟨.cell 0 i, x, ?_, ?_⟩
    · rw [operator_call_diagonalmatrix, operator_call_basic]
      have hu : u32 (i * 1 + 0) = i := by unfold u32; omega
      rw [hu]
      simp [hj]
    · simp [load, hx]
  · exact ⟨.null_element 0, 0, by simp [operator_call_diagonalmatrix, hij], rfl⟩

/-- C18 fails as stated: `v` is a 65536 x 1 matrix of zeros and
`M = v.get_diagonalmatrix()`, a view that is not a basic matrix, has 65536 rows
and columns, and all of whose in-shape reads succeed.  The converting
constructor allocates `n_cols * n_rows` elements with the product taken in
`unsigned int`, which is 0, so the first assignment `*i_this = *ii` has no
element to assign to: with any fuel the construction never ends normally. -/
theorem converting_constructor_overflow_counterexample :
    get_diagonalmatrix (.basic_matrix 65536 1 0 : matrix Nat)
      = .ok (.diagonalmatrix (.basic_matrix 65536 1 0) 0) ∧
    is_basic (.diagonalmatrix (.basic_matrix 65536 1 0) 0 : matrix Nat) = false ∧
    get_rows (.diagonalmatrix (.basic_matrix 65536 1 0) 0 : matrix Nat) = 65536 ∧
    get_cols (.diagonalmatrix (.basic_matrix 65536 1 0) 0 : matrix Nat) = 65536 ∧
    Readable [List.replicate 65536 0] (.diagonalmatrix (.basic_matrix 65536 1 0) 0 : matrix Nat) ∧
    (∀ fuel, converting_constructor (fuel + 1) [List.replicate 65536 0]
        (.diagonalmatrix (.basic_matrix 65536 1 0) 0 : matrix Nat) = .undefined) ∧
    (∀ fuel result, converting_constructor fuel [List.replicate 65536 0]
        (.diagonalmatrix (.basic_matrix 65536 1 0) 0 : matrix Nat) ≠ .done result) := by
  have hv : ∀ i, i < 65536 → ∃ x, (List.replicate 65536 (0 : Nat))[i]? = some x := by
    intro i hi
    exact ⟨0, by rw [List.getElem?_replicate, if_pos hi]⟩
  have hv0 : (List.replicate 65536 (0 : Nat))[0]? = some 0 := by
    rw [List.getElem?_replicate, if_pos (by decide)]
  have hundef := overflow_conversion_undefined (List.replicate 65536 0) 0 hv0
  refine ⟨by decide, by decide, by decide, by decide,
    overflow_conversion_readable _ hv, hundef, ?_⟩
  intro fuel result
  cases fuel with
  | zero =>
    intro e
    unfold converting_constructor at e
    have hrows : get_rows (.diagonalmatrix (.basic_matrix 65536 1 0) 0 : matrix Nat)
        = 65535 + 1 := by decide
    rw [hrows] at e
    simp only [copy_rows, begin, end_at, copy_loop] at e
    cases e
  | succ n =>
    rw [hundef n]
    exact fun e => by cases e

/-- C18, amended: let `f` be a view that is not a basic matrix, with at least one
column, `rows * cols < 2^32`, its buffer in the heap and all its in-shape reads
succeeding.  With enough fuel (more than `cols`) the converting constructor ends
normally with a basic matrix `k` of the shape of `f` under a new buffer handle;
`k(i, j)` reads what `f(i, j)` reads for every in-shape `(i, j)`, and reads of
`f` are as before the conversion; a later write through `k` changes no in-shape
read of `f`, and a later write through `f` changes no read of `k`. -/
theorem converting_constructor_deep_copy [Zero T] (h : Heap T) (f : matrix T) (hf : View f)
    (hnb : is_basic f = false) (hc : 0 < get_cols f)
    (hsz : get_rows f * get_cols f < 4294967296)
    (hread : Readable h f) (hbuf : buffer_of f < h.length)
    (fuel : Nat) (hfuel : get_cols f < fuel) :
    ∃ h2, converting_constructor fuel h f
        = .done (h2, .basic_matrix (get_rows f) (get_cols f) h.length) ∧
      (∀ i j, i < get_rows f → j < get_cols f →
        ∃ x, read h f i j = .ok (some x) ∧ read h2 f i j = .ok (some x) ∧
          read h2 (.basic_matrix (get_rows f) (get_cols f) h.length) i j = .ok (some x)) ∧
      (∀ i j x h3,
        write h2 (.basic_matrix (get_rows f) (get_cols f) h.length) i j x = .ok (some h3) →
        ∀ r c, r < get_rows f → c < get_cols f → read h3 f r c = read h2 f r c) ∧
      (∀ r c x h3, write h2 f r c x = .ok (some h3) →
        ∀ i j, read h3 (.basic_matrix (get_rows f) (get_cols f) h.length) i j
          = read h2 (.basic_matrix (get_rows f) (get_cols f) h.length) i j) := by
  have hval := view_valid hf
  have hsize : u32 (get_cols f * get_rows f) = get_rows f * get_cols f := by
    rw [Nat.mul_comm]; exact u32_of_lt hsz
  obtain ⟨v2, hrun, hlen, hvals, _⟩ :=
    copy_rows_all h f hval hnb hc hsz hread fuel hfuel (get_rows f) 0
      (List.replicate (get_rows f * get_cols f) 0) (by omega) (by simp)
  have hk : ∀ i j, i < get_rows f → j < get_cols f →
      operator_call (.basic_matrix (get_rows f) (get_cols f) h.length : matrix T) i j
        = .ok (.cell h.length (i * get_cols f + j)) := by
    intro i j hi hj
    have hu : u32 (i * get_cols f + j) = i * get_cols f + j :=
      u32_of_lt (by have := row_offset_lt hi hj; omega)
    rw [operator_call_basic, if_pos ⟨hi, hj⟩, hu]
  have hkref : ∀ i j ref,
      operator_call (.basic_matrix (get_rows f) (get_cols f) h.length : matrix T) i j
        = .ok ref → ∃ off, ref = .cell h.length off := by
    intro i j ref hr
    rw [operator_call_basic] at hr
    split at hr
    · simp only [Except.ok.injEq] at hr
      exact ⟨_, hr.symm⟩
    · cases hr
  refine ⟨h ++ [v2], ?_, ?_, ?_, ?_⟩
  · unfold converting_constructor
    rw [hsize, hrun]
  · intro i j hi hj
    obtain ⟨ref, x, hacc, hload⟩ := hread i j hi hj
    refine ⟨x, ?_, ?_, ?_⟩
    · simp [read, hacc, hload]
    · simp [read, hacc, load_append v2 hload]
    · have hv := hvals i j (Nat.zero_le _) hi hj ref x hacc hload
      simp [read, hk i j hi hj, load_new_buffer, hv]
  · intro i j x h3 hw r c hr hc2
    obtain ⟨ref, y, hacc, hload⟩ := hread r c hr hc2
    unfold write at hw
    split at hw
    · rename_i kref hkacc
      obtain ⟨off, rfl⟩ := hkref i j kref hkacc
      simp only [Except.ok.injEq] at hw
      obtain ⟨_, hother⟩ := load_after_store hw
      have hne : ref ≠ .cell h.length off := by
        intro he
        rw [he, load_beyond_heap] at hload
        cases hload
      simp [read, hacc, hother ref hne]
    · cases hw
  · intro r c x h3 hw i j
    unfold write at hw
    split at hw
    · rename_i fref hfacc
      simp only [Except.ok.injEq] at hw
      obtain ⟨_, hother⟩ := load_after_store hw
      unfold read
      split
      · rename_i kref hkacc
        obtain ⟨off, rfl⟩ := hkref i j kref hkacc
        have hne : (Ref.cell h.length off : Ref T) ≠ fref := by
          intro he
          rcases operator_call_ref_cases hfacc with ⟨z, hz⟩ | ⟨o, ho⟩
          · rw [hz] at he; cases he
          · rw [ho] at he
            injection he with hb _
            omega
        rw [hother _ hne]
      · rfl
    · cases hw

/-- Witness for the amended C18: the transpose of a 2 x 3 matrix holding
1, ..., 6 is converted with fuel 3. -/
theorem converting_constructor_deep_copy_witness :
    ∃ h2, converting_constructor 3 [[1, 2, 3, 4, 5, 6]]
        (.transpose_matrix (.basic_matrix 2 3 0) : matrix Nat)
        = .done (h2, .basic_matrix 3 2 1) ∧
      read h2 (.basic_matrix 3 2 1) 2 1 = .ok (some 6) :=
  have hres := converting_constructor_deep_copy [[1, 2, 3, 4, 5, 6]]
    (.transpose_matrix (.basic_matrix 2 3 0) : matrix Nat)
    (View.transpose 0 ([] : Heap Nat) [] (View.basic 2 3 0 (by decide) (by decide)) (by rfl))
    rfl (by decide) (by decide)
    (by
      intro i j hi hj
      have hi3 : i < 3 := hi
      have hj2 : j < 2 := hj
      interval_cases i <;> interval_cases j <;> exact ⟨_, _, rfl, rfl⟩)
    (by decide) 3 (by decide)
  match hres with
  | ⟨h2, hrun, hreads, _, _⟩ =>
    ⟨h2, hrun, by
      obtain ⟨x, hf, _, hk⟩ := hreads 2 1 (by decide) (by decide)
      have hx : x = 6 := by
        have h6 : read [[1, 2, 3, 4, 5, 6]]
            (.transpose_matrix (.basic_matrix 2 3 0) : matrix Nat) 2 1 = .ok (some 6) := by
          decide
        rw [h6] at hf
        injection hf with hf2
        injection hf2 with hf3
        exact hf3.symm
      rw [← hx]
      exact hk⟩

/-! ## Construction and writes of a basic matrix -/

/-- C21 fails as stated: `create(65536, 65536)` allocates `65536 * 65536` elements
with the product taken in `unsigned int`, which is 0.  The buffer is empty, its
length is not the integer product, and the offset `0 * 65536 + 0` of the
in-range coordinate `(0, 0)` is not inside it. -/
theorem create_overflow_counterexample :
    (create ([] : Heap Nat) 65536 65536).1 = [[]] ∧
    (create ([] : Heap Nat) 65536 65536).2 = .basic_matrix 65536 65536 0 ∧
    ([] : List Nat).length ≠ 65536 * 65536 ∧
    (0 < 65536 ∧ 0 < 65536 ∧ ¬ (0 * 65536 + 0 < ([] : List Nat).length)) := by
  decide

/-- C21, amended: for all `rows` and `cols`, the matrix built by
`create(rows, cols)` has a buffer whose length is `rows * cols` reduced modulo
`2^32`; when `rows * cols < 2^32` the length is `rows * cols` and every `(r, c)`
with `r < rows` and `c < cols` has its offset `r * cols + c` inside the buffer. -/
theorem create_storage_invariant [Zero T] (h : Heap T) (rows cols : Nat) :
    ∃ v, (create h rows cols).1[h.length]? = some v ∧
      (create h rows cols).2 = .basic_matrix rows cols h.length ∧
      v.length = (rows * cols) % 4294967296 ∧
      (rows * cols < 4294967296 →
        v.length = rows * cols ∧ ∀ r c, r < rows → c < cols → r * cols + c < v.length) := by
  refine ⟨List.replicate (u32 (rows * cols)) 0, by simp [create], rfl, by simp [u32], ?_⟩
  intro hsz
  have hlen : (List.replicate (u32 (rows * cols)) (0 : T)).length = rows * cols := by
    simp [u32_of_lt hsz]
  refine ⟨hlen, ?_⟩
  intro r c hr hc
  rw [hlen]
  exact row_offset_lt hr hc

/-- Witness for the amended C21: `create(2, 5)`. -/
theorem create_storage_invariant_witness :
    ∃ v, (create ([] : Heap Nat) 2 5).1[([] : Heap Nat).length]? = some v ∧
      (create ([] : Heap Nat) 2 5).2 = .basic_matrix 2 5 ([] : Heap Nat).length ∧
      v.length = (2 * 5) % 4294967296 ∧
      v.length = 2 * 5 ∧ ∀ r c, r < 2 → c < 5 → r * 5 + c < v.length :=
  match create_storage_invariant ([] : Heap Nat) 2 5 with
  | ⟨v, h1, h2, h3, h4⟩ => ⟨v, h1, h2, h3, h4 (by decide)⟩

/-- C22: `create(rows, cols)` with `rows * cols < 2^32` yields a basic matrix with
`rows()` equal to `rows` and `cols()` equal to `cols`, every in-range element of
which reads as the zero value; `create()` yields a matrix with no rows and no
columns. -/
theorem create_spec [Zero T] (h : Heap T) (rows cols : Nat)
    (hsz : rows * cols < 4294967296) :
    get_rows (create h rows cols).2 = rows ∧
    get_cols (create h rows cols).2 = cols ∧
    (∀ r c, r < rows → c < cols →
      read (create h rows cols).1 (create h rows cols).2 r c = .ok (some 0)) ∧
    get_rows (create_empty h).2 = 0 ∧
    get_cols (create_empty h).2 = 0 := by
  refine ⟨by simp [create, get_rows], by simp [create, get_cols], ?_,
    by simp [create_empty, get_rows], by simp [create_empty, get_cols]⟩
  intro r c hr hc
  have hlt := row_offset_lt hr hc
  have hu : u32 (r * cols + c) = r * cols + c := u32_of_lt (by omega)
  simp only [create, read, operator_call_basic, if_pos (And.intro hr hc), hu,
    load_new_buffer, u32_of_lt hsz]
  rw [List.getElem?_replicate, if_pos hlt]

/-- Witness for C22: `create(2, 5)`, the matrix `b` of `basic_test_basic_matrix`. -/
theorem create_spec_witness :
    get_rows (create ([] : Heap Nat) 2 5).2 = 2 ∧
    get_cols (create ([] : Heap Nat) 2 5).2 = 5 ∧
    (∀ r c, r < 2 → c < 5 →
      read (create ([] : Heap Nat) 2 5).1 (create ([] : Heap Nat) 2 5).2 r c = .ok (some 0)) ∧
    get_rows (create_empty ([] : Heap Nat)).2 = 0 ∧
    get_cols (create_empty ([] : Heap Nat)).2 = 0 :=
  create_spec ([] : Heap Nat) 2 5 (by decide)

/-- C23: for a basic matrix with `n_rows * n_cols < 2^32` whose buffer is
allocated and an in-range `(r, c)`: the write of `x` at `(r, c)` succeeds,
afterwards `(r, c)` reads `x` and every other in-range cell reads what it read
before.  The write changes the heap only: the object, hence `rows()` and
`cols()`, is the same, and its buffer keeps its length. -/
theorem basic_write_frame (h : Heap T) (n_rows n_cols p : Nat) (x : T)
    (halloc : Allocated h (.basic_matrix n_rows n_cols p))
    (hsz : n_rows * n_cols < 4294967296) (r c : Nat) (hr : r < n_rows) (hc : c < n_cols) :
    ∃ h2, write h (.basic_matrix n_rows n_cols p) r c x = .ok (some h2) ∧
      read h2 (.basic_matrix n_rows n_cols p) r c = .ok (some x) ∧
      (∀ r2 c2, r2 < n_rows → c2 < n_cols → (r2, c2) ≠ (r, c) →
        read h2 (.basic_matrix n_rows n_cols p) r2 c2
          = read h (.basic_matrix n_rows n_cols p) r2 c2) ∧
      get_rows (.basic_matrix n_rows n_cols p : matrix T) = n_rows ∧
      get_cols (.basic_matrix n_rows n_cols p : matrix T) = n_cols ∧
      Allocated h2 (.basic_matrix n_rows n_cols p) := by
  obtain ⟨v, hv, hlen⟩ := halloc
  have hoff : r * n_cols + c < v.length := by
    rw [hlen, u32_of_lt hsz]; exact row_offset_lt hr hc
  have hu : u32 (r * n_cols + c) = r * n_cols + c :=
    u32_of_lt (by have := row_offset_lt hr hc; omega)
  have hp : p < h.length := by
    rcases Nat.lt_or_ge p h.length with hlt | hge
    · exact hlt
    · rw [List.getElem?_eq_none hge] at hv; cases hv
  have hs : store h (.cell p (r * n_cols + c)) x
      = some (h.set p (v.set (r * n_cols + c) x)) := by
    simp [store, hv, hoff]
  obtain ⟨hsame, hother⟩ := load_after_store hs
  refine ⟨h.set p (v.set (r * n_cols + c) x), ?_, ?_, ?_, by simp [get_rows],
    by simp [get_cols], ?_⟩
  · simp [write, operator_call_basic, hr, hc, hu, hs]
  · simp [read, operator_call_basic, hr, hc, hu, hsame]
  · intro r2 c2 hr2 hc2 hne
    have hu2 : u32 (r2 * n_cols + c2) = r2 * n_cols + c2 :=
      u32_of_lt (by have := row_offset_lt hr2 hc2; omega)
    have hne2 : (Ref.cell p (r2 * n_cols + c2) : Ref T) ≠ .cell p (r * n_cols + c) := by
      intro he
      injection he with _ he2
      obtain ⟨h1, h2⟩ := offset_injective hc2 hc he2
      exact hne (by rw [h1, h2])
    simp [read, operator_call_basic, hr2, hc2, hu2, hother _ hne2]
  · exact ⟨v.set (r * n_cols + c) x, by simp [hp], by rw [List.length_set]; exact hlen⟩

/-- Witness for C23: the write `b(1, 3) = 4` on a fresh 2 x 5 matrix. -/
theorem basic_write_frame_witness :
    ∃ h2, write (create ([] : Heap Nat) 2 5).1 (.basic_matrix 2 5 0) 1 3 4 = .ok (some h2) ∧
      read h2 (.basic_matrix 2 5 0) 1 3 = .ok (some 4) ∧
      (∀ r2 c2, r2 < 2 → c2 < 5 → (r2, c2) ≠ (1, 3) →
        read h2 (.basic_matrix 2 5 0) r2 c2
          = read (create ([] : Heap Nat) 2 5).1 (.basic_matrix 2 5 0) r2 c2) ∧
      get_rows (.basic_matrix 2 5 0 : matrix Nat) = 2 ∧
      get_cols (.basic_matrix 2 5 0 : matrix Nat) = 5 ∧
      Allocated h2 (.basic_matrix 2 5 0) :=
  basic_write_frame (create ([] : Heap Nat) 2 5).1 2 5 0 4
    ⟨List.replicate 10 0, by decide, by decide⟩ (by decide) 1 3 (by decide) (by decide)

/-! ## Iteration over a basic matrix and its transpose -/

/-- C25: for a basic matrix `B` with `n_rows * n_cols < 2^32`: with enough fuel
the whole-matrix row-major loop from `begin()` to `end()` ends by reaching
`end()` and has visited exactly `n_rows * n_cols` places, the `k`-th being
`B(k / n_cols, k % n_cols)`, which is cell `k` of the buffer; and for every row
`i < n_rows` the loop from `begin(i)` to `end(i)` runs over the offsets from
`i * n_cols` up to `(i + 1) * n_cols` and visits `B(i, 0)`, ...,
`B(i, n_cols - 1)`.  In a heap where the buffer is allocated every one of these
cells holds a value. -/
theorem basic_row_major_iteration (n_rows n_cols p : Nat) (hR : n_rows < 4294967296)
    (hsz : n_rows * n_cols < 4294967296) :
    (∀ fuel, n_rows * n_cols < fuel →
      row_major fuel (.basic_matrix n_rows n_cols p : matrix T)
        = .ok ((List.range (n_rows * n_cols)).map (fun k =>
            operator_call (.basic_matrix n_rows n_cols p : matrix T)
              (k / n_cols) (k % n_cols)))) ∧
    ((List.range (n_rows * n_cols)).map (fun k =>
        operator_call (.basic_matrix n_rows n_cols p : matrix T)
          (k / n_cols) (k % n_cols))).length = n_rows * n_cols ∧
    (∀ k, k < n_rows * n_cols →
      operator_call (.basic_matrix n_rows n_cols p : matrix T) (k / n_cols) (k % n_cols)
        = .ok (.cell p k)) ∧
    (∀ i, i < n_rows →
      begin (.basic_matrix n_rows n_cols p : matrix T) i
        = .ok (.vector_iterator p (i * n_cols)) ∧
      end_at (.basic_matrix n_rows n_cols p : matrix T) i
        = .ok (.vector_iterator p ((i + 1) * n_cols)) ∧
      (∀ fuel, n_cols < fuel →
        traverse fuel (.vector_iterator p (i * n_cols) : cursor T)
            (.vector_iterator p ((i + 1) * n_cols))
          = (List.range n_cols).map (fun j =>
              operator_call (.basic_matrix n_rows n_cols p : matrix T) i j)) ∧
      (∀ j, j < n_cols →
        operator_call (.basic_matrix n_rows n_cols p : matrix T) i j
          = .ok (.cell p (i * n_cols + j)))) ∧
    (∀ (h : Heap T), Allocated h (.basic_matrix n_rows n_cols p) →
      ∀ k, k < n_rows * n_cols → ∃ x, load h (.cell p k) = some x) := by
  have hcell := basic_cell_of_offset (T := T) n_rows n_cols p
  refine ⟨?_, by simp, fun k hk => hcell k hsz hk, ?_, ?_⟩
  · intro fuel hfuel
    simp only [row_major, begin, true_or, if_true, end_]
    have h0 : u32 (0 * n_cols) = 0 := by simp [u32]
    rw [h0, u32_of_lt hsz]
    have := traverse_vector (T := T) p 0 (n_rows * n_cols) fuel hfuel
    simp only [Nat.zero_add] at this
    rw [this]
    congr 1
    apply List.map_congr_left
    intro k hk
    exact (hcell k hsz (List.mem_range.mp hk)).symm
  · intro i hi
    have hrow : (i + 1) * n_cols ≤ n_rows * n_cols := Nat.mul_le_mul_right _ hi
    have hrow2 : (i + 1) * n_cols = i * n_cols + n_cols := by ring
    have hacc : ∀ j, j < n_cols →
        operator_call (.basic_matrix n_rows n_cols p : matrix T) i j
          = .ok (.cell p (i * n_cols + j)) := by
      intro j hj
      rw [operator_call_basic, if_pos ⟨hi, hj⟩, u32_of_lt (by omega)]
    refine ⟨?_, ?_, ?_, hacc⟩
    · simp only [begin, hi, or_true, if_true]
      rw [u32_of_lt (by omega)]
    · simp only [end_at]
      rw [u32_of_lt (by omega : i + 1 < 4294967296), u32_of_lt (by omega)]
    · intro fuel hfuel
      rw [hrow2, traverse_vector p (i * n_cols) n_cols fuel hfuel]
      apply List.map_congr_left
      intro j hj
      exact (hacc j (List.mem_range.mp hj)).symm
  · intro h halloc k hk
    obtain ⟨v, hv, hlen⟩ := halloc
    rw [u32_of_lt hsz] at hlen
    have hkv : k < v.length := by omega
    exact ⟨v[k], by simp [load, hv, hkv]⟩

/-- Witness for C25: the 2 x 5 matrix of `basic_test_basic_matrix`. -/
theorem basic_row_major_iteration_witness :
    row_major 11 (.basic_matrix 2 5 0 : matrix Nat)
      = .ok ((List.range (2 * 5)).map (fun k =>
          operator_call (.basic_matrix 2 5 0 : matrix Nat) (k / 5) (k % 5))) :=
  (basic_row_major_iteration 2 5 0 (by decide) (by decide)).1 11 (by decide)

/-- C27 fails as stated for a window whose column bounds are inverted:
`W = B.get_submatrix(0, 2, 1, 0)` on a 4 x 5 matrix `B` is constructed, has 2
rows and `2^32 - 1` columns, and `column_begin(0)` fails the assertion
`i < last_col`. -/
theorem bounded_column_cursor_counterexample :
    get_submatrix (.basic_matrix 4 5 0 : matrix Nat) 0 2 1 0
      = .ok (.submatrix (.basic_matrix 4 5 0) 0 2 1 0) ∧
    get_rows (.submatrix (.basic_matrix 4 5 0) 0 2 1 0 : matrix Nat) = 2 ∧
    get_cols (.submatrix (.basic_matrix 4 5 0) 0 2 1 0 : matrix Nat) = 4294967295 ∧
    column_begin (.submatrix (.basic_matrix 4 5 0) 0 2 1 0 : matrix Nat) 0
      = .error .OutOfBounds ∧
    column_end_at (.submatrix (.basic_matrix 4 5 0) 0 2 1 0 : matrix Nat) 0
      = .error .OutOfBounds := by
  decide

/-- C27, amended: for every view `V` that is a basic matrix, a window with
`first_col <= last_col`, a diagonal or a diagonal matrix, with `rows() >= 1`, and
every column `j < cols()`: `column_begin(j)` is the cursor at `(0, j)` and
`column_end(j)` the cursor at `(0, j + 1)`; after `k < rows()` advances the
cursor is at `(k, j)` and differs from `column_end(j)`, and after exactly
`rows()` advances it is `column_end(j)`. -/
theorem bounded_column_cursor [Zero T] (V : matrix T) (hV : View V)
    (hnt : is_transpose V = false)
    (hord : ∀ base fr lr fc lc, V = .submatrix base fr lr fc lc → fc ≤ lc)
    (hrows : 0 < get_rows V) (j : Nat) (hj : j < get_cols V) :
    column_begin V j = .ok (.column_iterator V 0 j) ∧
    column_end_at V j = .ok (.column_iterator V 0 (j + 1)) ∧
    (∀ k, k < get_rows V →
      advance k (.column_iterator V 0 j) = .column_iterator V k j ∧
      equal (advance k (.column_iterator V 0 j)) (.column_iterator V 0 (j + 1)) = false) ∧
    advance (get_rows V) (.column_iterator V 0 j) = .column_iterator V 0 (j + 1) ∧
    equal (advance (get_rows V) (.column_iterator V 0 j)) (.column_iterator V 0 (j + 1))
      = true := by
  have hval := view_valid hV
  have hshape := valid_shape_lt hval
  have hj1 : j + 1 < 4294967296 := by omega
  have hu : u32 (j + 1) = j + 1 := u32_of_lt hj1
  have hbe : column_begin V j = .ok (.column_iterator V 0 j) ∧
      column_end_at V j = .ok (.column_iterator V 0 (j + 1)) := by
    cases V with
    | basic_matrix n_rows n_cols p =>
      have hjc : j < n_cols := by simpa [get_cols] using hj
      simp [column_begin, column_end_at, hjc, hu]
    | transpose_matrix base => simp [is_transpose] at hnt
    | submatrix base fr lr fc lc =>
      have hfl := hord base fr lr fc lc rfl
      have hlc : lc < 4294967296 := hval.2.2.2.2.2.1
      rw [get_cols_submatrix, usub_of_le hfl hlc] at hj
      have hjl : j < lc := by omega
      simp [column_begin, column_end_at, hjl, hu]
    | diagonalmatrix base z => simp [column_begin, column_end_at, hu]
    | diagonal base => simp [column_begin, column_end_at, hu]
  have hadv : ∀ k, k ≤ get_rows V →
      advance k (.column_iterator V 0 j)
        = .column_iterator V (k % get_rows V) (j + k / get_rows V) := by
    intro k hk
    have hdiv : k / get_rows V ≤ 1 := by
      have := Nat.div_le_div_right (c := get_rows V) hk
      rwa [Nat.div_self hrows] at this
    exact advance_column V j hrows hshape.1 k (by omega)
  have hfull : advance (get_rows V) (.column_iterator V 0 j) = .column_iterator V 0 (j + 1) := by
    rw [hadv _ (le_refl _), Nat.mod_self, Nat.div_self hrows]
  refine ⟨hbe.1, hbe.2, ?_, hfull, ?_⟩
  · intro k hk
    have hpos : advance k (.column_iterator V 0 j) = .column_iterator V k j := by
      rw [hadv k (le_of_lt hk), Nat.mod_eq_of_lt hk, Nat.div_eq_of_lt hk, Nat.add_zero]
    refine ⟨hpos, ?_⟩
    rw [hpos]
    simp [equal]
  · rw [hfull]
    simp [equal]

/-- Witness for the amended C27: column 2 of the 2 x 5 matrix of
`basic_test_basic_matrix`. -/
theorem bounded_column_cursor_witness :
    column_begin (.basic_matrix 2 5 0 : matrix Nat) 2
      = .ok (.column_iterator (.basic_matrix 2 5 0) 0 2) ∧
    advance (get_rows (.basic_matrix 2 5 0 : matrix Nat))
        (.column_iterator (.basic_matrix 2 5 0 : matrix Nat) 0 2)
      = .column_iterator (.basic_matrix 2 5 0) 0 (2 + 1) :=
  have hres := bounded_column_cursor (.basic_matrix 2 5 0 : matrix Nat)
    (View.basic 2 5 0 (by decide) (by decide)) rfl
    (fun _ _ _ _ _ he => by cases he) (by decide) 2 (by decide)
  ⟨hres.1, hres.2.2.2.1⟩

/-- C28 fails as stated for a window whose row bounds are inverted:
`W = B.get_submatrix(1, 0, 0, 5)` on a 4 x 5 matrix `B` is constructed, has
`2^32 - 1` rows and 5 columns, and `begin(0)` and `end(0)` fail the assertion
`(i == 0 && first_row == 0) || i < last_row`. -/
theorem bounded_row_cursor_counterexample :
    get_submatrix (.basic_matrix 4 5 0 : matrix Nat) 1 0 0 5
      = .ok (.submatrix (.basic_matrix 4 5 0) 1 0 0 5) ∧
    get_rows (.submatrix (.basic_matrix 4 5 0) 1 0 0 5 : matrix Nat) = 4294967295 ∧
    get_cols (.submatrix (.basic_matrix 4 5 0) 1 0 0 5 : matrix Nat) = 5 ∧
    begin (.submatrix (.basic_matrix 4 5 0) 1 0 0 5 : matrix Nat) 0 = .error .OutOfBounds ∧
    end_at (.submatrix (.basic_matrix 4 5 0) 1 0 0 5 : matrix Nat) 0 = .error .OutOfBounds := by
  decide

/-- C28, amended: for every view `V` that is a window with
`first_row <= last_row`, a diagonal or a diagonal matrix, with `cols() >= 1`, and
every row `i < rows()`: `begin(i)` is the cursor at `(i, 0)` and `end(i)` the
cursor at `(i + 1, 0)`; after `k < cols()` advances the cursor is at `(i, k)` and
differs from `end(i)`, and after exactly `cols()` advances it is `end(i)`. -/
theorem bounded_row_cursor [Zero T] (V : matrix T) (hV : View V)
    (hnb : is_basic V = false) (hnt : is_transpose V = false)
    (hord : ∀ base fr lr fc lc, V = .submatrix base fr lr fc lc → fr ≤ lr)
    (hcols : 0 < get_cols V) (i : Nat) (hi : i < get_rows V) :
    begin V i = .ok (.iterator_limited V i 0) ∧
    end_at V i = .ok (.iterator_limited V (i + 1) 0) ∧
    (∀ k, k < get_cols V →
      advance k (.iterator_limited V i 0) = .iterator_limited V i k ∧
      equal (advance k (.iterator_limited V i 0)) (.iterator_limited V (i + 1) 0) = false) ∧
    advance (get_cols V) (.iterator_limited V i 0) = .iterator_limited V (i + 1) 0 ∧
    equal (advance (get_cols V) (.iterator_limited V i 0)) (.iterator_limited V (i + 1) 0)
      = true := by
  have hval := view_valid hV
  have hshape := valid_shape_lt hval
  have hi1 : i + 1 < 4294967296 := by omega
  have hu : u32 (i + 1) = i + 1 := u32_of_lt hi1
  have hbe : begin V i = .ok (.iterator_limited V i 0) ∧
      end_at V i = .ok (.iterator_limited V (i + 1) 0) := by
    cases V with
    | basic_matrix n_rows n_cols p => simp [is_basic] at hnb
    | transpose_matrix base => simp [is_transpose] at hnt
    | submatrix base fr lr fc lc =>
      have hfl := hord base fr lr fc lc rfl
      have hlr : lr < 4294967296 := hval.2.2.2.1
      rw [get_rows_submatrix, usub_of_le hfl hlr] at hi
      have hil : i < lr := by omega
      simp [begin, end_at, hil, hu]
    | diagonalmatrix base z => simp [begin, end_at, hu]
    | diagonal base => simp [begin, end_at, hu]
  have hadv : ∀ k, k ≤ get_cols V →
      advance k (.iterator_limited V i 0)
        = .iterator_limited V (i + k / get_cols V) (k % get_cols V) := by
    intro k hk
    have hdiv : k / get_cols V ≤ 1 := by
      have := Nat.div_le_div_right (c := get_cols V) hk
      rwa [Nat.div_self hcols] at this
    exact advance_limited V i hcols hshape.2 k (by omega)
  have hfull : advance (get_cols V) (.iterator_limited V i 0)
      = .iterator_limited V (i + 1) 0 := by
    rw [hadv _ (le_refl _), Nat.mod_self, Nat.div_self hcols]
  refine ⟨hbe.1, hbe.2, ?_, hfull, ?_⟩
  · intro k hk
    have hpos : advance k (.iterator_limited V i 0) = .iterator_limited V i k := by
      rw [hadv k (le_of_lt hk), Nat.mod_eq_of_lt hk, Nat.div_eq_of_lt hk, Nat.add_zero]
    refine ⟨hpos, ?_⟩
    rw [hpos]
    simp [equal]
  · rw [hfull]
    simp [equal]

/-- Witness for the amended C28: row 1 of the window `(1, 3, 1, 4)` of the 4 x 5
matrix of `basic_test_submatrix`. -/
theorem bounded_row_cursor_witness :
    begin (.submatrix (.basic_matrix 4 5 0) 1 3 1 4 : matrix Nat) 1
      = .ok (.iterator_limited (.submatrix (.basic_matrix 4 5 0) 1 3 1 4) 1 0) ∧
    advance (get_cols (.submatrix (.basic_matrix 4 5 0) 1 3 1 4 : matrix Nat))
        (.iterator_limited (.submatrix (.basic_matrix 4 5 0) 1 3 1 4 : matrix Nat) 1 0)
      = .iterator_limited (.submatrix (.basic_matrix 4 5 0) 1 3 1 4) (1 + 1) 0 :=
  have hres := bounded_row_cursor (.submatrix (.basic_matrix 4 5 0) 1 3 1 4 : matrix Nat)
    (View.window 1 3 1 4 (View.basic 4 5 0 (by decide) (by decide))
      (by decide) (by decide) (by decide) (by decide) (by rfl))
    rfl rfl
    (fun _ _ _ _ _ he => by
      injection he with _ h1 h2
      omega)
    (by decide) 1 (by decide)
  ⟨hres.1, hres.2.2.2.1⟩

/-- C30: for two flat cursors (`iterator_limited`, mutable or `const`) and for
two column cursors (`column_iterator`, mutable or `const`), over any two
matrices: `a == b` holds if and only if the rows are equal and the columns are
equal, and `a != b` holds if and only if `a == b` does not. -/
theorem cursor_equality_positional (m1 m2 : matrix T) (r c r2 c2 : Nat) :
    (equal (.iterator_limited m1 r c) (.iterator_limited m2 r2 c2) = true ↔
      (r = r2 ∧ c = c2)) ∧
    (not_equal (.iterator_limited m1 r c) (.iterator_limited m2 r2 c2) = true ↔
      ¬ equal (.iterator_limited m1 r c) (.iterator_limited m2 r2 c2) = true) ∧
    (equal (.column_iterator m1 r c) (.column_iterator m2 r2 c2) = true ↔
      (r = r2 ∧ c = c2)) ∧
    (not_equal (.column_iterator m1 r c) (.column_iterator m2 r2 c2) = true ↔
      ¬ equal (.column_iterator m1 r c) (.column_iterator m2 r2 c2) = true) := by
  refine ⟨by simp [equal], ?_, by simp [equal], ?_⟩
  · simp only [equal, not_equal, Bool.and_eq_true, beq_iff_eq, Bool.or_eq_true, bne_iff_ne]
    constructor
    · rintro (h | h) ⟨h1, h2⟩
      · exact h h1
      · exact h h2
    · intro h
      by_cases hr : r = r2
      · exact Or.inr (fun hc => h ⟨hr, hc⟩)
      · exact Or.inl hr
  · simp only [equal, not_equal, Bool.and_eq_true, beq_iff_eq, Bool.not_eq_true']
    constructor
    · intro h
      simpa using h
    · intro h
      simpa using h

/-! ## Compositions of decorators -/

/-- C31: for every basic matrix `B` of shape `(m, n)`, `B.get_transpose()`
returns the transpose object built on `B` and leaves the heap as it is.  For
bounds with `a <= b <= n` and `c <= d <= m`,
`B.get_transpose().get_submatrix(a, b, c, d)` is constructed, has shape
`(b - a, d - c)`, and its access `(i, j)` with `i < b - a` and `j < d - c` is the
access `B(j + c, i + a)`, which yields the element at offset
`(j + c) * n + (i + a)` (in `unsigned int`) of the buffer of `B`, so that the
reads are equal in every heap; and the construction fails with `OutOfBounds` if
`b > n` or `d > m`. -/
theorem window_over_transpose [Zero T] (h : Heap T) (m n p a b c d : Nat)
    (hm : m < 4294967296) (hn : n < 4294967296) :
    (∀ fuel (h0 : Heap T), get_transpose fuel h0 (.basic_matrix m n p)
      = .done (h0, .transpose_matrix (.basic_matrix m n p))) ∧
    (a ≤ b → b ≤ n → c ≤ d → d ≤ m →
      ∃ S, get_submatrix (.transpose_matrix (.basic_matrix m n p) : matrix T) a b c d = .ok S ∧
        get_rows S = b - a ∧ get_cols S = d - c ∧
        ∀ i j, i < b - a → j < d - c →
          operator_call S i j = operator_call (.basic_matrix m n p) (j + c) (i + a) ∧
          operator_call S i j = .ok (.cell p (u32 ((j + c) * n + (i + a)))) ∧
          read h S i j = read h (.basic_matrix m n p) (j + c) (i + a)) ∧
    ((b > n ∨ d > m) →
      get_submatrix (.transpose_matrix (.basic_matrix m n p) : matrix T) a b c d
        = .error .OutOfBounds) := by
  refine ⟨fun _ _ => rfl, ?_, ?_⟩
  · intro hab hbn hcd hdm
    refine ⟨.submatrix (.transpose_matrix (.basic_matrix m n p)) a b c d, ?_, ?_, ?_, ?_⟩
    · simp [get_submatrix, submatrix_constructor, get_rows, get_cols, hbn, hdm]
    · rw [get_rows_submatrix, usub_of_le hab (by omega)]
    · rw [get_cols_submatrix, usub_of_le hcd (by omega)]
    · intro i j hi hj
      have hS : operator_call (.submatrix (.transpose_matrix (.basic_matrix m n p : matrix T))
          a b c d) i j = operator_call (.basic_matrix m n p) (j + c) (i + a) := by
        rw [operator_call_submatrix, usub_of_le hab (by omega), usub_of_le hcd (by omega),
          if_pos ⟨by omega, by omega, by omega, by omega⟩,
          u32_of_lt (by omega : i + a < 4294967296), u32_of_lt (by omega : j + c < 4294967296),
          operator_call_transpose]
        simp only [get_rows, get_cols]
        rw [if_pos ⟨by omega, by omega⟩]
      have hB : operator_call (.basic_matrix m n p : matrix T) (j + c) (i + a)
          = .ok (.cell p (u32 ((j + c) * n + (i + a)))) := by
        rw [operator_call_basic, if_pos ⟨by omega, by omega⟩]
      refine ⟨hS, ?_, ?_⟩
      · rw [hS, hB]
      · simp only [read, hS]
  · intro hbd
    have herr := (submatrix_constructor_error_iff
      (.transpose_matrix (.basic_matrix m n p : matrix T)) a b c d).mpr
      (by simpa [get_rows, get_cols] using hbd)
    simpa [get_submatrix] using herr

/-- Witness for C31: the transpose of the 4 x 5 matrix of `basic_test_submatrix`
with the bounds `(1, 4, 0, 3)`. -/
theorem window_over_transpose_witness :
    ∃ S, get_submatrix (.transpose_matrix (.basic_matrix 4 5 0) : matrix Nat) 1 4 0 3 = .ok S ∧
      get_rows S = 4 - 1 ∧ get_cols S = 3 - 0 ∧
      ∀ i j, i < 4 - 1 → j < 3 - 0 →
        operator_call S i j = operator_call (.basic_matrix 4 5 0) (j + 0) (i + 1) ∧
        operator_call S i j = .ok (.cell 0 (u32 ((j + 0) * 5 + (i + 1)))) ∧
        read [List.replicate 20 0] S i j
          = read [List.replicate 20 0] (.basic_matrix 4 5 0) (j + 0) (i + 1) :=
  (window_over_transpose [List.replicate 20 0] 4 5 0 1 4 0 3 (by decide) (by decide)).2.1
    (by decide) (by decide) (by decide) (by decide)

/-- C32: for every view `V`, `V.get_diagonal().get_diagonalmatrix()` is
constructed (no `InvalidShape`), has `min(V.rows(), V.cols())` rows and as many
columns, its access `(i, i)` is the access `V(i, i)` (so the reads are equal in
every heap), and its access `(i, j)` with `i != j` yields the null element,
whose value is zero. -/
theorem diagonal_then_diagonalmatrix [Zero T] (h : Heap T) (V : matrix T) :
    ∃ M, get_diagonalmatrix (get_diagonal V) = .ok M ∧
      get_rows M = min (get_rows V) (get_cols V) ∧
      get_cols M = min (get_rows V) (get_cols V) ∧
      (∀ i, operator_call M i i = operator_call V i i ∧ read h M i i = read h V i i) ∧
      (∀ i j, i ≠ j → operator_call M i j = .ok (.null_element 0) ∧
        read h M i j = .ok (some 0)) := by
  have hmin : get_rows (.diagonal V) = min (get_rows V) (get_cols V) := by
    rw [get_rows_diagonal]
    split <;> omega
  refine ⟨.diagonalmatrix (.diagonal V) 0, ?_, ?_, ?_, ?_, ?_⟩
  · simp [get_diagonal, get_diagonalmatrix, get_cols]
  · rw [get_rows_diagonalmatrix, hmin]
  · rw [get_cols_diagonalmatrix, hmin]
  · intro i
    have hacc : operator_call (.diagonalmatrix (.diagonal V) (0 : T)) i i
        = operator_call V i i := by
      rw [operator_call_diagonalmatrix, if_neg (by simp), operator_call_diagonal, if_pos rfl]
    exact ⟨hacc, by simp only [read, hacc]⟩
  · intro i j hij
    have hacc : operator_call (.diagonalmatrix (.diagonal V) (0 : T)) i j
        = .ok (.null_element 0) := by
      rw [operator_call_diagonalmatrix, if_pos hij]
    exact ⟨hacc, by simp [read, hacc, load]⟩

/-- C33: for every view `V` with at least one row and one column,
`V.get_diagonal().get_diagonal()` has shape `(1, 1)` and its access `(0, 0)` is
the access `V(0, 0)` (so the reads are equal in every heap); for a `V` with
zero rows or zero columns it has shape `(0, 1)`. -/
theorem diagonal_of_diagonal (h : Heap T) (V : matrix T) :
    (1 ≤ get_rows V → 1 ≤ get_cols V →
      get_rows (get_diagonal (get_diagonal V)) = 1 ∧
      get_cols (get_diagonal (get_diagonal V)) = 1 ∧
      operator_call (get_diagonal (get_diagonal V)) 0 0 = operator_call V 0 0 ∧
      read h (get_diagonal (get_diagonal V)) 0 0 = read h V 0 0) ∧
    ((get_rows V = 0 ∨ get_cols V = 0) →
      get_rows (get_diagonal (get_diagonal V)) = 0 ∧
      get_cols (get_diagonal (get_diagonal V)) = 1) := by
  have hacc : operator_call (get_diagonal (get_diagonal V)) 0 0 = operator_call V 0 0 := by
    simp only [get_diagonal, copy_constructor_eq]
    rw [operator_call_diagonal, if_pos rfl, operator_call_diagonal, if_pos rfl]
  simp only [get_diagonal, copy_constructor_eq] at hacc ⊢
  constructor
  · intro hr hc
    refine ⟨?_, ?_, hacc, by simp only [read, hacc]⟩
    · rw [get_rows_diagonal, get_rows_diagonal, get_cols_diagonal]
      split <;> split <;> omega
    · rw [get_cols_diagonal]
  · intro hz
    constructor
    · rw [get_rows_diagonal, get_rows_diagonal, get_cols_diagonal]
      split <;> split <;> omega
    · rw [get_cols_diagonal]

/-- Witness for C33: the 4 x 5 matrix of `basic_test_submatrix`. -/
theorem diagonal_of_diagonal_witness :
    get_rows (get_diagonal (get_diagonal (.basic_matrix 4 5 0 : matrix Nat))) = 1 ∧
    get_cols (get_diagonal (get_diagonal (.basic_matrix 4 5 0 : matrix Nat))) = 1 ∧
    operator_call (get_diagonal (get_diagonal (.basic_matrix 4 5 0 : matrix Nat))) 0 0
      = operator_call (.basic_matrix 4 5 0) 0 0 ∧
    read [List.replicate 20 0] (get_diagonal (get_diagonal (.basic_matrix 4 5 0 : matrix Nat)))
      0 0 = read [List.replicate 20 0] (.basic_matrix 4 5 0) 0 0 :=
  (diagonal_of_diagonal [List.replicate 20 0] (.basic_matrix 4 5 0 : matrix Nat)).1
    (by decide) (by decide)

/-- C35 (evaluation at the failing input): on the window `(1, 3, 1, 4)` of a
4 x 5 matrix, whose shape is `(2, 3)`, the requests `column_begin(3)` and
`column_end(3)` (with `3 >= cols()`) and `begin(2)` and `end(2)` (with
`2 >= rows()`) all return a cursor: the assertions compare the index, a
coordinate of the window, with `last_col = 4` and `last_row = 3`, bounds in the
coordinates of the parent, where the basic matrix compares it with its own
`n_cols`. -/
theorem window_cursor_request_parent_bounds :
    get_rows (.submatrix (.basic_matrix 4 5 0) 1 3 1 4 : matrix Nat) = 2 ∧
    get_cols (.submatrix (.basic_matrix 4 5 0) 1 3 1 4 : matrix Nat) = 3 ∧
    get_submatrix (.basic_matrix 4 5 0 : matrix Nat) 1 3 1 4
      = .ok (.submatrix (.basic_matrix 4 5 0) 1 3 1 4) ∧
    column_begin (.submatrix (.basic_matrix 4 5 0) 1 3 1 4 : matrix Nat) 3
      = .ok (.column_iterator (.submatrix (.basic_matrix 4 5 0) 1 3 1 4) 0 3) ∧
    column_end_at (.submatrix (.basic_matrix 4 5 0) 1 3 1 4 : matrix Nat) 3
      = .ok (.column_iterator (.submatrix (.basic_matrix 4 5 0) 1 3 1 4) 0 4) ∧
    begin (.submatrix (.basic_matrix 4 5 0) 1 3 1 4 : matrix Nat) 2
      = .ok (.iterator_limited (.submatrix (.basic_matrix 4 5 0) 1 3 1 4) 2 0) ∧
    end_at (.submatrix (.basic_matrix 4 5 0) 1 3 1 4 : matrix Nat) 2
      = .ok (.iterator_limited (.submatrix (.basic_matrix 4 5 0) 1 3 1 4) 3 0) := by
  decide

/-- C38: for every basic matrix with `rows() == 0` and every column
`j < cols()`, `column_begin(j)` is the cursor `(0, j)` and `column_end(j)` the
cursor `(0, j + 1)`, which are different; one increment of `column_begin(j)`
yields the position `(1, j)`, because `rows() - 1` is `2^32 - 1` in `unsigned
int` and the row `0` is not equal to it; and dereferencing the cursor, before or
after the increment, fails with `OutOfBounds`. -/
theorem column_cursor_zero_rows (n_cols p j : Nat) (hc : n_cols < 4294967296)
    (hj : j < n_cols) :
    column_begin (.basic_matrix 0 n_cols p : matrix T) j
      = .ok (.column_iterator (.basic_matrix 0 n_cols p) 0 j) ∧
    column_end_at (.basic_matrix 0 n_cols p : matrix T) j
      = .ok (.column_iterator (.basic_matrix 0 n_cols p) 0 (j + 1)) ∧
    not_equal (.column_iterator (.basic_matrix 0 n_cols p : matrix T) 0 j)
      (.column_iterator (.basic_matrix 0 n_cols p) 0 (j + 1)) = true ∧
    equal (.column_iterator (.basic_matrix 0 n_cols p : matrix T) 0 j)
      (.column_iterator (.basic_matrix 0 n_cols p) 0 (j + 1)) = false ∧
    usub (get_rows (.basic_matrix 0 n_cols p : matrix T)) 1 = 4294967295 ∧
    increment (.column_iterator (.basic_matrix 0 n_cols p : matrix T) 0 j)
      = .column_iterator (.basic_matrix 0 n_cols p) 1 j ∧
    dereference (.column_iterator (.basic_matrix 0 n_cols p : matrix T) 0 j)
      = .error .OutOfBounds ∧
    dereference (.column_iterator (.basic_matrix 0 n_cols p : matrix T) 1 j)
      = .error .OutOfBounds := by
  have hj1 : u32 (j + 1) = j + 1 := u32_of_lt (by omega)
  refine ⟨?_, ?_, ?_, ?_, ?_, ?_, ?_, ?_⟩
  · simp [column_begin, hj]
  · simp [column_end_at, hj, hj1]
  · simp [not_equal]
  · simp [equal]
  · simp [get_rows, usub]
  · simp [increment, get_rows, usub, u32]
  · simp [dereference, operator_call, get_rows]
  · simp [dereference, operator_call, get_rows]

/-- Witness for C38: a basic matrix with no row and five columns, column 2. -/
theorem column_cursor_zero_rows_witness :
    column_begin (.basic_matrix 0 5 0 : matrix Nat) 2
      = .ok (.column_iterator (.basic_matrix 0 5 0) 0 2) ∧
    column_end_at (.basic_matrix 0 5 0 : matrix Nat) 2
      = .ok (.column_iterator (.basic_matrix 0 5 0) 0 (2 + 1)) ∧
    not_equal (.column_iterator (.basic_matrix 0 5 0 : matrix Nat) 0 2)
      (.column_iterator (.basic_matrix 0 5 0) 0 (2 + 1)) = true ∧
    equal (.column_iterator (.basic_matrix 0 5 0 : matrix Nat) 0 2)
      (.column_iterator (.basic_matrix 0 5 0) 0 (2 + 1)) = false ∧
    usub (get_rows (.basic_matrix 0 5 0 : matrix Nat)) 1 = 4294967295 ∧
    increment (.column_iterator (.basic_matrix 0 5 0 : matrix Nat) 0 2)
      = .column_iterator (.basic_matrix 0 5 0) 1 2 ∧
    dereference (.column_iterator (.basic_matrix 0 5 0 : matrix Nat) 0 2)
      = .error .OutOfBounds ∧
    dereference (.column_iterator (.basic_matrix 0 5 0 : matrix Nat) 1 2)
      = .error .OutOfBounds :=
  column_cursor_zero_rows 5 0 2 (by decide) (by decide)

/-- C37 (counterexample): `P`, the window `(2, 1, 0, 5)` of a 4 x 5 matrix, is
constructed and reports `2^32 - 1` rows and 5 columns; the bounds `(3, 4, 0, 5)`
satisfy `row1 <= P.rows()` and `col1 <= P.cols()`, yet `P.get_submatrix(3, 4,
0, 5)` fails with `OutOfBounds`, the shifted bound `4 + 2` being compared with
the 4 rows of the parent of `P`. -/
theorem get_submatrix_of_inverted_window_counterexample :
    get_submatrix (.basic_matrix 4 5 0 : matrix Nat) 2 1 0 5
      = .ok (.submatrix (.basic_matrix 4 5 0) 2 1 0 5) ∧
    get_rows (.submatrix (.basic_matrix 4 5 0) 2 1 0 5 : matrix Nat) = 4294967295 ∧
    get_cols (.submatrix (.basic_matrix 4 5 0) 2 1 0 5 : matrix Nat) = 5 ∧
    4 ≤ get_rows (.submatrix (.basic_matrix 4 5 0) 2 1 0 5 : matrix Nat) ∧
    5 ≤ get_cols (.submatrix (.basic_matrix 4 5 0) 2 1 0 5 : matrix Nat) ∧
    get_submatrix (.submatrix (.basic_matrix 4 5 0) 2 1 0 5 : matrix Nat) 3 4 0 5
      = .error .OutOfBounds := by
  decide

/-- C37, amended: for every view `P` that, if it is a window, has ordered bounds
(`first_row <= last_row`, `first_col <= last_col`), and `unsigned int` bounds
with `row1 <= P.rows()` and `col1 <= P.cols()`, whether or not `row0 <= row1`
and `col0 <= col1`: `P.get_submatrix(row0, row1, col0, col1)` is constructed, is
a window, and reports `rows() == (row1 - row0) mod 2^32` and
`cols() == (col1 - col0) mod 2^32`. -/
theorem get_submatrix_unordered_bounds [Zero T] (P : matrix T) (hP : View P)
    (hord : window_ordered P) (row0 row1 col0 col1 : Nat)
    (h0 : row0 < 4294967296) (h1 : row1 < 4294967296)
    (h2 : col0 < 4294967296) (h3 : col1 < 4294967296)
    (hr : row1 ≤ get_rows P) (hc : col1 ≤ get_cols P) :
    ∃ W, get_submatrix P row0 row1 col0 col1 = .ok W ∧ is_submatrix W = true ∧
      get_rows W = usub row1 row0 ∧ get_cols W = usub col1 col0 ∧
      (get_rows W : Int) = ((row1 : Int) - (row0 : Int)) % 4294967296 ∧
      (get_cols W : Int) = ((col1 : Int) - (col0 : Int)) % 4294967296 := by
  have hval := view_valid hP
  have key : ∃ W, get_submatrix P row0 row1 col0 col1 = .ok W ∧ is_submatrix W = true ∧
      get_rows W = usub row1 row0 ∧ get_cols W = usub col1 col0 := by
    by_cases hs : is_submatrix P = true
    · obtain ⟨base, fr, lr, fc, lc, rfl⟩ := is_submatrix_iff.mp hs
      obtain ⟨_, _, hfr, hlr, hfc, hlc, hlrb, hlcb⟩ := hval
      obtain ⟨hrord, hcord⟩ := hord
      rw [get_rows_submatrix, usub_of_le hrord hlr] at hr
      rw [get_cols_submatrix, usub_of_le hcord hlc] at hc
      have e2 : u32 (row1 + fr) = row1 + fr := u32_of_lt (by omega)
      have e4 : u32 (col1 + fc) = col1 + fc := u32_of_lt (by omega)
      refine ⟨.submatrix base (u32 (row0 + fr)) (row1 + fr) (u32 (col0 + fc)) (col1 + fc),
        ?_, rfl, ?_, ?_⟩
      · simp only [get_submatrix, e2, e4]
        exact submatrix_constructor_of_le (by omega) (by omega)
      · rw [get_rows_submatrix]
        unfold usub u32
        omega
      · rw [get_cols_submatrix]
        unfold usub u32
        omega
    · have hs2 : is_submatrix P = false := by simpa using hs
      refine ⟨.submatrix P row0 row1 col0 col1, ?_, rfl, ?_, ?_⟩
      · rw [get_submatrix_of_not_submatrix hs2]
        exact submatrix_constructor_of_le hr hc
      · rw [get_rows_submatrix]
      · rw [get_cols_submatrix]
  obtain ⟨W, hW, hsub, hrows, hcols⟩ := key
  refine ⟨W, hW, hsub, hrows, hcols, ?_, ?_⟩
  · rw [hrows]
    unfold usub
    omega
  · rw [hcols]
    unfold usub
    omega

/-- Witness for the amended C37: the bounds `(1, 0, 0, 0)` on a 4 x 5 matrix,
which give `rows() == 2^32 - 1`. -/
theorem get_submatrix_unordered_bounds_witness :
    ∃ W, get_submatrix (.basic_matrix 4 5 0 : matrix Nat) 1 0 0 0 = .ok W ∧
      is_submatrix W = true ∧
      get_rows W = usub 0 1 ∧ get_cols W = usub 0 0 ∧
      (get_rows W : Int) = ((0 : Nat) - (1 : Nat) : Int) % 4294967296 ∧
      (get_cols W : Int) = ((0 : Nat) - (0 : Nat) : Int) % 4294967296 :=
  get_submatrix_unordered_bounds (.basic_matrix 4 5 0 : matrix Nat)
    (View.basic 4 5 0 (by decide) (by decide)) trivial 1 0 0 0
    (by decide) (by decide) (by decide) (by decide) (by decide) (by decide)

/-- C39: for the flat cursor and the column cursor of `matrix_utils.h` (the
`const_` variants have the same bodies), over any matrix and at any position:
`it++` and `++it` leave the cursor in the same advanced position, the value of
both expressions is that advanced cursor, and the value of `it++` never
compares equal to the position the cursor had before the advance. -/
theorem post_increment_is_pre_increment (m : matrix T) (r c : Nat) :
    (post_increment (.iterator_limited m r c) = pre_increment (.iterator_limited m r c) ∧
      (post_increment (.iterator_limited m r c)).1 = increment (.iterator_limited m r c) ∧
      (post_increment (.iterator_limited m r c)).2 = increment (.iterator_limited m r c) ∧
      (pre_increment (.iterator_limited m r c)).2 = increment (.iterator_limited m r c) ∧
      equal (post_increment (.iterator_limited m r c)).2 (.iterator_limited m r c) = false) ∧
    (post_increment (.column_iterator m r c) = pre_increment (.column_iterator m r c) ∧
      (post_increment (.column_iterator m r c)).1 = increment (.column_iterator m r c) ∧
      (post_increment (.column_iterator m r c)).2 = increment (.column_iterator m r c) ∧
      (pre_increment (.column_iterator m r c)).2 = increment (.column_iterator m r c) ∧
      equal (post_increment (.column_iterator m r c)).2 (.column_iterator m r c) = false) := by
  have hne : ∀ x : Nat, u32 (x + 1) ≠ x := by
    intro x
    unfold u32
    omega
  constructor
  · refine ⟨?_, ?_, ?_, rfl, ?_⟩
    · simp only [post_increment, pre_increment, increment]
      split <;> rfl
    · simp only [post_increment, increment]
      split <;> rfl
    · simp only [post_increment, increment]
      split <;> rfl
    · simp only [post_increment]
      split
      · simp [equal, hne r]
      · simp [equal, hne c]
  · refine ⟨?_, ?_, ?_, rfl, ?_⟩
    · simp only [post_increment, pre_increment, increment]
      split <;> rfl
    · simp only [post_increment, increment]
      split <;> rfl
    · simp only [post_increment, increment]
      split <;> rfl
    · simp only [post_increment]
      split
      · simp [equal, hne c]
      · simp [equal, hne r]

/-- C36: for every basic matrix `B` with `rows * cols < 2^32` whose buffer is
the one its constructor allocated, and every view `V` obtained from `B` by a
finite chain of `get_transpose`, `get_submatrix` (with `row0 <= row1`,
`col0 <= col1` and no overflow when the offsets of a window are added),
`get_diagonal` and `get_diagonalmatrix` calls that return, in the heap `h2` these
calls leave (only `get_transpose` on the transpose of a basic matrix changes
the heap, by allocating the buffer of the matrix it returns): every access
`V(r, c)` with `r < V.rows()` and `c < V.cols()` passes the assertions of every
layer (neither `OutOfBounds` nor `InvalidAccess`) and yields a reference to an
element, so the read succeeds. -/
theorem in_shape_access_never_fails [Zero T] (h : Heap T) (n_rows n_cols p : Nat)
    (hr : n_rows < 4294967296) (hc : n_cols < 4294967296)
    (hsz : n_rows * n_cols < 4294967296)
    (halloc : Allocated h (.basic_matrix n_rows n_cols p))
    (h2 : Heap T) (V : matrix T)
    (hV : OrderedChain h (.basic_matrix n_rows n_cols p) h2 V)
    (r c : Nat) (hrV : r < get_rows V) (hcV : c < get_cols V) :
    ∃ ref x, operator_call V r c = .ok ref ∧ load h2 ref = some x ∧
      read h2 V r c = .ok (some x) := by
  have hB : Regular h (.basic_matrix n_rows n_cols p) := ⟨hr, hc, hsz, halloc⟩
  have hreg : Regular h2 V := regular_of_chain hB hV
  obtain ⟨ref, x, hacc, hload⟩ := regular_readable hreg r c hrV hcV
  exact ⟨ref, x, hacc, hload, by simp [read, hacc, hload]⟩

/-- Witness for C36: the 4 x 5 matrix of `basic_test_submatrix`, its window
`(1, 3, 1, 4)`, the transpose of the window, the diagonal of the transpose, and
the diagonal matrix built from that diagonal, at the element `(1, 1)`. -/
theorem in_shape_access_never_fails_witness :
    ∃ ref x,
      operator_call (.diagonalmatrix (.diagonal (.transpose_matrix
        (.submatrix (.basic_matrix 4 5 0) 1 3 1 4))) 0 : matrix Nat) 1 1 = .ok ref ∧
      load [List.replicate 20 0] ref = some x ∧
      read [List.replicate 20 0] (.diagonalmatrix (.diagonal (.transpose_matrix
        (.submatrix (.basic_matrix 4 5 0) 1 3 1 4))) 0 : matrix Nat) 1 1 = .ok (some x) :=
  in_shape_access_never_fails [List.replicate 20 0] 4 5 0 (by decide) (by decide) (by decide)
    ⟨List.replicate 20 0, rfl, rfl⟩ [List.replicate 20 0]
    (.diagonalmatrix (.diagonal (.transpose_matrix
      (.submatrix (.basic_matrix 4 5 0) 1 3 1 4))) 0 : matrix Nat)
    (OrderedChain.diagonalmatrix
      (OrderedChain.diagonal
        (OrderedChain.transpose 0
          (OrderedChain.window 1 3 1 4 OrderedChain.start (by decide) (by decide)
            (fun _ _ _ _ _ he => by cases he) (by rfl))
          (by rfl)))
      (by rfl))
    1 1 (by decide) (by decide)

/-! ## The formatter -/

/-- C34: for every view `V` with `cols() >= 1` whose in-shape reads all succeed,
`x i j` being the element read at `(i, j)` (and, when `V` is a basic matrix,
whose buffer has the length its constructor allocated): `os << V` returns,
having appended to the stream, for each row `i = 0, ..., rows() - 1` in order,
the elements `x i 0`, ..., `x i (cols() - 1)` each followed by one space, then
one line break; that text holds exactly `rows()` line breaks and
`rows() * cols()` elements; and for a view with zero rows nothing is
appended.  Any bound above `cols()` on the iterations of the inner loop is
enough. -/
theorem operator_lshift_spec [Zero T] (h : Heap T) (V : matrix T) (hV : View V)
    (hc : 1 ≤ get_cols V) (halloc : is_basic V = true → Allocated h V)
    (x : Nat → Nat → T)
    (hread : ∀ i j, i < get_rows V → j < get_cols V → read h V i j = .ok (some (x i j)))
    (os : List (output T)) (fuel : Nat) (hfuel : get_cols V < fuel) :
    operator_lshift fuel h os V = .done (os ++ formatted x (get_cols V) (get_rows V)) ∧
    (formatted x (get_cols V) (get_rows V)).countP is_endl = get_rows V ∧
    (formatted x (get_cols V) (get_rows V)).countP is_element = get_rows V * get_cols V ∧
    (get_rows V = 0 → operator_lshift fuel h os V = .done os) := by
  have hval := view_valid hV
  have hshape := valid_shape_lt hval
  have hwalk : ∀ i, i < get_rows V →
      ∃ (pos : Nat → cursor T) (last : cursor T),
        begin V i = .ok (pos 0) ∧ end_at V i = .ok last ∧
        pos (get_cols V) = last ∧ not_equal last last = false ∧
        ∀ k, k < get_cols V →
          not_equal (pos k) last = true ∧
          dereference (pos k) = operator_call V i k ∧
          increment (pos k) = pos (k + 1) := by
    intro i hi
    by_cases hb : is_basic V = true
    · have hal := halloc hb
      cases V with
      | basic_matrix n_rows n_cols p =>
        simp only [get_rows, get_cols] at hc hi hshape hread ⊢
        have hsz := basic_readable_size_lt h n_rows n_cols p (by omega) hal
          (fun i j hi hj => ⟨x i j, hread i j hi hj⟩)
        exact row_walk_basic n_rows n_cols p i hshape.1 hsz hi
      | transpose_matrix base => simp [is_basic] at hb
      | submatrix base fr lr fc lc => simp [is_basic] at hb
      | diagonalmatrix base z => simp [is_basic] at hb
      | diagonal base => simp [is_basic] at hb
    · have hnb : is_basic V = false := by simpa using hb
      obtain ⟨ref, hacc, _⟩ := read_ok_some (hread i 0 hi (by omega))
      exact row_walk V hval hnb i hi (by omega) ⟨ref, hacc⟩
  have hrow : ∀ j, j < get_rows V → ∀ os : List (output T), ∃ i ie,
      begin V j = .ok i ∧ end_at V j = .ok ie ∧
      operator_lshift_row fuel h (get_cols V) i ie 0 os
        = .done (os ++ (formatted_row (x j) (get_cols V) ++ [.endl])) := by
    intro j hj os2
    obtain ⟨pos, last, hb, he, hstop, hlast, hstep⟩ := hwalk j hj
    have hrun := operator_lshift_row_walk h V j (get_cols V) (x j) pos last hshape.2
      hstop hlast hstep (fun k hk => hread j k hj hk) (get_cols V - 1) 0 os2 fuel
      (by omega) (by omega)
    have e : os2 ++ formatted_row (x j) 0 = os2 := by simp [formatted_row]
    rw [e] at hrun
    exact ⟨pos 0, last, hb, he, hrun⟩
  have hall := operator_lshift_rows_all fuel h V (get_cols V) (get_rows V) x hrow
    (get_rows V) 0 os (by omega)
  have e : os ++ formatted x (get_cols V) 0 = os := by simp [formatted]
  rw [e] at hall
  have hcount := formatted_count x (get_cols V) (get_rows V)
  refine ⟨hall, hcount.1, hcount.2, ?_⟩
  intro hz
  unfold operator_lshift
  rw [hz]
  rfl

/-- Witness for C34: the window `(1, 3, 1, 4)` of the 4 x 5 matrix of
`basic_test_submatrix`, freshly constructed, printed to an empty stream. -/
theorem operator_lshift_spec_witness :
    operator_lshift 4 [List.replicate 20 0] []
        (.submatrix (.basic_matrix 4 5 0) 1 3 1 4 : matrix Nat)
      = .done ([] ++ formatted (fun _ _ => 0)
          (get_cols (.submatrix (.basic_matrix 4 5 0) 1 3 1 4 : matrix Nat))
          (get_rows (.submatrix (.basic_matrix 4 5 0) 1 3 1 4 : matrix Nat))) :=
  (operator_lshift_spec [List.replicate 20 0]
    (.submatrix (.basic_matrix 4 5 0) 1 3 1 4 : matrix Nat)
    (View.window 1 3 1 4 (View.basic 4 5 0 (by decide) (by decide))
      (by decide) (by decide) (by decide) (by decide) (by rfl))
    (by decide) (fun hb => by simp [is_basic] at hb) (fun _ _ => 0)
    (fun i j hi hj => by
      have hi2 : i < 2 := hi
      have hj2 : j < 3 := hj
      interval_cases i <;> interval_cases j <;> rfl)
    [] 4 (by decide)).1

end Matrix_CPP
